import Mathlib

/-!
# The small-buffer, copy-on-write limb vector of `bigint-optimized`

A shallow embedding of `src/bigint-optimized/vector.h` and `vector.cpp`.

* Platform: LP64, little endian. `size_t` and pointers are 8 bytes, `uint32_t` is 4 bytes, so
  `SMALL_SIZE = sizeof(buffer_data) / sizeof(uint32_t) = 16 / 4 = 4`.
* The union `buffers_` is modelled by its active member. Reading the other member reinterprets
  the same 16 bytes (`buffers.as_static`, `buffers.as_dynamic`).
* The free store is a function from addresses to `shared_array` objects. `operator new` is an
  environment choice: every operation that may allocate takes the block the allocator hands out
  (`Alloc`: its address and the prior contents of its memory), or `none` when `std::bad_alloc`
  is thrown.
* Arrays are lists; every access is bounds checked and an access outside the array is undefined
  behaviour (`Fault.undefined`), as is an access through a pointer to a freed block.
* `size_t` values are natural numbers. The byte count handed to `operator new` wraps modulo
  `2 ^ 64` as in the source; reference counters are never incremented `2 ^ 64` times.
-/

namespace BigintVector

/-- Number of inline limbs, `sizeof(buffer_data) / sizeof(uint32_t)` on LP64. -/
def SMALL_SIZE : Nat := 4

/-- Number of values of `size_t`. -/
def SIZE_RANGE : Nat := 18446744073709551616

/-- Number of values of `uint32_t`. -/
def WORD_RANGE : Nat := 4294967296

/-- Largest capacity whose byte count `sizeof(shared_array) + capacity * 4` fits in `size_t`. -/
def MAX_WORDS : Nat := 4611686018427387901

/-- The heap object `shared_array`: a reference counter followed by the flexible array
`words`; the list holds as many slots as the block has room for. -/
structure shared_array where
  ref_counter : Nat
  words : List Nat
deriving DecidableEq

/-- The handle `buffer_data`: recorded capacity and the address of the `shared_array`. -/
structure buffer_data where
  capacity : Nat
  arr : Nat
deriving DecidableEq

/-- The union `buffers_`, by active member. -/
inductive buffers where
  | static_ (w : List Nat)
  | dynamic_ (d : buffer_data)
deriving DecidableEq

/-- The four limbs seen through `buffers_.static_`. -/
def buffers.as_static : buffers → List Nat
  | .static_ w => w
  | .dynamic_ d =>
    [d.capacity % WORD_RANGE, d.capacity / WORD_RANGE % WORD_RANGE,
     d.arr % WORD_RANGE, d.arr / WORD_RANGE % WORD_RANGE]

/-- The handle seen through `buffers_.dynamic_`. -/
def buffers.as_dynamic : buffers → buffer_data
  | .dynamic_ d => d
  | .static_ w =>
    ⟨w.getD 0 0 + WORD_RANGE * w.getD 1 0, w.getD 2 0 + WORD_RANGE * w.getD 3 0⟩

/-- The object `vector`: `size_` and the union `buffers_`. -/
structure vector where
  size_ : Nat
  buffers_ : buffers
deriving DecidableEq

/-- The free store: the live `shared_array` blocks by address. -/
abbrev Heap := Nat → Option shared_array

/-- Heap with the block at `p` replaced (or freed, with `none`). -/
def heap_set (h : Heap) (p : Nat) (o : Option shared_array) : Heap :=
  fun q => if q = p then o else h q

/-- A block handed out by `operator new`: its address and the prior contents of its memory. -/
structure Alloc where
  addr : Nat
  junk : Nat → Nat

/-- Ways an operation can go wrong that the language does not recover from. -/
inductive Fault where
  | assertion
  | undefined
deriving DecidableEq

/-- Result of running an operation on `*this` in a heap: normal return with a value and the new
state, `std::bad_alloc` propagating with the state at that moment, or a fault. -/
inductive Outcome (α : Type) where
  | ret (a : α) (v : vector) (h : Heap)
  | threw (v : vector) (h : Heap)
  | fault (f : Fault)

/-- Sequencing of operations on `*this`. -/
def Outcome.andThen {α β : Type} (o : Outcome α) (f : α → vector → Heap → Outcome β) :
    Outcome β :=
  match o with
  | .ret a v h => f a v h
  | .threw v h => .threw v h
  | .fault e => .fault e

/-- A state computed by array accesses; a failed access is undefined behaviour. -/
def Outcome.of_ub (o : Option (vector × Heap)) : Outcome Unit :=
  match o with
  | some (v, h) => .ret () v h
  | none => .fault .undefined

/-- Model of `std::fill(a + lo, a + hi, x)` and of `memset(a + lo, 0, (hi - lo) * 4)`. -/
def fill (ws : List Nat) (lo hi x : Nat) : Option (List Nat) :=
  if lo ≤ hi ∧ hi ≤ ws.length then
    some (ws.take lo ++ List.replicate (hi - lo) x ++ ws.drop hi)
  else none

/-- Model of `memcpy(dst, src, n * 4)` and of `std::copy(src, src + n, dst)`. -/
def copy_words (dst src : List Nat) (n : Nat) : Option (List Nat) :=
  if n ≤ src.length ∧ n ≤ dst.length then some (src.take n ++ dst.drop n) else none

/-- Model of `a[i] = x`. -/
def store_at (ws : List Nat) (i x : Nat) : Option (List Nat) :=
  if i < ws.length then some (ws.set i x) else none

/-- Apply an array update to the words of the block at `arr`. -/
def with_words (h : Heap) (arr : Nat) (f : List Nat → Option (List Nat)) : Option Heap :=
  match h arr with
  | none => none
  | some sa =>
    match f sa.words with
    | none => none
    | some w => some (heap_set h arr (some ⟨sa.ref_counter, w⟩))

/-- Byte count `sizeof(shared_array) + capacity * sizeof(uint32_t)` in `size_t` arithmetic. -/
def alloc_bytes (capacity : Nat) : Nat := (8 + capacity * 4) % SIZE_RANGE

/-- Number of `words` slots in a block of `alloc_bytes capacity` bytes. -/
def alloc_slots (capacity : Nat) : Nat := (alloc_bytes capacity - 8) / 4

/-- Model of `alloc_data`: the block is taken as the allocator hands it out, only `ref_counter`
is written; `none` is `std::bad_alloc`. -/
def alloc_data (al : Option Alloc) (capacity : Nat) (h : Heap) : Option (buffer_data × Heap) :=
  match al with
  | none => none
  | some a =>
    some (⟨capacity, a.addr⟩,
      heap_set h a.addr (some ⟨1, (List.range (alloc_slots capacity)).map a.junk⟩))

/-- Model of `unshare`: decrement the counter (in `size_t`) and delete the block at zero. -/
def unshare (a : Nat) (h : Heap) : Option Heap :=
  match h a with
  | none => none
  | some sa =>
    let rc := if sa.ref_counter = 0 then SIZE_RANGE - 1 else sa.ref_counter - 1
    if rc = 0 then some (heap_set h a none)
    else some (heap_set h a (some ⟨rc, sa.words⟩))

/-- Model of `vector::vector()`; `prior` is the uninitialised content of `buffers_`. -/
def vector_default (prior : Nat → Nat) : vector :=
  ⟨0, .static_ ((List.range SMALL_SIZE).map prior)⟩

/-- Model of `vector::vector(size_t size)`. -/
def vector_sized (prior : Nat → Nat) (al : Option Alloc) (size : Nat) (h : Heap) :
    Outcome Unit :=
  if size ≤ SMALL_SIZE then
    match fill ((List.range SMALL_SIZE).map prior) 0 size 0 with
    | some w => .ret () ⟨size, .static_ w⟩ h
    | none => .fault .undefined
  else
    match alloc_data al size h with
    | none => .threw ⟨size, .static_ ((List.range SMALL_SIZE).map prior)⟩ h
    | some (data, h1) => .ret () ⟨size, .dynamic_ data⟩ h1

/-- Model of `vector::vector(vector const& other)`. -/
def copy_ctor (other : vector) (h : Heap) : Outcome Unit :=
  if SMALL_SIZE < other.size_ then
    match h other.buffers_.as_dynamic.arr with
    | none => .fault .undefined
    | some sa =>
      .ret () ⟨other.size_, other.buffers_⟩
        (heap_set h other.buffers_.as_dynamic.arr (some ⟨sa.ref_counter + 1, sa.words⟩))
  else .ret () ⟨other.size_, other.buffers_⟩ h

/-- Model of `vector::~vector()`. -/
def destructor (v : vector) (h : Heap) : Outcome Unit :=
  if SMALL_SIZE < v.size_ then
    match unshare v.buffers_.as_dynamic.arr h with
    | none => .fault .undefined
    | some h1 => .ret () ⟨0, v.buffers_⟩ h1
  else .ret () ⟨0, v.buffers_⟩ h

/-- Model of `vector::swap`: the new `*this` and the new `other`. -/
def swap (v other : vector) : vector × vector :=
  (⟨other.size_, other.buffers_⟩, ⟨v.size_, v.buffers_⟩)

/-- Model of `vector::operator=`; the two addresses are `this` and `&other`. -/
def operator_assign (this_addr other_addr : Nat) (v other : vector) (h : Heap) :
    Outcome Unit :=
  if this_addr ≠ other_addr then
    (copy_ctor other h).andThen fun _ tmp h1 =>
      (destructor (swap v tmp).2 h1).andThen fun _ _ h2 => .ret () (swap v tmp).1 h2
  else .ret () v h

/-- Model of `vector::size`. -/
def size (v : vector) : Nat := v.size_

/-- Model of `vector::empty`. -/
def empty (v : vector) : Bool := v.size_ == 0

/-- Model of `vector::increased_capacity_`. -/
def increased_capacity_ (v : vector) : Except Fault Nat :=
  if SMALL_SIZE < v.size_ then
    .ok ((2 * v.buffers_.as_dynamic.capacity +
      (if v.buffers_.as_dynamic.capacity = 0 then 1 else 0)) % SIZE_RANGE)
  else .error .assertion

/-- Model of `vector::realloc_data_`. -/
def realloc_data_ (al : Option Alloc) (new_capacity : Nat) (v : vector) (h : Heap) :
    Outcome Unit :=
  if ¬ SMALL_SIZE < v.size_ then .fault .assertion
  else if ¬ SMALL_SIZE < new_capacity then .fault .assertion
  else
    match alloc_data al new_capacity h with
    | none => .threw v h
    | some (new_data, h1) =>
      match h1 v.buffers_.as_dynamic.arr with
      | none => .fault .undefined
      | some old =>
        Outcome.of_ub
          (((with_words h1 new_data.arr fun w => copy_words w old.words v.size_).bind
            fun h2 => unshare v.buffers_.as_dynamic.arr h2).map
            fun h3 => (⟨v.size_, .dynamic_ new_data⟩, h3))

/-- Model of `vector::realloc_if_share_`. -/
def realloc_if_share_ (al : Option Alloc) (v : vector) (h : Heap) : Outcome Unit :=
  if SMALL_SIZE < v.size_ then
    match h v.buffers_.as_dynamic.arr with
    | none => .fault .undefined
    | some sa =>
      if 1 < sa.ref_counter then realloc_data_ al v.buffers_.as_dynamic.capacity v h
      else .ret () v h
  else .ret () v h

/-- The array a pointer points into: the inline array of `*this` or the words of a block. -/
inductive Base where
  | inline
  | block (arr : Nat)
deriving DecidableEq

/-- A pointer to a limb (`iterator`, `const_iterator`, `uint32_t&`): array and offset. -/
structure Ptr where
  base : Base
  off : Nat
deriving DecidableEq

/-- Model of `vector::data() const`. -/
def data_const (v : vector) : Ptr :=
  if v.size_ ≤ SMALL_SIZE then ⟨.inline, 0⟩ else ⟨.block v.buffers_.as_dynamic.arr, 0⟩

/-- Model of `vector::data()`. -/
def data (al : Option Alloc) (v : vector) (h : Heap) : Outcome Ptr :=
  (realloc_if_share_ al v h).andThen fun _ v1 h1 => .ret (data_const v1) v1 h1

/-- The array behind a pointer base, as it is in the current state. -/
def array_at (v : vector) (h : Heap) : Base → Option (List Nat)
  | .inline => some v.buffers_.as_static
  | .block a => (h a).map fun sa => sa.words

/-- Write back the array behind a pointer base. -/
def array_put (v : vector) (h : Heap) (b : Base) (ws : List Nat) : Option (vector × Heap) :=
  match b with
  | .inline => some (⟨v.size_, .static_ ws⟩, h)
  | .block a =>
    match h a with
    | none => none
    | some sa => some (v, heap_set h a (some ⟨sa.ref_counter, ws⟩))

/-- Read through a pointer. -/
def load (v : vector) (h : Heap) (p : Ptr) : Option Nat :=
  (array_at v h p.base).bind fun ws => ws[p.off]?

/-- Write through a pointer. -/
def store (v : vector) (h : Heap) (p : Ptr) (x : Nat) : Option (vector × Heap) :=
  (array_at v h p.base).bind fun ws => (store_at ws p.off x).bind fun w => array_put v h p.base w

/-- Model of `vector::operator[](size_t)`: the reference returned. -/
def operator_index (al : Option Alloc) (i : Nat) (v : vector) (h : Heap) : Outcome Ptr :=
  if i < v.size_ then
    (data al v h).andThen fun p v1 h1 => .ret ⟨p.base, p.off + i⟩ v1 h1
  else .fault .assertion

/-- Model of `vector::operator[](size_t) const`: the reference returned. -/
def operator_index_const (i : Nat) (v : vector) : Except Fault Ptr :=
  if i < v.size_ then .ok ⟨(data_const v).base, (data_const v).off + i⟩
  else .error .assertion

/-- Model of `vector::back()`: the reference returned. -/
def back (al : Option Alloc) (v : vector) (h : Heap) : Outcome Ptr :=
  if v.size_ ≠ 0 then
    (data al v h).andThen fun p v1 h1 => .ret ⟨p.base, p.off + (v1.size_ - 1)⟩ v1 h1
  else .fault .assertion

/-- Model of `vector::back() const`: the reference returned; `size_ - 1` is `size_t`
arithmetic and there is no assertion. -/
def back_const (v : vector) : Ptr :=
  ⟨(data_const v).base, (data_const v).off + (v.size_ + (SIZE_RANGE - 1)) % SIZE_RANGE⟩

/-- The statement `v[i] = x`. -/
def assign_index (al : Option Alloc) (i x : Nat) (v : vector) (h : Heap) : Outcome Unit :=
  (operator_index al i v h).andThen fun p v1 h1 => Outcome.of_ub (store v1 h1 p x)

/-- The statement `v.back() = x`. -/
def assign_back (al : Option Alloc) (x : Nat) (v : vector) (h : Heap) : Outcome Unit :=
  (back al v h).andThen fun p v1 h1 => Outcome.of_ub (store v1 h1 p x)

/-- The expression `v[i]` on a `vector const&`: the limb read. -/
def read_index (i : Nat) (v : vector) (h : Heap) : Except Fault Nat :=
  match operator_index_const i v with
  | .error e => .error e
  | .ok p =>
    match load v h p with
    | some x => .ok x
    | none => .error .undefined

/-- Model of `vector::resize`. -/
def resize (al : Option Alloc) (new_size element : Nat) (v : vector) (h : Heap) :
    Outcome Unit :=
  if new_size < v.size_ then
    if v.size_ ≤ SMALL_SIZE then
      Outcome.of_ub ((fill v.buffers_.as_static new_size v.size_ 0).map
        fun w => (⟨new_size, .static_ w⟩, h))
    else if new_size ≤ SMALL_SIZE then
      match h v.buffers_.as_dynamic.arr with
      | none => .fault .undefined
      | some sa =>
        Outcome.of_ub ((copy_words v.buffers_.as_static sa.words new_size).bind
          fun w => (unshare v.buffers_.as_dynamic.arr h).map
            fun h1 => (⟨new_size, .static_ w⟩, h1))
    else
      (realloc_if_share_ al v h).andThen fun _ v1 h1 =>
        Outcome.of_ub ((with_words h1 v1.buffers_.as_dynamic.arr
          fun w => fill w new_size v1.size_ 0).map
            fun h2 => (⟨new_size, v1.buffers_⟩, h2))
  else if v.size_ < new_size then
    if SMALL_SIZE < v.size_ then
      match h v.buffers_.as_dynamic.arr with
      | none => .fault .undefined
      | some sa =>
        (if 1 < sa.ref_counter ∨ v.buffers_.as_dynamic.capacity < new_size then
          realloc_data_ al
            (if v.buffers_.as_dynamic.capacity < new_size then new_size
             else v.buffers_.as_dynamic.capacity) v h
         else .ret () v h).andThen fun _ v1 h1 =>
          Outcome.of_ub ((with_words h1 v1.buffers_.as_dynamic.arr
            fun w => fill w v1.size_ new_size element).map
              fun h2 => (⟨new_size, v1.buffers_⟩, h2))
    else if SMALL_SIZE < new_size then
      match alloc_data al new_size h with
      | none => .threw v h
      | some (data, h1) =>
        Outcome.of_ub ((with_words h1 data.arr
          fun w => (copy_words w v.buffers_.as_static v.size_).bind
            fun w1 => fill w1 v.size_ new_size element).map
              fun h2 => (⟨new_size, .dynamic_ data⟩, h2))
    else
      Outcome.of_ub ((fill v.buffers_.as_static v.size_ new_size element).map
        fun w => (⟨new_size, .static_ w⟩, h))
  else .ret () ⟨new_size, v.buffers_⟩ h

/-- Model of `vector::push_back`. -/
def push_back (al : Option Alloc) (element : Nat) (v : vector) (h : Heap) : Outcome Unit :=
  if v.size_ < SMALL_SIZE then
    Outcome.of_ub ((store_at v.buffers_.as_static v.size_ element).map
      fun w => (⟨v.size_ + 1, .static_ w⟩, h))
  else if v.size_ = SMALL_SIZE then
    match alloc_data al (SMALL_SIZE + 1) h with
    | none => .threw v h
    | some (data, h1) =>
      Outcome.of_ub ((with_words h1 data.arr
        fun w => (copy_words w v.buffers_.as_static SMALL_SIZE).bind
          fun w1 => store_at w1 SMALL_SIZE element).map
            fun h2 => (⟨v.size_ + 1, .dynamic_ data⟩, h2))
  else
    match h v.buffers_.as_dynamic.arr with
    | none => .fault .undefined
    | some sa =>
      (if 1 < sa.ref_counter ∨ v.size_ = v.buffers_.as_dynamic.capacity then
        (if v.size_ = v.buffers_.as_dynamic.capacity then
          match increased_capacity_ v with
          | .ok c => realloc_data_ al c v h
          | .error e => .fault e
         else realloc_data_ al v.buffers_.as_dynamic.capacity v h)
       else .ret () v h).andThen fun _ v1 h1 =>
        Outcome.of_ub ((with_words h1 v1.buffers_.as_dynamic.arr
          fun w => store_at w v1.size_ element).map
            fun h2 => (⟨v1.size_ + 1, v1.buffers_⟩, h2))

/-- Model of `vector::pop_back`. -/
def pop_back (al : Option Alloc) (v : vector) (h : Heap) : Outcome Unit :=
  if v.size_ = 0 then .fault .assertion
  else if v.size_ ≤ SMALL_SIZE then .ret () ⟨v.size_ - 1, v.buffers_⟩ h
  else if v.size_ = SMALL_SIZE + 1 then
    match h v.buffers_.as_dynamic.arr with
    | none => .fault .undefined
    | some sa =>
      Outcome.of_ub ((copy_words v.buffers_.as_static sa.words SMALL_SIZE).bind
        fun w => (unshare v.buffers_.as_dynamic.arr h).map
          fun h1 => (⟨v.size_ - 1, .static_ w⟩, h1))
  else
    (realloc_if_share_ al v h).andThen fun _ v1 h1 =>
      Outcome.of_ub ((with_words h1 v1.buffers_.as_dynamic.arr
        fun w => store_at w (v1.size_ - 1) 0).map
          fun h2 => (⟨v1.size_ - 1, v1.buffers_⟩, h2))

/-- Model of `vector::clear`. -/
def clear (v : vector) (h : Heap) : Outcome Unit :=
  if SMALL_SIZE < v.size_ then
    match unshare v.buffers_.as_dynamic.arr h with
    | none => .fault .undefined
    | some h1 => .ret () ⟨0, v.buffers_⟩ h1
  else .ret () ⟨0, v.buffers_⟩ h

/-- Model of `vector::begin()`. -/
def begin_ (al : Option Alloc) (v : vector) (h : Heap) : Outcome Ptr :=
  data al v h

/-- Model of `vector::end()`. -/
def end_ (al : Option Alloc) (v : vector) (h : Heap) : Outcome Ptr :=
  (data al v h).andThen fun p v1 h1 => .ret ⟨p.base, p.off + v1.size_⟩ v1 h1

/-- Model of `vector::begin() const`. -/
def begin_const (v : vector) : Ptr := data_const v

/-- Model of `vector::end() const`. -/
def end_const (v : vector) : Ptr := ⟨(data_const v).base, (data_const v).off + v.size_⟩

/-- Model of `std::swap(a[i], a[j])`. -/
def swap_at (ws : List Nat) (i j : Nat) : Option (List Nat) :=
  match ws[i]?, ws[j]? with
  | some x, some y => some ((ws.set i y).set j x)
  | _, _ => none

/-- The loop `while (p2 != e) std::swap(*p1++, *p2++);` of `erase` on one array, with the
number of iterations it may take as fuel. -/
def erase_loop (e : Nat) : Nat → List Nat → Nat → Nat → Option (List Nat × Nat × Nat)
  | 0, ws, p1, p2 => if p2 = e then some (ws, p1, p2) else none
  | fuel + 1, ws, p1, p2 =>
    if p2 = e then some (ws, p1, p2)
    else
      match swap_at ws p1 p2 with
      | none => none
      | some w => erase_loop e fuel w (p1 + 1) (p2 + 1)

/-- Model of `vector::erase(const_iterator first, const_iterator last)`. A pointer into
another array than the one `end() const` points into never meets `e`. The loop gets one unit
of fuel per slot of the array. -/
def erase (al : Option Alloc) (first last : Ptr) (v : vector) (h : Heap) : Outcome Ptr :=
  (if SMALL_SIZE < v.size_ then realloc_if_share_ al v h else .ret () v h).andThen
    fun _ v1 h1 =>
      if first.base = (end_const v1).base ∧ last.base = (end_const v1).base then
        match array_at v1 h1 (end_const v1).base with
        | none => .fault .undefined
        | some ws =>
          match erase_loop (end_const v1).off ws.length ws first.off last.off with
          | none => .fault .undefined
          | some (w1, p1, p2) =>
            match (fill w1 p1 p2 0).bind fun w2 => array_put v1 h1 (end_const v1).base w2 with
            | none => .fault .undefined
            | some (v2, h2) =>
              .ret first ⟨v2.size_ - (last.off - first.off), v2.buffers_⟩ h2
      else .fault .undefined

/-- Model of `vector::erase(const_iterator pos)`. -/
def erase_one (al : Option Alloc) (pos : Ptr) (v : vector) (h : Heap) : Outcome Ptr :=
  erase al pos ⟨pos.base, pos.off + 1⟩ v h

/-- The call `v.erase(v.begin() + first, v.begin() + last)`. Only the first `begin()` can
allocate, so the three steps share the allocator's answer. -/
def erase_range (al : Option Alloc) (first last : Nat) (v : vector) (h : Heap) :
    Outcome Ptr :=
  (begin_ al v h).andThen fun b1 v1 h1 =>
    (begin_ al v1 h1).andThen fun b2 v2 h2 =>
      erase al ⟨b1.base, b1.off + first⟩ ⟨b2.base, b2.off + last⟩ v2 h2

/-- Model of `operator==`: `memcmp` over the first `size_` limbs of both `data() const`. -/
def operator_eq (a b : vector) (h : Heap) : Except Fault Bool :=
  if a.size_ = b.size_ then
    match array_at a h (data_const a).base, array_at b h (data_const b).base with
    | some wa, some wb =>
      if a.size_ ≤ wa.length ∧ a.size_ ≤ wb.length then
        .ok (decide (wa.take a.size_ = wb.take a.size_))
      else .error .undefined
    | _, _ => .error .undefined
  else .ok false

/-- The limb sequence of a container: what `operator[] const` reads at `0 .. size() - 1`. -/
def limbs (v : vector) (h : Heap) : Option (List Nat) :=
  (array_at v h (data_const v).base).bind
    fun ws => if v.size_ ≤ ws.length then some (ws.take v.size_) else none

/-- Well-formed container in a heap: `buffers_` is four limbs wide; more than `SMALL_SIZE`
limbs live in a live block that the handle describes, has room for them and is counted at
least once. -/
def WF (v : vector) (h : Heap) : Prop :=
  v.buffers_.as_static.length = SMALL_SIZE ∧
  (SMALL_SIZE < v.size_ →
    v.size_ ≤ v.buffers_.as_dynamic.capacity ∧ v.buffers_.as_dynamic.capacity ≤ MAX_WORDS ∧
    match h v.buffers_.as_dynamic.arr with
    | none => False
    | some sa => 1 ≤ sa.ref_counter ∧ sa.words.length = v.buffers_.as_dynamic.capacity)

/-- The allocator's answer is a block at an address that is not live. -/
def Fresh (a : Alloc) (h : Heap) : Prop := h a.addr = none

/-- The empty free store. -/
def empty_heap : Heap := fun _ => none

/-- State after an operation that returned, if it did. -/
def Outcome.state {α : Type} : Outcome α → Option (vector × Heap)
  | .ret _ v h => some (v, h)
  | _ => none

/-- Run `push_back` for each limb in order, one allocator answer per call. -/
def push_back_all : List Alloc → List Nat → vector → Heap → Outcome Unit
  | a :: als, x :: xs, v, h =>
    (push_back (some a) x v h).andThen fun _ v1 h1 => push_back_all als xs v1 h1
  | _, [], v, h => .ret () v h
  | [], x :: xs, v, h =>
    (push_back none x v h).andThen fun _ v1 h1 => push_back_all [] xs v1 h1

/-- What an operation on `v` may do to the free store: every address keeps its block, or is
the block the allocator just handed out, or is the buffer of `v`, which is either owned by `v`
alone or merely loses one reference and keeps its words. -/
def Frame (v : vector) (h : Heap) (al : Option Alloc) (h' : Heap) : Prop :=
  ∀ p, h' p = h p ∨ (h p = none ∧ ∃ a, al = some a ∧ p = a.addr) ∨
    (SMALL_SIZE < v.size_ ∧ p = v.buffers_.as_dynamic.arr ∧
      ∀ sa, h p = some sa →
        sa.ref_counter ≤ 1 ∨ h' p = some ⟨sa.ref_counter - 1, sa.words⟩)

/-- The container is the only owner of its buffer, if it has one. -/
def Exclusive (v : vector) (h : Heap) : Prop :=
  SMALL_SIZE < v.size_ →
    ∃ sa, h v.buffers_.as_dynamic.arr = some sa ∧ sa.ref_counter = 1

/-- The buffer of the new state is the old buffer or the block just handed out. -/
def Owner (v : vector) (al : Option Alloc) (v' : vector) : Prop :=
  SMALL_SIZE < v'.size_ →
    (SMALL_SIZE < v.size_ ∧ v'.buffers_.as_dynamic.arr = v.buffers_.as_dynamic.arr) ∨
    ∃ a, al = some a ∧ v'.buffers_.as_dynamic.arr = a.addr

/-- Two containers do not use the same buffer. -/
def Separate (u v : vector) : Prop :=
  SMALL_SIZE < u.size_ → SMALL_SIZE < v.size_ →
    u.buffers_.as_dynamic.arr ≠ v.buffers_.as_dynamic.arr

/-- The allocator's answer, when there is one, is a block that is not live. -/
def FreshOpt (al : Option Alloc) (h : Heap) : Prop :=
  ∀ a, al = some a → Fresh a h

/-- State `(v1, h1)` reached from `(v, h)` by uniquifying or growing: `v1` has the same size
and is the only owner of a buffer with the words `ws`, which has room for `need` limbs and
starts with the limbs of `v`; `sa` is the buffer `v` had. -/
structure Prepared (v : vector) (h : Heap) (al : Option Alloc) (sa : shared_array)
    (need : Nat) (v1 : vector) (h1 : Heap) (ws : List Nat) : Prop where
  old : h v.buffers_.as_dynamic.arr = some sa
  size_eq : v1.size_ = v.size_
  room : need ≤ v1.buffers_.as_dynamic.capacity
  bound : v1.buffers_.as_dynamic.capacity ≤ MAX_WORDS
  owner : SMALL_SIZE < v.size_ →
    v1.buffers_.as_dynamic.arr = v.buffers_.as_dynamic.arr ∨
    ∃ a, al = some a ∧ v1.buffers_.as_dynamic.arr = a.addr
  new : h1 v1.buffers_.as_dynamic.arr = some ⟨1, ws⟩
  len : ws.length = v1.buffers_.as_dynamic.capacity
  same : ws.take v.size_ = sa.words.take v.size_
  frame : ∀ X, Frame v h al (heap_set h1 v1.buffers_.as_dynamic.arr X)
  wide : v1.buffers_.as_static.length = SMALL_SIZE

/-- What a mutating operation promises about the state `(v', h')` it returns from `(v, h)`:
the new size `n`, the new limb sequence `s'`, a well-formed container, and nothing else in
the free store disturbed. -/
structure Post (v : vector) (h : Heap) (al : Option Alloc) (v' : vector) (h' : Heap)
    (n : Nat) (s' : List Nat) : Prop where
  size_eq : v'.size_ = n
  wf : WF v' h'
  limbs_eq : limbs v' h' = some s'
  frame : Frame v h al h'
  owner : Owner v al v'

/-- The mutating operations of the interface, with their arguments. -/
inductive Mutation where
  | assign_index (i x : Nat)
  | assign_back (x : Nat)
  | push_back (x : Nat)
  | pop_back
  | resize (n x : Nat)
  | erase (first last : Nat)
  | clear

/-- Run a mutating operation on `*this`. -/
def Mutation.run (al : Option Alloc) (m : Mutation) (v : vector) (h : Heap) : Outcome Unit :=
  match m with
  | .assign_index i x => BigintVector.assign_index al i x v h
  | .assign_back x => BigintVector.assign_back al x v h
  | .push_back x => BigintVector.push_back al x v h
  | .pop_back => BigintVector.pop_back al v h
  | .resize n x => BigintVector.resize al n x v h
  | .erase first last => (erase_range al first last v h).andThen fun _ v1 h1 => .ret () v1 h1
  | .clear => BigintVector.clear v h

/-- The contract of a mutating operation on a container of `n` limbs: a valid index, a
non-empty container, a valid range, and a size whose buffer `size_t` can describe. -/
def Mutation.valid (m : Mutation) (n : Nat) : Prop :=
  match m with
  | .assign_index i _ => i < n
  | .assign_back _ => n ≠ 0
  | .push_back _ => 2 * n ≤ MAX_WORDS
  | .pop_back => n ≠ 0
  | .resize k _ => k ≤ MAX_WORDS
  | .erase first last => first ≤ last ∧ last ≤ n
  | .clear => True

/-- Assign the limbs of `xs` through `operator[]` at the indices `i, i + 1, ...`. -/
def assign_all (al : Option Alloc) : List Nat → Nat → vector → Heap → Outcome Unit
  | [], _, v, h => .ret () v h
  | x :: xs, i, v, h =>
    (assign_index al i x v h).andThen fun _ v1 h1 => assign_all al xs (i + 1) v1 h1

/-- A free store with one block: the words `ws` at address `p`, counted once. -/
def heap_one (p : Nat) (ws : List Nat) : Heap :=
  heap_set empty_heap p (some ⟨1, ws⟩)

/-- The container that owns the block at `p` and holds `n` limbs in `cap` slots. -/
def vector_at (p n cap : Nat) : vector := ⟨n, .dynamic_ ⟨cap, p⟩⟩

/-- A block at address `p` whose memory held `x` in every word. -/
def block_of (p x : Nat) : Alloc := ⟨p, fun _ => x⟩

/-- What a caller observes after an operation returned. -/
def Outcome.observe {α β : Type} (o : Outcome α) (f : vector → Heap → β) : Option β :=
  match o with
  | .ret _ v h => some (f v h)
  | _ => none

/-- The container is in the shared representation and its handle points to block `p`. -/
def Holds (v : vector) (p : Nat) : Prop :=
  SMALL_SIZE < v.size_ ∧ v.buffers_.as_dynamic.arr = p

/-- The expression `v.back()` on a `vector const&`: the limb read. -/
def read_back_const (v : vector) (h : Heap) : Except Fault Nat :=
  match load v h (back_const v) with
  | some x => .ok x
  | none => .error .undefined

/-- The expression `v.back()` on a `vector&`: the limb read, and the state it leaves. -/
def read_back (al : Option Alloc) (v : vector) (h : Heap) : Outcome Nat :=
  (back al v h).andThen fun p v1 h1 =>
    match load v1 h1 p with
    | some x => .ret x v1 h1
    | none => .fault .undefined

/-- The call `v.erase(v.begin() + i)`. -/
def erase_pos (al : Option Alloc) (i : Nat) (v : vector) (h : Heap) : Outcome Ptr :=
  (begin_ al v h).andThen fun b v1 h1 => erase_one al ⟨b.base, b.off + i⟩ v1 h1

/-- An operation `f`, run from the state `(v, h)` with the allocator's answer as argument,
gives the strong guarantee: when the allocator fails, either `std::bad_alloc` leaves the
operation with the state exactly `(v, h)`, or no exception leaves it and the operation does
what it does with any other answer of the allocator (it never asked). -/
def FailsClean {α : Type} (f : Option Alloc → Outcome α) (v : vector) (h : Heap) : Prop :=
  f none = .threw v h ∨
    ((∀ v' h', f none ≠ .threw v' h') ∧ ∀ al, f al = f none)

/-- What `unshare` leaves of a block that was counted at least once. -/
def released (sa : shared_array) : Option shared_array :=
  if sa.ref_counter = 1 then none else some ⟨sa.ref_counter - 1, sa.words⟩

/-- The exact effect on the free store of an operation that took the container from `v` to
`v'`, address by address: a block held before and after keeps its counter, and its words and
the container's size and capacity too unless it is counted once; a block given up is
released; a block taken is new and counted once; every other block is untouched. With
`leak`, a block given up while counted once may stay as it is counted, and a new block may
stay behind that the container does not hold. -/
def Effect (leak : Bool) (v : vector) (h : Heap) (v' : vector) (h' : Heap) : Prop :=
  ∀ p,
    (Holds v p → Holds v' p →
      ∃ sa ws, h p = some sa ∧ h' p = some ⟨sa.ref_counter, ws⟩ ∧
        ws.length = sa.words.length ∧
        ((ws = sa.words ∧ v'.size_ = v.size_ ∧
            v'.buffers_.as_dynamic.capacity = v.buffers_.as_dynamic.capacity) ∨
          sa.ref_counter = 1)) ∧
    (Holds v p → ¬ Holds v' p →
      ∃ sa, h p = some sa ∧
        (h' p = released sa ∨
          (leak = true ∧ sa.ref_counter = 1 ∧ ∃ ws, h' p = some ⟨1, ws⟩))) ∧
    (¬ Holds v p → Holds v' p → h p = none ∧ ∃ ws, h' p = some ⟨1, ws⟩) ∧
    (¬ Holds v p → ¬ Holds v' p →
      h' p = h p ∨ (leak = true ∧ h p = none ∧ ∃ ws, h' p = some ⟨1, ws⟩))

/-- A program state: the live containers and the free store. -/
structure System where
  objs : List vector
  heap : Heap

/-- Decision of `Holds`. -/
def holds (v : vector) (p : Nat) : Bool :=
  decide (SMALL_SIZE < v.size_) && decide (v.buffers_.as_dynamic.arr = p)

/-- Number of live containers in the shared representation that point to block `p`. -/
def holders (objs : List vector) (p : Nat) : Nat := objs.countP fun v => holds v p

/-- One operation of the interface on the containers of a program state. An operation that
may allocate gets a block that is not live; sizes stay within the capacities `size_t` can
describe; no pointer or iterator outlives the step. `with_erase` tells whether `erase` is among
the operations. -/
inductive Step (with_erase : Bool) : System → System → Prop
  | default_constructed (objs : List vector) (h : Heap) (prior : Nat → Nat) :
    Step with_erase ⟨objs, h⟩ ⟨vector_default prior :: objs, h⟩
  | sized_constructed (objs : List vector) (h : Heap) (prior : Nat → Nat) (a : Alloc)
    (n : Nat) (w : vector) (h' : Heap) (hf : Fresh a h) (hn : n ≤ MAX_WORDS)
    (hr : vector_sized prior (some a) n h = .ret () w h') :
    Step with_erase ⟨objs, h⟩ ⟨w :: objs, h'⟩
  | copied (objs : List vector) (h : Heap) (u : vector) (rest : List vector) (w : vector)
    (h' : Heap) (hperm : objs.Perm (u :: rest)) (hr : copy_ctor u h = .ret () w h') :
    Step with_erase ⟨objs, h⟩ ⟨w :: u :: rest, h'⟩
  | assigned (objs : List vector) (h : Heap) (pa pb : Nat) (a b : vector)
    (rest : List vector) (a' : vector) (h' : Heap) (hne : pa ≠ pb)
    (hperm : objs.Perm (a :: b :: rest))
    (hr : operator_assign pa pb a b h = .ret () a' h') :
    Step with_erase ⟨objs, h⟩ ⟨a' :: b :: rest, h'⟩
  | self_assigned (objs : List vector) (h : Heap) (pa : Nat) (a : vector)
    (rest : List vector) (a' : vector) (h' : Heap) (hperm : objs.Perm (a :: rest))
    (hr : operator_assign pa pa a a h = .ret () a' h') :
    Step with_erase ⟨objs, h⟩ ⟨a' :: rest, h'⟩
  | destroyed (objs : List vector) (h : Heap) (v : vector) (rest : List vector) (w : vector)
    (h' : Heap) (hperm : objs.Perm (v :: rest)) (hr : destructor v h = .ret () w h') :
    Step with_erase ⟨objs, h⟩ ⟨rest, h'⟩
  | swapped (objs : List vector) (h : Heap) (a b : vector) (rest : List vector)
    (hperm : objs.Perm (a :: b :: rest)) :
    Step with_erase ⟨objs, h⟩
      ⟨(BigintVector.swap a b).1 :: (BigintVector.swap a b).2 :: rest, h⟩
  | accessed (objs : List vector) (h : Heap) (v : vector) (rest : List vector) (a : Alloc)
    (p : Ptr) (v' : vector) (h' : Heap) (hperm : objs.Perm (v :: rest)) (hf : Fresh a h)
    (hr : data (some a) v h = .ret p v' h') :
    Step with_erase ⟨objs, h⟩ ⟨v' :: rest, h'⟩
  | mutated (objs : List vector) (h : Heap) (v : vector) (rest : List vector) (a : Alloc)
    (m : Mutation) (v' : vector) (h' : Heap) (hperm : objs.Perm (v :: rest))
    (hf : Fresh a h) (hv : m.valid v.size_)
    (he : with_erase = true ∨ ∀ f l, m ≠ .erase f l)
    (hr : m.run (some a) v h = .ret () v' h') :
    Step with_erase ⟨objs, h⟩ ⟨v' :: rest, h'⟩

/-- The states a program reaches: it starts without containers and takes steps. -/
inductive Reachable : System → Prop
  | start (h : Heap) : Reachable ⟨[], h⟩
  | step (s s' : System) (hs : Reachable s) (hst : Step true s s') : Reachable s'

/-- Every container is well formed and every live block is counted at least as often as
containers point to it; with `strict`, exactly as often, and at least once. -/
def Ledger (strict : Bool) (objs : List vector) (h : Heap) : Prop :=
  (∀ v ∈ objs, WF v h) ∧
  ∀ p sa, h p = some sa →
    holders objs p ≤ sa.ref_counter ∧
    (strict = true → sa.ref_counter = holders objs p ∧ 1 ≤ sa.ref_counter)

/-- Reference-count accounting: every container is well formed and the `ref_counter` of every
live block is the number of containers in the shared representation that point to it, which
is at least one. -/
def Counted (s : System) : Prop :=
  (∀ v ∈ s.objs, WF v s.heap) ∧
  ∀ p sa, s.heap p = some sa → sa.ref_counter = holders s.objs p ∧ 1 ≤ sa.ref_counter

/-- Containers that point to the same block have the same size and the same capacity. -/
def Snapshot (objs : List vector) : Prop :=
  ∀ u ∈ objs, ∀ w ∈ objs, ∀ p, Holds u p → Holds w p →
    u.size_ = w.size_ ∧ u.buffers_.as_dynamic.capacity = w.buffers_.as_dynamic.capacity

/-- How blocks come and go between two free stores: a block that appears is counted once,
and a block that disappears was counted once. -/
def Lifecycle (h h' : Heap) : Prop :=
  ∀ p, (h p = none → ∀ sa', h' p = some sa' → sa'.ref_counter = 1) ∧
    (∀ sa, h p = some sa → h' p = none → sa.ref_counter = 1)

end BigintVector

namespace BigintVector

/-! ## Heap and array primitives -/

@[simp] theorem as_dynamic_dynamic (d : buffer_data) : (buffers.dynamic_ d).as_dynamic = d := rfl

@[simp] theorem as_static_static (w : List Nat) : (buffers.static_ w).as_static = w := rfl

@[simp] theorem heap_set_same (h : Heap) (p : Nat) (o : Option shared_array) :
    heap_set h p o p = o := by
  simp [heap_set]

theorem heap_set_other (h : Heap) (p q : Nat) (o : Option shared_array) (hne : q ≠ p) :
    heap_set h p o q = h q := by
  simp [heap_set, hne]

theorem alloc_slots_eq (c : Nat) (hc : c ≤ MAX_WORDS) : alloc_slots c = c := by
  unfold alloc_slots alloc_bytes SIZE_RANGE
  unfold MAX_WORDS at hc
  omega

@[simp] theorem andThen_ret {α β : Type} (a : α) (v : vector) (h : Heap)
    (f : α → vector → Heap → Outcome β) : (Outcome.ret a v h).andThen f = f a v h := rfl

@[simp] theorem of_ub_some (v : vector) (h : Heap) :
    Outcome.of_ub (some (v, h)) = .ret () v h := rfl

theorem fill_eq (ws : List Nat) (lo hi x : Nat) (h1 : lo ≤ hi) (h2 : hi ≤ ws.length) :
    fill ws lo hi x = some (ws.take lo ++ List.replicate (hi - lo) x ++ ws.drop hi) := by
  simp [fill, h1, h2]

theorem copy_words_eq (dst src : List Nat) (n : Nat) (h1 : n ≤ src.length)
    (h2 : n ≤ dst.length) : copy_words dst src n = some (src.take n ++ dst.drop n) := by
  simp [copy_words, h1, h2]

theorem store_at_eq (ws : List Nat) (i x : Nat) (hi : i < ws.length) :
    store_at ws i x = some (ws.set i x) := by
  simp [store_at, hi]

theorem unshare_eq (p : Nat) (h : Heap) (sa : shared_array) (hp : h p = some sa)
    (hrc : 1 ≤ sa.ref_counter) :
    unshare p h = some (heap_set h p
      (if sa.ref_counter = 1 then none else some ⟨sa.ref_counter - 1, sa.words⟩)) := by
  unfold unshare
  rw [hp]
  have h0 : sa.ref_counter ≠ 0 := by omega
  by_cases h1 : sa.ref_counter = 1
  · simp [h1]
  · have h2 : sa.ref_counter - 1 ≠ 0 := by omega
    simp [h0, h1, h2]

theorem realloc_data_eq (a : Alloc) (c : Nat) (v : vector) (h : Heap) (sa : shared_array)
    (hs : SMALL_SIZE < v.size_) (hc : v.size_ ≤ c) (hmax : c ≤ MAX_WORDS)
    (hp : h v.buffers_.as_dynamic.arr = some sa) (hrc : 1 ≤ sa.ref_counter)
    (hlen : v.size_ ≤ sa.words.length) (hfresh : Fresh a h) :
    realloc_data_ (some a) c v h = .ret () ⟨v.size_, .dynamic_ ⟨c, a.addr⟩⟩
      (heap_set (heap_set h a.addr
          (some ⟨1, sa.words.take v.size_ ++ ((List.range c).map a.junk).drop v.size_⟩))
        v.buffers_.as_dynamic.arr
        (if sa.ref_counter = 1 then none else some ⟨sa.ref_counter - 1, sa.words⟩)) := by
  have hne : v.buffers_.as_dynamic.arr ≠ a.addr := by
    intro he
    rw [he] at hp
    rw [Fresh] at hfresh
    rw [hfresh] at hp
    cases hp
  have hsc : SMALL_SIZE < c := by omega
  unfold realloc_data_
  simp only [hs, hsc, not_true_eq_false, if_false, alloc_data, alloc_slots_eq c hmax]
  rw [heap_set_other _ _ _ _ hne, hp]
  simp only [with_words, heap_set_same]
  rw [copy_words_eq _ _ _ hlen (by simp; omega)]
  simp only [Option.bind, Option.map]
  rw [unshare_eq _ _ sa (by rw [heap_set_other _ _ _ _ hne, heap_set_other _ _ _ _ hne, hp]) hrc]
  simp only [of_ub_some]
  congr 1
  funext q
  by_cases h1 : q = v.buffers_.as_dynamic.arr
  · simp [heap_set, h1]
  · by_cases h2 : q = a.addr
    · simp [heap_set, h1, h2]
    · simp [heap_set, h1, h2]


/-! ## Well-formedness and the limb sequence -/

theorem WF_wide {v : vector} {h : Heap} (hw : WF v h) :
    v.buffers_.as_static.length = SMALL_SIZE := hw.1

theorem WF_inline (v : vector) (h : Heap) (hs : v.size_ ≤ SMALL_SIZE) :
    WF v h ↔ v.buffers_.as_static.length = SMALL_SIZE := by
  have hn : ¬ SMALL_SIZE < v.size_ := by omega
  simp [WF, hn]

theorem WF_shared (v : vector) (h : Heap) (hs : SMALL_SIZE < v.size_) :
    WF v h ↔ v.buffers_.as_static.length = SMALL_SIZE ∧
      ∃ sa, h v.buffers_.as_dynamic.arr = some sa ∧ 1 ≤ sa.ref_counter ∧
      sa.words.length = v.buffers_.as_dynamic.capacity ∧
      v.size_ ≤ v.buffers_.as_dynamic.capacity ∧
      v.buffers_.as_dynamic.capacity ≤ MAX_WORDS := by
  simp only [WF, hs, true_implies]
  constructor
  · rintro ⟨h0, h1, h2, h3⟩
    cases hp : h v.buffers_.as_dynamic.arr with
    | none => rw [hp] at h3; exact h3.elim
    | some sa => rw [hp] at h3; exact ⟨h0, sa, rfl, h3.1, h3.2, h1, h2⟩
  · rintro ⟨h0, sa, hp, h1, h2, h3, h4⟩
    rw [hp]
    exact ⟨h0, h3, h4, h1, h2⟩

theorem limbs_inline (v : vector) (h : Heap) (hs : v.size_ ≤ SMALL_SIZE)
    (hl : v.buffers_.as_static.length = SMALL_SIZE) :
    limbs v h = some (v.buffers_.as_static.take v.size_) := by
  simp [limbs, data_const, hs, array_at, hl]

theorem limbs_shared (v : vector) (h : Heap) (sa : shared_array) (hs : SMALL_SIZE < v.size_)
    (hp : h v.buffers_.as_dynamic.arr = some sa) (hl : v.size_ ≤ sa.words.length) :
    limbs v h = some (sa.words.take v.size_) := by
  have hn : ¬ v.size_ ≤ SMALL_SIZE := by omega
  simp [limbs, data_const, hn, array_at, hp, hl]

theorem limbs_length {v : vector} {h : Heap} {s : List Nat} (hl : limbs v h = some s) :
    s.length = v.size_ := by
  unfold limbs at hl
  cases ha : array_at v h (data_const v).base with
  | none => rw [ha] at hl; cases hl
  | some ws =>
    rw [ha] at hl
    simp only [Option.bind] at hl
    split at hl
    · cases hl
      simp
      omega
    · cases hl

theorem WF_limbs {v : vector} {h : Heap} (hw : WF v h) : ∃ s, limbs v h = some s := by
  by_cases hs : v.size_ ≤ SMALL_SIZE
  · exact ⟨_, limbs_inline v h hs ((WF_inline v h hs).1 hw)⟩
  · have hs1 : SMALL_SIZE < v.size_ := by omega
    obtain ⟨_, sa, hp, _, h2, h3, _⟩ := (WF_shared v h hs1).1 hw
    exact ⟨_, limbs_shared v h sa hs1 hp (by omega)⟩

/-! ## Uniquifying -/

theorem realloc_if_share_inline (al : Option Alloc) (v : vector) (h : Heap)
    (hs : v.size_ ≤ SMALL_SIZE) : realloc_if_share_ al v h = .ret () v h := by
  have hn : ¬ SMALL_SIZE < v.size_ := by omega
  simp [realloc_if_share_, hn]

theorem realloc_if_share_exclusive (al : Option Alloc) (v : vector) (h : Heap)
    (sa : shared_array) (hp : h v.buffers_.as_dynamic.arr = some sa)
    (hrc : sa.ref_counter ≤ 1) : realloc_if_share_ al v h = .ret () v h := by
  have hn : ¬ 1 < sa.ref_counter := by omega
  unfold realloc_if_share_
  split
  · simp [hp, hn]
  · rfl

theorem realloc_if_share_shared (a : Alloc) (v : vector) (h : Heap) (sa : shared_array)
    (hs : SMALL_SIZE < v.size_) (hp : h v.buffers_.as_dynamic.arr = some sa)
    (hrc : 1 < sa.ref_counter) (hcap : v.size_ ≤ v.buffers_.as_dynamic.capacity)
    (hmax : v.buffers_.as_dynamic.capacity ≤ MAX_WORDS)
    (hlen : v.size_ ≤ sa.words.length) (hfresh : Fresh a h) :
    realloc_if_share_ (some a) v h =
      .ret () ⟨v.size_, .dynamic_ ⟨v.buffers_.as_dynamic.capacity, a.addr⟩⟩
        (heap_set (heap_set h a.addr
          (some ⟨1, sa.words.take v.size_ ++
            ((List.range v.buffers_.as_dynamic.capacity).map a.junk).drop v.size_⟩))
          v.buffers_.as_dynamic.arr (some ⟨sa.ref_counter - 1, sa.words⟩)) := by
  unfold realloc_if_share_
  simp only [hs, if_true, hp, hrc]
  rw [realloc_data_eq a _ v h sa hs hcap hmax hp (by omega) hlen hfresh]
  have h1 : sa.ref_counter ≠ 1 := by omega
  simp [h1]


theorem prepared_of_exclusive (al : Option Alloc) (v : vector) (h : Heap) (sa : shared_array)
    (need : Nat) (hs : SMALL_SIZE < v.size_) (hp : h v.buffers_.as_dynamic.arr = some sa)
    (hrc : sa.ref_counter = 1) (hlen : sa.words.length = v.buffers_.as_dynamic.capacity)
    (hroom : need ≤ v.buffers_.as_dynamic.capacity)
    (hmax : v.buffers_.as_dynamic.capacity ≤ MAX_WORDS)
    (hwide : v.buffers_.as_static.length = SMALL_SIZE) :
    Prepared v h al sa need v h sa.words := by
  refine ⟨hp, rfl, hroom, hmax, fun _ => Or.inl rfl, ?_, hlen, rfl, ?_, hwide⟩
  · rw [hp, ← hrc]
  · intro X p
    by_cases hpe : p = v.buffers_.as_dynamic.arr
    · right; right
      refine ⟨hs, hpe, ?_⟩
      intro sa' hsa'
      rw [hpe, hp] at hsa'
      cases hsa'
      left; omega
    · left
      exact heap_set_other _ _ _ _ hpe

theorem prepared_of_realloc (a : Alloc) (c : Nat) (v : vector) (h : Heap) (sa : shared_array)
    (hs : SMALL_SIZE < v.size_) (hc : v.size_ ≤ c) (hmax : c ≤ MAX_WORDS)
    (hp : h v.buffers_.as_dynamic.arr = some sa) (hrc : 1 ≤ sa.ref_counter)
    (hlen : v.size_ ≤ sa.words.length) (hfresh : Fresh a h) :
    ∃ v1 h1 ws, realloc_data_ (some a) c v h = .ret () v1 h1 ∧
      Prepared v h (some a) sa c v1 h1 ws := by
  have hne : v.buffers_.as_dynamic.arr ≠ a.addr := by
    intro he
    rw [he, hfresh] at hp
    cases hp
  refine ⟨_, _, sa.words.take v.size_ ++ ((List.range c).map a.junk).drop v.size_,
    realloc_data_eq a c v h sa hs hc hmax hp hrc hlen hfresh, ?_⟩
  refine ⟨hp, rfl, le_refl _, hmax, fun _ => Or.inr ⟨a, rfl, rfl⟩, ?_, ?_, ?_, ?_, rfl⟩
  · simp only [as_dynamic_dynamic]
    rw [heap_set_other _ _ _ _ (Ne.symm hne), heap_set_same]
  · simp only [as_dynamic_dynamic, List.length_append, List.length_take, List.length_drop,
      List.length_map, List.length_range]
    omega
  · rw [List.take_append_of_le_length (by simp; omega), List.take_take]
    simp
  · intro X p
    simp only [as_dynamic_dynamic]
    by_cases hpa : p = a.addr
    · right; left
      subst hpa
      exact ⟨hfresh, a, rfl, rfl⟩
    · by_cases hpo : p = v.buffers_.as_dynamic.arr
      · right; right
        refine ⟨hs, hpo, ?_⟩
        intro sa' hsa'
        rw [hpo, hp] at hsa'
        cases hsa'
        by_cases h1 : sa.ref_counter = 1
        · left; omega
        · right
          rw [heap_set_other _ _ _ _ hpa, hpo, heap_set_same]
          simp [h1]
      · left
        rw [heap_set_other _ _ _ _ hpa, heap_set_other _ _ _ _ hpo,
          heap_set_other _ _ _ _ hpa]

theorem prepared_uniquify (al : Option Alloc) (v : vector) (h : Heap)
    (hs : SMALL_SIZE < v.size_) (hw : WF v h)
    (hal : Exclusive v h ∨ ∃ a, al = some a ∧ Fresh a h) :
    ∃ sa v1 h1 ws, realloc_if_share_ al v h = .ret () v1 h1 ∧
      Prepared v h al sa v.size_ v1 h1 ws := by
  obtain ⟨hwide, sa, hp, hrc, hlen, hcap, hmax⟩ := (WF_shared v h hs).1 hw
  by_cases h1 : sa.ref_counter = 1
  · exact ⟨sa, v, h, sa.words, realloc_if_share_exclusive al v h sa hp (by omega),
      prepared_of_exclusive al v h sa _ hs hp h1 hlen hcap hmax hwide⟩
  · rcases hal with hex | ⟨a, rfl, hfresh⟩
    · obtain ⟨sa', hp', hrc'⟩ := hex hs
      rw [hp] at hp'
      cases hp'
      exact absurd hrc' h1
    · obtain ⟨v1, h1', ws, he, hprep⟩ :=
        prepared_of_realloc a v.buffers_.as_dynamic.capacity v h sa hs hcap hmax hp hrc
          (by omega) hfresh
      refine ⟨sa, v1, h1', ws, ?_, ?_⟩
      · unfold realloc_if_share_
        have h2 : 1 < sa.ref_counter := by omega
        simp only [hs, if_true, hp, h2]
        exact he
      · exact { hprep with room := le_trans hcap hprep.room }

theorem prepared_finish {v : vector} {h : Heap} {al : Option Alloc} {sa : shared_array}
    {need : Nat} {v1 : vector} {h1 : Heap} {ws : List Nat}
    (hprep : Prepared v h al sa need v1 h1 ws) (hs : SMALL_SIZE < v.size_)
    (f : List Nat → Option (List Nat)) (ws' : List Nat) (n : Nat)
    (hf : f ws = some ws') (hlen : ws'.length = ws.length) (hn : SMALL_SIZE < n)
    (hnl : n ≤ ws.length) :
    Outcome.of_ub ((with_words h1 v1.buffers_.as_dynamic.arr f).map
        fun h2 => (⟨n, v1.buffers_⟩, h2)) =
      .ret () ⟨n, v1.buffers_⟩ (heap_set h1 v1.buffers_.as_dynamic.arr (some ⟨1, ws'⟩)) ∧
    WF ⟨n, v1.buffers_⟩ (heap_set h1 v1.buffers_.as_dynamic.arr (some ⟨1, ws'⟩)) ∧
    limbs ⟨n, v1.buffers_⟩ (heap_set h1 v1.buffers_.as_dynamic.arr (some ⟨1, ws'⟩)) =
      some (ws'.take n) ∧
    Frame v h al (heap_set h1 v1.buffers_.as_dynamic.arr (some ⟨1, ws'⟩)) ∧
    Exclusive ⟨n, v1.buffers_⟩ (heap_set h1 v1.buffers_.as_dynamic.arr (some ⟨1, ws'⟩)) ∧
    Owner v al ⟨n, v1.buffers_⟩ := by
  refine ⟨?_, ?_, ?_, hprep.frame _, ?_, ?_⟩
  · simp [with_words, hprep.new, hf]
  · rw [WF_shared _ _ (by exact hn)]
    refine ⟨hprep.wide, _, heap_set_same _ _ _, le_refl _, ?_, ?_, hprep.bound⟩
    · simp only
      rw [hlen, hprep.len]
    · simp only
      rw [← hprep.len]
      exact hnl
  · rw [limbs_shared _ _ _ (by exact hn) (heap_set_same _ _ _) (by simp only; omega)]
  · intro _
    exact ⟨_, heap_set_same _ _ _, rfl⟩
  · intro _
    rcases hprep.owner hs with ho | ho
    · exact Or.inl ⟨hs, ho⟩
    · exact Or.inr ho


theorem frame_refl (v : vector) (h : Heap) (al : Option Alloc) : Frame v h al h :=
  fun _ => Or.inl rfl

theorem frame_release (v : vector) (h : Heap) (al : Option Alloc) (sa : shared_array)
    (hs : SMALL_SIZE < v.size_) (hp : h v.buffers_.as_dynamic.arr = some sa) :
    Frame v h al (heap_set h v.buffers_.as_dynamic.arr
      (if sa.ref_counter = 1 then none else some ⟨sa.ref_counter - 1, sa.words⟩)) := by
  intro p
  by_cases hpe : p = v.buffers_.as_dynamic.arr
  · right; right
    refine ⟨hs, hpe, ?_⟩
    intro sa' hsa'
    rw [hpe, hp] at hsa'
    cases hsa'
    by_cases h1 : sa.ref_counter = 1
    · left; omega
    · right
      rw [hpe, heap_set_same]
      simp [h1]
  · left
    exact heap_set_other _ _ _ _ hpe

theorem frame_alloc (v : vector) (h : Heap) (a : Alloc) (hfresh : Fresh a h)
    (X : Option shared_array) : Frame v h (some a) (heap_set h a.addr X) := by
  intro p
  by_cases hpe : p = a.addr
  · right; left
    subst hpe
    exact ⟨hfresh, a, rfl, rfl⟩
  · left
    exact heap_set_other _ _ _ _ hpe

theorem owner_inline (v : vector) (al : Option Alloc) (v' : vector)
    (hs : v'.size_ ≤ SMALL_SIZE) : Owner v al v' := by
  intro h
  omega

theorem exclusive_inline (v : vector) (h : Heap) (hs : v.size_ ≤ SMALL_SIZE) :
    Exclusive v h := by
  intro h
  omega

theorem take_set_ge (l : List Nat) (n m x : Nat) (hnm : n ≤ m) :
    (l.set m x).take n = l.take n := by
  apply List.ext_getElem?
  intro i
  rw [List.getElem?_take, List.getElem?_take]
  split
  · rw [List.getElem?_set_ne (by omega)]
  · rfl

/-! ## `pop_back` -/

theorem pop_back_spec (al : Option Alloc) (v : vector) (h : Heap) (s : List Nat)
    (hw : WF v h) (hne : v.size_ ≠ 0) (hl : limbs v h = some s)
    (hal : Exclusive v h ∨ ∃ a, al = some a ∧ Fresh a h) :
    ∃ v' h', pop_back al v h = .ret () v' h' ∧
      Post v h al v' h' (v.size_ - 1) (s.take (v.size_ - 1)) ∧ Exclusive v' h' := by
  by_cases hs : v.size_ ≤ SMALL_SIZE
  · -- inline
    have hwide := WF_wide hw
    rw [limbs_inline v h hs hwide] at hl
    cases hl
    have hs' : v.size_ - 1 ≤ SMALL_SIZE := by omega
    refine ⟨⟨v.size_ - 1, v.buffers_⟩, h, by simp [pop_back, hne, hs], ⟨rfl, ?_, ?_, ?_, ?_⟩, ?_⟩
    · exact (WF_inline ⟨v.size_ - 1, v.buffers_⟩ h hs').2 hwide
    · rw [limbs_inline ⟨v.size_ - 1, v.buffers_⟩ h hs' hwide, List.take_take]
      simp only
      congr 2
      omega
    · exact frame_refl _ _ _
    · exact owner_inline _ _ ⟨v.size_ - 1, v.buffers_⟩ hs'
    · exact exclusive_inline ⟨v.size_ - 1, v.buffers_⟩ _ hs'
  · have hs1 : SMALL_SIZE < v.size_ := by omega
    obtain ⟨hwide, sa, hp, hrc, hlen, hcap, hmax⟩ := (WF_shared v h hs1).1 hw
    rw [limbs_shared v h sa hs1 hp (by omega)] at hl
    cases hl
    by_cases h5 : v.size_ = SMALL_SIZE + 1
    · -- crossing back to the inline representation
      have hpop : pop_back al v h = .ret ()
          ⟨v.size_ - 1, .static_ (sa.words.take SMALL_SIZE ++
            v.buffers_.as_static.drop SMALL_SIZE)⟩
          (heap_set h v.buffers_.as_dynamic.arr
            (if sa.ref_counter = 1 then none else some ⟨sa.ref_counter - 1, sa.words⟩)) := by
        unfold pop_back
        simp only [hne, hs, h5, if_false, if_true, hp]
        rw [copy_words_eq _ _ _ (by omega) (by omega), unshare_eq _ _ sa hp hrc]
        rfl
      have hs' : v.size_ - 1 ≤ SMALL_SIZE := by omega
      have hlen' : (sa.words.take SMALL_SIZE ++ v.buffers_.as_static.drop SMALL_SIZE).length
          = SMALL_SIZE := by
        simp only [List.length_append, List.length_take, List.length_drop]
        omega
      refine ⟨_, _, hpop, ⟨rfl, ?_, ?_, ?_, ?_⟩, ?_⟩
      · exact (WF_inline ⟨v.size_ - 1, (.static_ (sa.words.take SMALL_SIZE ++ v.buffers_.as_static.drop SMALL_SIZE))⟩ _ hs').2 hlen'
      · rw [limbs_inline ⟨v.size_ - 1, (.static_ (sa.words.take SMALL_SIZE ++ v.buffers_.as_static.drop SMALL_SIZE))⟩ _ hs' hlen']
        simp only [as_static_static]
        rw [List.take_append_of_le_length (by simp; omega), List.take_take, List.take_take]
        congr 2
        omega
      · exact frame_release v h al sa hs1 hp
      · exact owner_inline _ _ ⟨v.size_ - 1, (.static_ (sa.words.take SMALL_SIZE ++ v.buffers_.as_static.drop SMALL_SIZE))⟩ hs'
      · exact exclusive_inline ⟨v.size_ - 1, (.static_ (sa.words.take SMALL_SIZE ++ v.buffers_.as_static.drop SMALL_SIZE))⟩ _ hs'
    · -- stays shared
      obtain ⟨sa', v1, h1, ws, he, hprep⟩ := prepared_uniquify al v h hs1 hw hal
      have hsa : sa' = sa := by
        have := hprep.old
        rw [hp] at this
        exact (Option.some.inj this).symm
      subst hsa
      have hsz := hprep.size_eq
      have hwl : v.size_ ≤ ws.length := by
        rw [hprep.len]
        exact hprep.room
      obtain ⟨e1, e2, e3, e4, e5, e6⟩ := prepared_finish hprep hs1
        (fun w => store_at w (v1.size_ - 1) 0) (ws.set (v1.size_ - 1) 0) (v1.size_ - 1)
        (store_at_eq _ _ _ (by omega)) (by simp) (by omega) (by omega)
      refine ⟨_, _, ?_, ⟨?_, e2, ?_, e4, e6⟩, e5⟩
      · unfold pop_back
        simp only [hne, hs, h5, if_false, he, andThen_ret]
        exact e1
      · simp only
        omega
      · rw [e3, hsz, take_set_ge _ _ _ _ (le_refl _), ← hprep.same, List.take_take]
        congr 2
        omega

theorem heap_set_set (h : Heap) (p : Nat) (x y : Option shared_array) :
    heap_set (heap_set h p x) p y = heap_set h p y := by
  funext q
  by_cases hq : q = p <;> simp [heap_set, hq]

theorem take_succ_set (l : List Nat) (n x : Nat) (hn : n < l.length) :
    (l.set n x).take (n + 1) = l.take n ++ [x] := by
  apply List.ext_getElem?
  intro i
  rw [List.getElem?_take, List.getElem?_append, List.getElem?_set]
  simp only [List.length_take, List.getElem?_take]
  by_cases h1 : i < n
  · have h2 : i < n + 1 := by omega
    have h3 : i < min n l.length := by omega
    have h4 : n ≠ i := by omega
    simp [h1, h2, h3, h4]
  · by_cases h2 : i = n
    · subst h2
      have h3 : ¬ i < min i l.length := by omega
      have h4 : i - min i l.length = 0 := by omega
      simp [hn, h3, h4]
    · have h3 : ¬ i < n + 1 := by omega
      have h4 : ¬ i < min n l.length := by omega
      have h5 : i - min n l.length ≠ 0 := by omega
      simp [h3, h4]
      cases h6 : i - min n l.length with
      | zero => omega
      | succ k => simp

/-! ## `push_back` -/

theorem push_back_spec (a : Alloc) (x : Nat) (v : vector) (h : Heap) (s : List Nat)
    (hw : WF v h) (hl : limbs v h = some s) (hfresh : Fresh a h)
    (hmax : 2 * v.size_ ≤ MAX_WORDS) :
    ∃ v' h', push_back (some a) x v h = .ret () v' h' ∧
      Post v h (some a) v' h' (v.size_ + 1) (s ++ [x]) ∧ Exclusive v' h' := by
  have hwide := WF_wide hw
  by_cases hs : v.size_ < SMALL_SIZE
  · -- room in the inline array
    rw [limbs_inline v h (by omega) hwide] at hl
    cases hl
    have hs' : v.size_ + 1 ≤ SMALL_SIZE := by omega
    have hlen' : (v.buffers_.as_static.set v.size_ x).length = SMALL_SIZE := by
      simp [hwide]
    refine ⟨⟨v.size_ + 1, .static_ (v.buffers_.as_static.set v.size_ x)⟩, h, ?_,
      ⟨rfl, ?_, ?_, frame_refl _ _ _, ?_⟩, ?_⟩
    · unfold push_back
      simp only [hs, if_true]
      rw [store_at_eq _ _ _ (by omega)]
      rfl
    · exact (WF_inline ⟨v.size_ + 1, .static_ (v.buffers_.as_static.set v.size_ x)⟩ h hs').2
        hlen'
    · rw [limbs_inline ⟨v.size_ + 1, .static_ (v.buffers_.as_static.set v.size_ x)⟩ h hs'
        hlen']
      simp only [as_static_static]
      rw [take_succ_set _ _ _ (by omega)]
    · exact owner_inline _ _ ⟨v.size_ + 1, .static_ (v.buffers_.as_static.set v.size_ x)⟩ hs'
    · exact exclusive_inline ⟨v.size_ + 1, .static_ (v.buffers_.as_static.set v.size_ x)⟩ _
        hs'
  · by_cases h4 : v.size_ = SMALL_SIZE
    · -- the inline array is full: move to a new block
      rw [limbs_inline v h (by omega) hwide] at hl
      cases hl
      have h5 : SMALL_SIZE + 1 ≤ MAX_WORDS := by decide
      have hs' : SMALL_SIZE < v.size_ + 1 := by omega
      have hpush : push_back (some a) x v h = .ret ()
          ⟨v.size_ + 1, .dynamic_ ⟨SMALL_SIZE + 1, a.addr⟩⟩
          (heap_set h a.addr (some ⟨1, (v.buffers_.as_static.take SMALL_SIZE ++
            ((List.range (SMALL_SIZE + 1)).map a.junk).drop SMALL_SIZE).set SMALL_SIZE x⟩)) := by
        have hst := store_at_eq (v.buffers_.as_static.take SMALL_SIZE ++
          ((List.range (SMALL_SIZE + 1)).map a.junk).drop SMALL_SIZE) SMALL_SIZE x (by
            simp only [List.length_append, List.length_take, List.length_drop,
              List.length_map, List.length_range, hwide]
            omega)
        unfold push_back
        simp only [hs, h4, if_false, if_true, alloc_data, alloc_slots_eq _ h5, with_words,
          heap_set_same, lt_irrefl]
        rw [copy_words_eq _ _ _ (by omega) (by simp)]
        simp only [Option.bind, hst, Option.map, of_ub_some, heap_set_set]
      have hlen' : ((v.buffers_.as_static.take SMALL_SIZE ++
          ((List.range (SMALL_SIZE + 1)).map a.junk).drop SMALL_SIZE).set SMALL_SIZE x).length
          = SMALL_SIZE + 1 := by
        simp [hwide]
      refine ⟨_, _, hpush, ⟨rfl, ?_, ?_, frame_alloc _ _ _ hfresh _, ?_⟩, ?_⟩
      · rw [WF_shared _ _ hs']
        refine ⟨rfl, _, heap_set_same _ _ _, le_refl _, hlen', ?_, h5⟩
        simp only [as_dynamic_dynamic]
        omega
      · refine (limbs_shared _ _ _ (by exact hs') (heap_set_same _ _ _)
          (by simp only [hlen']; omega)).trans ?_
        simp only [h4]
        rw [take_succ_set _ _ _ (by simp [hwide]),
          List.take_append_of_le_length (by simp [hwide]), List.take_take]
        simp
      · intro _
        exact Or.inr ⟨a, rfl, rfl⟩
      · intro _
        exact ⟨_, heap_set_same _ _ _, rfl⟩
    · -- shared
      have hs1 : SMALL_SIZE < v.size_ := by omega
      obtain ⟨_, sa, hp, hrc, hlen, hcap, hcmax⟩ := (WF_shared v h hs1).1 hw
      rw [limbs_shared v h sa hs1 hp (by omega)] at hl
      cases hl
      have hprep : ∃ v1 h1 ws,
          (if 1 < sa.ref_counter ∨ v.size_ = v.buffers_.as_dynamic.capacity then
            (if v.size_ = v.buffers_.as_dynamic.capacity then
              match increased_capacity_ v with
              | .ok c => realloc_data_ (some a) c v h
              | .error e => .fault e
             else realloc_data_ (some a) v.buffers_.as_dynamic.capacity v h)
           else .ret () v h) = .ret () v1 h1 ∧
          Prepared v h (some a) sa (v.size_ + 1) v1 h1 ws := by
        by_cases hfull : v.size_ = v.buffers_.as_dynamic.capacity
        · have hinc : increased_capacity_ v = .ok (2 * v.size_) := by
            unfold increased_capacity_
            have h0 : v.buffers_.as_dynamic.capacity ≠ 0 := by omega
            have h0' : v.size_ ≠ 0 := by omega
            simp only [hs1, if_true, h0, h0', if_false, ← hfull, Nat.add_zero]
            congr 1
            unfold SIZE_RANGE
            unfold MAX_WORDS at hmax
            omega
          obtain ⟨v1, h1, ws, he, hp1⟩ := prepared_of_realloc a (2 * v.size_) v h sa hs1
            (by omega) hmax hp hrc (by omega) hfresh
          refine ⟨v1, h1, ws, ?_, { hp1 with room := le_trans (by omega) hp1.room }⟩
          simp only [← hfull, or_true, if_true, hinc]
          exact he
        · by_cases hsh : 1 < sa.ref_counter
          · obtain ⟨v1, h1, ws, he, hp1⟩ := prepared_of_realloc a
              v.buffers_.as_dynamic.capacity v h sa hs1 hcap hcmax hp hrc (by omega) hfresh
            refine ⟨v1, h1, ws, ?_, { hp1 with room := le_trans (by omega) hp1.room }⟩
            simp only [hsh, true_or, if_true, hfull, if_false]
            exact he
          · refine ⟨v, h, sa.words, ?_, prepared_of_exclusive _ v h sa _ hs1 hp (by omega) hlen
              (by omega) hcmax hwide⟩
            simp only [hsh, hfull, or_self, if_false]
      obtain ⟨v1, h1, ws, he, hp1⟩ := hprep
      have hsz := hp1.size_eq
      have hwl : v.size_ + 1 ≤ ws.length := by
        rw [hp1.len]
        exact hp1.room
      obtain ⟨e1, e2, e3, e4, e5, e6⟩ := prepared_finish hp1 hs1
        (fun w => store_at w v1.size_ x) (ws.set v1.size_ x) (v1.size_ + 1)
        (store_at_eq _ _ _ (by omega)) (by simp) (by omega) (by omega)
      refine ⟨_, _, ?_, ⟨?_, e2, ?_, e4, e6⟩, e5⟩
      · unfold push_back
        simp only [hs, h4, if_false, hp]
        rw [he]
        exact e1
      · simp only
        omega
      · rw [e3, hsz, take_succ_set _ _ _ (by omega), hp1.same]


/-! ## `resize` -/

theorem fill_length (ws : List Nat) (lo hi x : Nat) (h1 : lo ≤ hi) (h2 : hi ≤ ws.length) :
    (ws.take lo ++ List.replicate (hi - lo) x ++ ws.drop hi).length = ws.length := by
  simp only [List.length_append, List.length_take, List.length_replicate, List.length_drop]
  omega

theorem take_fill_low (ws : List Nat) (n lo hi x : Nat) (h0 : n ≤ lo) (h2 : lo ≤ ws.length) :
    (ws.take lo ++ List.replicate (hi - lo) x ++ ws.drop hi).take n = ws.take n := by
  rw [List.append_assoc, List.take_append_of_le_length (by simp; omega), List.take_take]
  congr 1
  omega

theorem take_fill_high (ws : List Nat) (lo hi x : Nat) (h1 : lo ≤ hi) (h2 : lo ≤ ws.length) :
    (ws.take lo ++ List.replicate (hi - lo) x ++ ws.drop hi).take hi =
      ws.take lo ++ List.replicate (hi - lo) x := by
  rw [List.take_append_of_le_length (by simp; omega)]
  apply List.take_of_length_le
  simp only [List.length_append, List.length_take, List.length_replicate]
  omega

theorem resized_shrink (W : List Nat) (n size x : Nat) (hn : n ≤ size) :
    (W.take size).take n ++ List.replicate (n - size) x = W.take n := by
  have h0 : n - size = 0 := by omega
  rw [h0, List.take_take]
  simp only [List.replicate_zero, List.append_nil]
  congr 1
  omega

theorem resized_grow (W : List Nat) (n size x : Nat) (hn : size ≤ n) :
    (W.take size).take n ++ List.replicate (n - size) x =
      W.take size ++ List.replicate (n - size) x := by
  rw [List.take_of_length_le (by simp; omega)]

theorem resize_spec (a : Alloc) (n x : Nat) (v : vector) (h : Heap) (s : List Nat)
    (hw : WF v h) (hl : limbs v h = some s) (hfresh : Fresh a h) (hmax : n ≤ MAX_WORDS) :
    ∃ v' h', resize (some a) n x v h = .ret () v' h' ∧
      Post v h (some a) v' h' n (s.take n ++ List.replicate (n - v.size_) x) := by
  have hwide := WF_wide hw
  by_cases hs : v.size_ ≤ SMALL_SIZE
  · -- inline before
    rw [limbs_inline v h hs hwide] at hl
    cases hl
    have hns : ¬ SMALL_SIZE < v.size_ := by omega
    by_cases hlt : n < v.size_
    · -- shrink inside the inline array
      have hn' : n ≤ SMALL_SIZE := by omega
      have hlen' := fill_length v.buffers_.as_static n v.size_ 0 (by omega) (by omega)
      refine ⟨⟨n, .static_ (v.buffers_.as_static.take n ++
        List.replicate (v.size_ - n) 0 ++ v.buffers_.as_static.drop v.size_)⟩, h, ?_,
        ⟨rfl, ?_, ?_, frame_refl _ _ _, owner_inline _ _ _ hn'⟩⟩
      · unfold resize
        simp only [hlt, hs, if_true]
        rw [fill_eq _ _ _ _ (by omega) (by omega)]
        rfl
      · exact (WF_inline _ _ (by exact hn')).2 (by simp only [as_static_static]; omega)
      · refine (limbs_inline _ _ (by exact hn')
          (by simp only [as_static_static]; omega)).trans ?_
        simp only [as_static_static]
        rw [take_fill_low _ _ _ _ _ (le_refl _) (by omega), resized_shrink _ _ _ _ (by omega)]
    · by_cases hgt : v.size_ < n
      · by_cases hbig : SMALL_SIZE < n
        · -- grow from the inline array into a new block
          obtain ⟨W0, hW0⟩ : ∃ W0, W0 = v.buffers_.as_static.take v.size_ ++
              ((List.range n).map a.junk).drop v.size_ := ⟨_, rfl⟩
          have hlen2 : W0.length = n := by
            rw [hW0]
            simp only [List.length_append, List.length_take, List.length_drop,
              List.length_map, List.length_range]
            omega
          have hst := fill_eq W0 v.size_ n x (by omega) (by omega)
          have hlen' := fill_length W0 v.size_ n x (by omega) (by omega)
          refine ⟨⟨n, .dynamic_ ⟨n, a.addr⟩⟩, heap_set h a.addr (some ⟨1, W0.take v.size_ ++
            List.replicate (n - v.size_) x ++ W0.drop n⟩), ?_, ⟨rfl, ?_, ?_,
            frame_alloc _ _ _ hfresh _, ?_⟩⟩
          · unfold resize
            simp only [hlt, hgt, hns, hbig, if_false, if_true, alloc_data,
              alloc_slots_eq _ hmax, with_words, heap_set_same]
            rw [copy_words_eq _ _ _ (by omega) (by simp; omega)]
            simp only [Option.bind]
            rw [← hW0]
            simp only [hst, Option.map, of_ub_some, heap_set_set]
          · rw [WF_shared _ _ (by exact hbig)]
            refine ⟨rfl, _, heap_set_same _ _ _, le_refl _, ?_, le_refl _, hmax⟩
            simp only [as_dynamic_dynamic]
            rw [hlen', hlen2]
          · refine (limbs_shared _ _ _ (by exact hbig) (heap_set_same _ _ _)
              (by simp only [hlen', hlen2]; exact le_refl _)).trans ?_
            simp only
            rw [take_fill_high _ _ _ _ (by omega) (by omega),
              resized_grow _ _ _ _ (by omega), hW0,
              List.take_append_of_le_length (by simp; omega), List.take_take]
            simp
          · intro _
            exact Or.inr ⟨a, rfl, rfl⟩
        · -- grow inside the inline array
          have hn' : n ≤ SMALL_SIZE := by omega
          have hlen' := fill_length v.buffers_.as_static v.size_ n x (by omega) (by omega)
          refine ⟨⟨n, .static_ (v.buffers_.as_static.take v.size_ ++
            List.replicate (n - v.size_) x ++ v.buffers_.as_static.drop n)⟩, h, ?_,
            ⟨rfl, ?_, ?_, frame_refl _ _ _, owner_inline _ _ _ hn'⟩⟩
          · unfold resize
            simp only [hlt, hgt, hns, hbig, if_false, if_true]
            rw [fill_eq _ _ _ _ (by omega) (by omega)]
            rfl
          · exact (WF_inline _ _ (by exact hn')).2 (by simp only [as_static_static]; omega)
          · refine (limbs_inline _ _ (by exact hn')
              (by simp only [as_static_static]; omega)).trans ?_
            simp only [as_static_static]
            rw [take_fill_high _ _ _ _ (by omega) (by omega),
              resized_grow _ _ _ _ (by omega)]
      · -- same size
        have he : n = v.size_ := by omega
        subst he
        refine ⟨⟨v.size_, v.buffers_⟩, h, ?_, ⟨rfl, hw, ?_, frame_refl _ _ _,
          owner_inline _ _ _ hs⟩⟩
        · unfold resize
          simp only [lt_irrefl, if_false]
        · refine (limbs_inline v h hs hwide).trans ?_
          rw [resized_shrink _ _ _ _ (le_refl _)]
  · -- shared before
    have hs1 : SMALL_SIZE < v.size_ := by omega
    obtain ⟨_, sa, hp, hrc, hlen, hcap, hcmax⟩ := (WF_shared v h hs1).1 hw
    rw [limbs_shared v h sa hs1 hp (by omega)] at hl
    cases hl
    by_cases hlt : n < v.size_
    · by_cases hsmall : n ≤ SMALL_SIZE
      · -- shrink back into the inline array
        have hlen' : (sa.words.take n ++ v.buffers_.as_static.drop n).length
            = SMALL_SIZE := by
          simp only [List.length_append, List.length_take, List.length_drop]
          omega
        refine ⟨⟨n, .static_ (sa.words.take n ++ v.buffers_.as_static.drop n)⟩,
          heap_set h v.buffers_.as_dynamic.arr
            (if sa.ref_counter = 1 then none else some ⟨sa.ref_counter - 1, sa.words⟩), ?_,
          ⟨rfl, ?_, ?_, frame_release v h _ sa hs1 hp, owner_inline _ _ _ hsmall⟩⟩
        · unfold resize
          simp only [hlt, hs, hsmall, if_false, if_true, hp]
          rw [copy_words_eq _ _ _ (by omega) (by omega), unshare_eq _ _ sa hp hrc]
          rfl
        · exact (WF_inline _ _ (by exact hsmall)).2 hlen'
        · refine (limbs_inline _ _ (by exact hsmall) (by exact hlen')).trans ?_
          simp only [as_static_static]
          rw [List.take_append_of_le_length (by simp; omega), List.take_take,
            resized_shrink _ _ _ _ (by omega)]
          simp
      · -- shrink inside the block
        obtain ⟨sa', v1, h1, ws, he, hprep⟩ :=
          prepared_uniquify (some a) v h hs1 hw (Or.inr ⟨a, rfl, hfresh⟩)
        have hsa : sa' = sa := by
          have := hprep.old
          rw [hp] at this
          exact (Option.some.inj this).symm
        subst hsa
        have hsz := hprep.size_eq
        have hwl : v.size_ ≤ ws.length := by
          rw [hprep.len]
          exact hprep.room
        obtain ⟨e1, e2, e3, e4, _, e6⟩ := prepared_finish hprep hs1
          (fun w => fill w n v1.size_ 0)
          (ws.take n ++ List.replicate (v1.size_ - n) 0 ++ ws.drop v1.size_) n
          (fill_eq _ _ _ _ (by omega) (by omega)) (fill_length _ _ _ _ (by omega) (by omega))
          (by omega) (by omega)
        refine ⟨_, _, ?_, ⟨rfl, e2, ?_, e4, e6⟩⟩
        · unfold resize
          simp only [hlt, hs, hsmall, if_false, if_true, he, andThen_ret]
          exact e1
        · rw [e3, take_fill_low _ _ _ _ _ (le_refl _) (by omega),
            resized_shrink _ _ _ _ (by omega)]
          have := congrArg (List.take n) hprep.same
          rw [List.take_take, List.take_take] at this
          have hmin : min n v.size_ = n := by omega
          rw [hmin] at this
          rw [this]
    · by_cases hgt : v.size_ < n
      · -- grow inside a block
        have hprep : ∃ v1 h1 ws,
            (if 1 < sa.ref_counter ∨ v.buffers_.as_dynamic.capacity < n then
              realloc_data_ (some a)
                (if v.buffers_.as_dynamic.capacity < n then n
                 else v.buffers_.as_dynamic.capacity) v h
             else .ret () v h) = .ret () v1 h1 ∧
            Prepared v h (some a) sa n v1 h1 ws := by
          by_cases hsmallcap : v.buffers_.as_dynamic.capacity < n
          · obtain ⟨v1, h1, ws, he, hp1⟩ := prepared_of_realloc a n v h sa hs1
              (by omega) hmax hp hrc (by omega) hfresh
            refine ⟨v1, h1, ws, ?_, hp1⟩
            simp only [hsmallcap, or_true, if_true]
            exact he
          · by_cases hsh : 1 < sa.ref_counter
            · obtain ⟨v1, h1, ws, he, hp1⟩ := prepared_of_realloc a
                v.buffers_.as_dynamic.capacity v h sa hs1 hcap hcmax hp hrc (by omega) hfresh
              refine ⟨v1, h1, ws, ?_, { hp1 with room := le_trans (by omega) hp1.room }⟩
              simp only [hsh, true_or, if_true, hsmallcap, if_false]
              exact he
            · refine ⟨v, h, sa.words, ?_, prepared_of_exclusive _ v h sa _ hs1 hp (by omega)
                hlen (by omega) hcmax hwide⟩
              simp only [hsh, hsmallcap, or_self, if_false]
        obtain ⟨v1, h1, ws, he, hp1⟩ := hprep
        have hsz := hp1.size_eq
        have hwl : n ≤ ws.length := by
          rw [hp1.len]
          exact hp1.room
        obtain ⟨e1, e2, e3, e4, _, e6⟩ := prepared_finish hp1 hs1
          (fun w => fill w v1.size_ n x)
          (ws.take v1.size_ ++ List.replicate (n - v1.size_) x ++ ws.drop n) n
          (fill_eq _ _ _ _ (by omega) (by omega)) (fill_length _ _ _ _ (by omega) (by omega))
          (by omega) (by omega)
        refine ⟨_, _, ?_, ⟨rfl, e2, ?_, e4, e6⟩⟩
        · unfold resize
          simp only [hlt, hgt, hs1, if_false, if_true, hp]
          rw [he]
          exact e1
        · rw [e3, take_fill_high _ _ _ _ (by omega) (by omega),
            resized_grow _ _ _ _ (by omega), hsz, hp1.same]
      · -- same size
        have he : n = v.size_ := by omega
        subst he
        refine ⟨⟨v.size_, v.buffers_⟩, h, ?_, ⟨rfl, hw, ?_, frame_refl _ _ _, ?_⟩⟩
        · unfold resize
          simp only [lt_irrefl, if_false]
        · refine (limbs_shared v h sa hs1 hp (by omega)).trans ?_
          rw [resized_shrink _ _ _ _ (le_refl _)]
        · intro _
          exact Or.inl ⟨hs1, rfl⟩


/-! ## The loop of `erase` -/

theorem swap_at_spec (ws : List Nat) (i j : Nat) (hi : i < ws.length) (hj : j < ws.length) :
    ∃ w, swap_at ws i j = some w ∧ w.length = ws.length ∧
      ∀ k, w[k]? = if k = j then ws[i]? else if k = i then ws[j]? else ws[k]? := by
  refine ⟨(ws.set i ws[j]).set j ws[i], ?_, by simp, ?_⟩
  · unfold swap_at
    rw [List.getElem?_eq_getElem hi, List.getElem?_eq_getElem hj]
  · intro k
    rw [List.getElem?_set, List.getElem?_set]
    by_cases hkj : k = j
    · subst hkj
      simp [hj, hi]
    · by_cases hki : k = i
      · subst hki
        have : ¬ j = k := fun e => hkj e.symm
        simp [this, hkj, hi, hj]
      · have h1 : ¬ j = k := fun e => hkj e.symm
        have h2 : ¬ i = k := fun e => hki e.symm
        simp [h1, h2, hkj, hki]

theorem erase_loop_spec (e : Nat) : ∀ (fuel : Nat) (ws : List Nat) (p1 p2 : Nat),
    p1 ≤ p2 → p2 ≤ e → e ≤ ws.length → e - p2 ≤ fuel →
    ∃ w1, erase_loop e fuel ws p1 p2 = some (w1, p1 + (e - p2), e) ∧
      w1.length = ws.length ∧
      (∀ i, i < p1 → w1[i]? = ws[i]?) ∧
      (∀ j, p1 ≤ j → j < p1 + (e - p2) → w1[j]? = ws[j + (p2 - p1)]?) ∧
      (∀ i, e ≤ i → w1[i]? = ws[i]?) := by
  intro fuel
  induction fuel with
  | zero =>
    intro ws p1 p2 h12 h2e hel hf
    have he : p2 = e := by omega
    refine ⟨ws, ?_, rfl, fun _ _ => rfl, ?_, fun _ _ => rfl⟩
    · simp [erase_loop, he]
    · intro j hj1 hj2
      omega
  | succ fuel ih =>
    intro ws p1 p2 h12 h2e hel hf
    by_cases he : p2 = e
    · refine ⟨ws, ?_, rfl, fun _ _ => rfl, ?_, fun _ _ => rfl⟩
      · simp [erase_loop, he]
      · intro j hj1 hj2
        omega
    · obtain ⟨w, hsw, hwl, hwk⟩ := swap_at_spec ws p1 p2 (by omega) (by omega)
      obtain ⟨w1, hw1, hl1, ha, hb, hc⟩ := ih w (p1 + 1) (p2 + 1) (by omega) (by omega)
        (by omega) (by omega)
      refine ⟨w1, ?_, by omega, ?_, ?_, ?_⟩
      · rw [erase_loop]
        simp only [he, if_false, hsw]
        rw [hw1]
        congr 3
        omega
      · intro i hi
        rw [ha i (by omega), hwk i]
        have h1 : ¬ i = p2 := by omega
        have h2 : ¬ i = p1 := by omega
        simp [h1, h2]
      · intro j hj1 hj2
        by_cases hjp : j = p1
        · subst hjp
          rw [ha j (by omega), hwk j]
          by_cases hjj : j = p2
          · subst hjj
            simp
          · have : j + (p2 - j) = p2 := by omega
            simp [hjj, this]
        · rw [hb j (by omega) (by omega), hwk]
          have h1 : ¬ j + (p2 - p1) = p2 := by omega
          have h2 : ¬ j + (p2 - p1) = p1 := by omega
          have h3 : j + (p2 + 1 - (p1 + 1)) = j + (p2 - p1) := by omega
          simp only [h3, h1, h2, if_false]
      · intro i hi
        rw [hc i hi, hwk i]
        have h1 : ¬ i = p2 := by omega
        have h2 : ¬ i = p1 := by omega
        simp [h1, h2]


theorem erase_array (ws : List Nat) (first last e : Nat) (h1 : first ≤ last) (h2 : last ≤ e)
    (h3 : e ≤ ws.length) :
    ∃ w1 w2, erase_loop e ws.length ws first last = some (w1, first + (e - last), e) ∧
      fill w1 (first + (e - last)) e 0 = some w2 ∧ w2.length = ws.length ∧
      w2.take (e - (last - first)) = (ws.take e).take first ++ (ws.take e).drop last ∧
      w2.drop e = ws.drop e ∧
      (∀ i, e - (last - first) ≤ i → i < e → w2[i]? = some 0) := by
  obtain ⟨w1, hw1, hl1, ha, hb, hc⟩ := erase_loop_spec e ws.length ws first last h1 h2 h3
    (by omega)
  have hn : first + (e - last) = e - (last - first) := by omega
  refine ⟨w1, _, hw1, fill_eq _ _ _ _ (by omega) (by omega), ?_, ?_, ?_, ?_⟩
  · rw [fill_length _ _ _ _ (by omega) (by omega), hl1]
  · rw [← hn, take_fill_low _ _ _ _ _ (le_refl _) (by omega)]
    apply List.ext_getElem?
    intro i
    rw [List.getElem?_take, List.getElem?_append]
    simp only [List.length_take, List.getElem?_take, List.getElem?_drop]
    by_cases hi1 : i < first
    · have hi2 : i < first + (e - last) := by omega
      have hi3 : i < min first (min e ws.length) := by omega
      have hi4 : i < e := by omega
      simp only [hi1, hi2, hi3, hi4, if_true]
      exact ha i hi1
    · by_cases hi2 : i < first + (e - last)
      · have hi3 : ¬ i < min first (min e ws.length) := by omega
        have hi4 : last + (i - min first (min e ws.length)) < e := by omega
        have hi5 : last + (i - min first (min e ws.length)) = i + (last - first) := by omega
        simp only [hi2, hi3, hi4, if_true, if_false]
        rw [hb i (by omega) hi2, hi5]
      · have hi3 : ¬ i < min first (min e ws.length) := by omega
        have hi4 : ¬ last + (i - min first (min e ws.length)) < e := by omega
        simp only [hi2, hi3, hi4, if_false]
  · rw [List.drop_append_of_le_length (by simp; omega)]
    have hlen : (w1.take (first + (e - last)) ++
        List.replicate (e - (first + (e - last))) 0).length = e := by
      simp only [List.length_append, List.length_take, List.length_replicate]
      omega
    rw [List.drop_of_length_le (by omega), List.nil_append]
    apply List.ext_getElem?
    intro i
    rw [List.getElem?_drop, List.getElem?_drop]
    exact hc _ (by omega)
  · intro i hi1 hi2
    rw [List.append_assoc, List.getElem?_append]
    have h5 : ¬ i < (w1.take (first + (e - last))).length := by
      simp only [List.length_take]
      omega
    simp only [h5, if_false]
    rw [List.getElem?_append]
    have h6 : i - (w1.take (first + (e - last))).length <
        (List.replicate (e - (first + (e - last))) 0).length := by
      simp only [List.length_take, List.length_replicate]
      omega
    simp only [h6, if_true]
    rw [List.getElem?_replicate]
    simp only [List.length_replicate] at h6
    simp only [h6, if_true]


/-! ## `erase` -/

theorem data_const_off (v : vector) : (data_const v).off = 0 := by
  unfold data_const
  split <;> rfl

theorem erase_range_eval (al : Option Alloc) (first last : Nat) (v v1 v2 : vector)
    (h h1 h2 : Heap) (ws w1 w2 : List Nat) (p1 p2 : Nat)
    (hu : realloc_if_share_ al v h = .ret () v1 h1)
    (hu1 : realloc_if_share_ al v1 h1 = .ret () v1 h1)
    (ha : array_at v1 h1 (data_const v1).base = some ws)
    (hloop : erase_loop v1.size_ ws.length ws first last = some (w1, p1, p2))
    (hfill : fill w1 p1 p2 0 = some w2)
    (hput : array_put v1 h1 (data_const v1).base w2 = some (v2, h2)) :
    erase_range al first last v h =
      .ret ⟨(data_const v1).base, first⟩ ⟨v2.size_ - (last - first), v2.buffers_⟩ h2 := by
  unfold erase_range begin_ data
  simp only [hu, andThen_ret, hu1]
  unfold erase
  simp only [hu1, ite_self, andThen_ret, end_const, and_self, if_true, ha, data_const_off,
    Nat.zero_add, hloop, hfill, Option.bind, hput]

theorem erase_range_spec (al : Option Alloc) (first last : Nat) (v : vector) (h : Heap)
    (s : List Nat) (hw : WF v h) (hl : limbs v h = some s) (h1 : first ≤ last)
    (h2 : last ≤ v.size_) (hal : Exclusive v h ∨ ∃ a, al = some a ∧ Fresh a h) :
    ∃ p v' h', erase_range al first last v h = .ret p v' h' ∧ p.off = first ∧
      v'.size_ = v.size_ - (last - first) ∧ Frame v h al h' ∧ Owner v al v' ∧
      ((v.size_ ≤ SMALL_SIZE ∨ SMALL_SIZE < v.size_ - (last - first)) →
        WF v' h' ∧ limbs v' h' = some (s.take first ++ s.drop last)) := by
  have hwide := WF_wide hw
  by_cases hs : v.size_ ≤ SMALL_SIZE
  · rw [limbs_inline v h hs hwide] at hl
    cases hl
    obtain ⟨w1, w2, hloop, hfill, hlen2, htake, _, _⟩ :=
      erase_array v.buffers_.as_static first last v.size_ h1 h2 (by omega)
    have hdc : data_const v = ⟨.inline, 0⟩ := by simp [data_const, hs]
    have hs' : v.size_ - (last - first) ≤ SMALL_SIZE := by omega
    refine ⟨_, _, _, erase_range_eval al first last v v ⟨v.size_, .static_ w2⟩ h h h
      v.buffers_.as_static w1 w2 _ _ (realloc_if_share_inline al v h hs)
      (realloc_if_share_inline al v h hs) (by rw [hdc]; rfl) hloop hfill (by rw [hdc]; rfl),
      rfl, rfl, frame_refl _ _ _, owner_inline _ _ _ hs', ?_⟩
    intro _
    refine ⟨(WF_inline _ _ (by exact hs')).2 (by simp only [as_static_static]; omega), ?_⟩
    refine (limbs_inline _ _ (by exact hs') (by simp only [as_static_static]; omega)).trans ?_
    simp only [as_static_static]
    rw [htake]
  · have hs1 : SMALL_SIZE < v.size_ := by omega
    obtain ⟨_, sa, hp, hrc, hlen, hcap, hcmax⟩ := (WF_shared v h hs1).1 hw
    rw [limbs_shared v h sa hs1 hp (by omega)] at hl
    cases hl
    obtain ⟨sa', v1, h1', ws, he, hprep⟩ := prepared_uniquify al v h hs1 hw hal
    have hsa : sa' = sa := by
      have := hprep.old
      rw [hp] at this
      exact (Option.some.inj this).symm
    subst hsa
    have hsz := hprep.size_eq
    have hwl : v.size_ ≤ ws.length := by
      rw [hprep.len]
      exact hprep.room
    have hns1 : ¬ v1.size_ ≤ SMALL_SIZE := by omega
    obtain ⟨w1, w2, hloop, hfill, hlen2, htake, _, _⟩ :=
      erase_array ws first last v1.size_ (by omega) (by omega) (by omega)
    have hdc : data_const v1 = ⟨.block v1.buffers_.as_dynamic.arr, 0⟩ := by
      simp [data_const, hns1]
    refine ⟨_, _, _, erase_range_eval al first last v v1 v1 h h1'
      (heap_set h1' v1.buffers_.as_dynamic.arr (some ⟨1, w2⟩)) ws w1 w2 _ _ he
      (realloc_if_share_exclusive al v1 h1' _ hprep.new (le_refl _))
      (by rw [hdc]; simp [array_at, hprep.new]) hloop hfill
      (by rw [hdc]; simp [array_put, hprep.new]), rfl, ?_, hprep.frame _, ?_, ?_⟩
    · simp only
      omega
    · intro _
      rcases hprep.owner hs1 with ho | ho
      · exact Or.inl ⟨hs1, ho⟩
      · exact Or.inr ho
    · intro hcase
      have hbig : SMALL_SIZE < v1.size_ - (last - first) := by omega
      constructor
      · rw [WF_shared _ _ (by exact hbig)]
        refine ⟨hprep.wide, _, heap_set_same _ _ _, le_refl _, ?_, ?_, hprep.bound⟩
        · simp only
          rw [hlen2, hprep.len]
        · simp only
          have := hprep.room
          omega
      · refine (limbs_shared _ _ _ (by exact hbig) (heap_set_same _ _ _)
          (by simp only; omega)).trans ?_
        simp only
        rw [htake, hsz, hprep.same]


/-! ## Reading: `operator[] const` and `operator==` -/

theorem limbs_unfold {v : vector} {h : Heap} {s : List Nat} (hl : limbs v h = some s) :
    ∃ ws, array_at v h (data_const v).base = some ws ∧ v.size_ ≤ ws.length ∧
      s = ws.take v.size_ := by
  unfold limbs at hl
  cases ha : array_at v h (data_const v).base with
  | none => rw [ha] at hl; cases hl
  | some ws =>
    rw [ha] at hl
    simp only [Option.bind] at hl
    split at hl
    · rename_i hle
      cases hl
      exact ⟨ws, rfl, hle, rfl⟩
    · cases hl

theorem read_index_limbs {v : vector} {h : Heap} {s : List Nat} (hl : limbs v h = some s)
    (i x : Nat) (hx : s[i]? = some x) : read_index i v h = .ok x := by
  obtain ⟨ws, ha, hle, rfl⟩ := limbs_unfold hl
  rw [List.getElem?_take] at hx
  split at hx
  · rename_i hi
    unfold read_index operator_index_const load
    simp only [hi, if_true, ha, data_const_off, Nat.zero_add, Option.bind, hx]
  · cases hx

theorem operator_eq_limbs {a b : vector} {h : Heap} {sa sb : List Nat}
    (ha : limbs a h = some sa) (hb : limbs b h = some sb) :
    operator_eq a b h = .ok (decide (sa = sb)) := by
  obtain ⟨wa, haa, hla, rfl⟩ := limbs_unfold ha
  obtain ⟨wb, hab, hlb, rfl⟩ := limbs_unfold hb
  unfold operator_eq
  by_cases hsz : a.size_ = b.size_
  · simp only [hsz, if_true, haa, hab]
    have : b.size_ ≤ wa.length ∧ b.size_ ≤ wb.length := ⟨by omega, hlb⟩
    simp only [this, and_self, if_true]
  · simp only [hsz, if_false]
    have hne : ¬ wa.take a.size_ = wb.take b.size_ := by
      intro he
      have := congrArg List.length he
      simp only [List.length_take] at this
      omega
    simp [hne]

/-! ## Writing through `operator[]` and `back()` -/

theorem assign_index_spec (al : Option Alloc) (i x : Nat) (v : vector) (h : Heap)
    (s : List Nat) (hw : WF v h) (hl : limbs v h = some s) (hi : i < v.size_)
    (hal : Exclusive v h ∨ ∃ a, al = some a ∧ Fresh a h) :
    ∃ v' h', assign_index al i x v h = .ret () v' h' ∧
      Post v h al v' h' v.size_ (s.set i x) ∧ Exclusive v' h' := by
  have hwide := WF_wide hw
  by_cases hs : v.size_ ≤ SMALL_SIZE
  · rw [limbs_inline v h hs hwide] at hl
    cases hl
    have hdc : data_const v = ⟨.inline, 0⟩ := by simp [data_const, hs]
    have hlen' : (v.buffers_.as_static.set i x).length = SMALL_SIZE := by simp [hwide]
    refine ⟨⟨v.size_, .static_ (v.buffers_.as_static.set i x)⟩, h, ?_,
      ⟨rfl, ?_, ?_, frame_refl _ _ _, owner_inline _ _ _ hs⟩, exclusive_inline _ _ hs⟩
    · unfold assign_index operator_index data
      simp only [hi, if_true, realloc_if_share_inline al v h hs, andThen_ret, hdc, Nat.zero_add,
        store, array_at, Option.bind]
      rw [store_at_eq _ _ _ (by omega)]
      rfl
    · exact (WF_inline _ _ (by exact hs)).2 hlen'
    · refine (limbs_inline _ _ (by exact hs) (by exact hlen')).trans ?_
      simp only [as_static_static]
      rw [List.set_take]
  · have hs1 : SMALL_SIZE < v.size_ := by omega
    obtain ⟨_, sa, hp, hrc, hlen, hcap, hcmax⟩ := (WF_shared v h hs1).1 hw
    rw [limbs_shared v h sa hs1 hp (by omega)] at hl
    cases hl
    obtain ⟨sa', v1, h1, ws, he, hprep⟩ := prepared_uniquify al v h hs1 hw hal
    have hsa : sa' = sa := by
      have := hprep.old
      rw [hp] at this
      exact (Option.some.inj this).symm
    subst hsa
    have hsz := hprep.size_eq
    have hwl : v.size_ ≤ ws.length := by
      rw [hprep.len]
      exact hprep.room
    have hns1 : ¬ v1.size_ ≤ SMALL_SIZE := by omega
    have hdc : data_const v1 = ⟨.block v1.buffers_.as_dynamic.arr, 0⟩ := by
      simp [data_const, hns1]
    obtain ⟨_, e2, e3, e4, e5, e6⟩ := prepared_finish hprep hs1
      (fun w => store_at w i x) (ws.set i x) v1.size_
      (store_at_eq _ _ _ (by omega)) (by simp) (by omega) (by omega)
    refine ⟨v1, heap_set h1 v1.buffers_.as_dynamic.arr (some ⟨1, ws.set i x⟩), ?_,
      ⟨hsz, e2, ?_, e4, e6⟩, e5⟩
    · unfold assign_index operator_index data
      simp only [hi, if_true, he, andThen_ret, hdc, Nat.zero_add, store, array_at, hprep.new,
        Option.map, Option.bind, array_put]
      rw [store_at_eq _ _ _ (by omega)]
      rfl
    · refine e3.trans ?_
      rw [hsz, List.set_take, hprep.same]

theorem assign_back_eq (al : Option Alloc) (x : Nat) (v : vector) (h : Heap)
    (hne : v.size_ ≠ 0) (hu : ∀ v1 h1, realloc_if_share_ al v h = .ret () v1 h1 →
      v1.size_ = v.size_) :
    assign_back al x v h = assign_index al (v.size_ - 1) x v h := by
  unfold assign_back assign_index back operator_index data
  have hi : v.size_ - 1 < v.size_ := by omega
  simp only [hne, ne_eq, not_false_eq_true, if_true, hi]
  cases hr : realloc_if_share_ al v h with
  | ret u v1 h1 =>
    simp only [andThen_ret, hu v1 h1 hr]
  | threw v1 h1 => rfl
  | fault f => rfl

theorem realloc_data_size (al : Option Alloc) (c : Nat) (v v1 : vector) (h h1 : Heap)
    (hr : realloc_data_ al c v h = .ret () v1 h1) : v1.size_ = v.size_ := by
  unfold realloc_data_ at hr
  split at hr
  · cases hr
  · split at hr
    · cases hr
    · split at hr
      · cases hr
      · split at hr
        · cases hr
        · unfold Outcome.of_ub at hr
          split at hr
          · rename_i heq
            rw [Option.map_eq_some'] at heq
            obtain ⟨h3, _, hpair⟩ := heq
            cases hpair
            cases hr
            rfl
          · cases hr

theorem realloc_if_share_size (al : Option Alloc) (v v1 : vector) (h h1 : Heap)
    (hr : realloc_if_share_ al v h = .ret () v1 h1) : v1.size_ = v.size_ := by
  unfold realloc_if_share_ at hr
  split at hr
  · split at hr
    · cases hr
    · split at hr
      · exact realloc_data_size _ _ _ _ _ _ hr
      · cases hr
        rfl
  · cases hr
    rfl

theorem assign_back_spec (al : Option Alloc) (x : Nat) (v : vector) (h : Heap)
    (s : List Nat) (hw : WF v h) (hl : limbs v h = some s) (hne : v.size_ ≠ 0)
    (hal : Exclusive v h ∨ ∃ a, al = some a ∧ Fresh a h) :
    ∃ v' h', assign_back al x v h = .ret () v' h' ∧
      Post v h al v' h' v.size_ (s.set (v.size_ - 1) x) ∧ Exclusive v' h' := by
  rw [assign_back_eq al x v h hne (fun v1 h1 hr => realloc_if_share_size al v v1 h h1 hr)]
  exact assign_index_spec al (v.size_ - 1) x v h s hw hl (by omega) hal

/-! ## `clear`, the constructors and the destructor -/

theorem clear_spec (al : Option Alloc) (v : vector) (h : Heap) (hw : WF v h) :
    ∃ v' h', clear v h = .ret () v' h' ∧ Post v h al v' h' 0 [] := by
  have hwide := WF_wide hw
  have h0 : (0 : Nat) ≤ SMALL_SIZE := Nat.zero_le _
  by_cases hs : v.size_ ≤ SMALL_SIZE
  · have hns : ¬ SMALL_SIZE < v.size_ := by omega
    refine ⟨⟨0, v.buffers_⟩, h, by simp [clear, hns], ⟨rfl, (WF_inline _ _ h0).2 hwide, ?_,
      frame_refl _ _ _, owner_inline _ _ _ h0⟩⟩
    refine (limbs_inline ⟨0, v.buffers_⟩ _ h0 hwide).trans ?_
    simp
  · have hs1 : SMALL_SIZE < v.size_ := by omega
    obtain ⟨_, sa, hp, hrc, hlen, hcap, hcmax⟩ := (WF_shared v h hs1).1 hw
    refine ⟨⟨0, v.buffers_⟩, _, ?_, ⟨rfl, (WF_inline _ _ h0).2 hwide, ?_,
      frame_release v h al sa hs1 hp, owner_inline _ _ _ h0⟩⟩
    · unfold clear
      simp only [hs1, if_true]
      rw [unshare_eq _ _ sa hp hrc]
    · refine (limbs_inline ⟨0, v.buffers_⟩ _ h0 hwide).trans ?_
      simp


/-! ## Other containers in the same free store -/

theorem fresh_of_frame {v : vector} {h h' : Heap} {al : Option Alloc} (b : Alloc)
    (hf : Frame v h al h') (hw : WF v h) (hb : Fresh b h)
    (hne : ∀ a, al = some a → b.addr ≠ a.addr) : Fresh b h' := by
  rcases hf b.addr with h1 | ⟨_, a, ha, hba⟩ | ⟨hs, hp, _⟩
  · unfold Fresh
    rw [h1]
    exact hb
  · exact absurd hba (hne a ha)
  · obtain ⟨_, sa, hsa, _⟩ := (WF_shared v h hs).1 hw
    rw [← hp, hb] at hsa
    cases hsa

theorem other_of_frame {v u : vector} {h h' : Heap} {al : Option Alloc}
    (hf : Frame v h al h') (hu : WF u h) (hsep : Separate u v) :
    WF u h' ∧ limbs u h' = limbs u h := by
  by_cases hs : u.size_ ≤ SMALL_SIZE
  · have hwide := WF_wide hu
    exact ⟨(WF_inline u h' hs).2 hwide, by rw [limbs_inline u h' hs hwide,
      limbs_inline u h hs hwide]⟩
  · have hs1 : SMALL_SIZE < u.size_ := by omega
    have hw := (WF_shared u h hs1).1 hu
    obtain ⟨hwide, sa, hp, hrc, hlen, hcap, hmax⟩ := hw
    have hsame : h' u.buffers_.as_dynamic.arr = h u.buffers_.as_dynamic.arr := by
      rcases hf u.buffers_.as_dynamic.arr with h1 | ⟨h1, _⟩ | ⟨hvs, hpe, _⟩
      · exact h1
      · rw [hp] at h1
        cases h1
      · exact absurd hpe (hsep hs1 hvs)
    constructor
    · rw [WF_shared u h' hs1]
      exact ⟨hwide, sa, by rw [hsame, hp], hrc, hlen, hcap, hmax⟩
    · rw [limbs_shared u h' sa hs1 (by rw [hsame, hp]) (by omega),
        limbs_shared u h sa hs1 hp (by omega)]

theorem sharer_of_frame {v : vector} {h h' : Heap} {al : Option Alloc} {sa : shared_array}
    (hf : Frame v h al h')
    (hp : h v.buffers_.as_dynamic.arr = some sa) (hrc : 2 ≤ sa.ref_counter) :
    ∃ sa', h' v.buffers_.as_dynamic.arr = some sa' ∧ sa'.words = sa.words ∧
      1 ≤ sa'.ref_counter := by
  rcases hf v.buffers_.as_dynamic.arr with h1 | ⟨h1, _⟩ | ⟨_, _, h3⟩
  · exact ⟨sa, by rw [h1, hp], rfl, by omega⟩
  · rw [hp] at h1
    cases h1
  · rcases h3 sa hp with h4 | h4
    · omega
    · exact ⟨_, h4, rfl, by simp only; omega⟩

/-! ## Copy construction -/

theorem copy_ctor_inline (a : vector) (h : Heap) (hs : a.size_ ≤ SMALL_SIZE) :
    copy_ctor a h = .ret () a h := by
  have hns : ¬ SMALL_SIZE < a.size_ := by omega
  simp [copy_ctor, hns]

theorem copy_ctor_shared (a : vector) (h : Heap) (sa : shared_array)
    (hs : SMALL_SIZE < a.size_) (hp : h a.buffers_.as_dynamic.arr = some sa) :
    copy_ctor a h = .ret () a
      (heap_set h a.buffers_.as_dynamic.arr (some ⟨sa.ref_counter + 1, sa.words⟩)) := by
  simp [copy_ctor, hs, hp]

theorem copy_ctor_spec (a : vector) (h : Heap) (s : List Nat) (hw : WF a h)
    (hl : limbs a h = some s) :
    ∃ h1, copy_ctor a h = .ret () a h1 ∧ WF a h1 ∧ limbs a h1 = some s ∧
      (∀ b, Fresh b h → Fresh b h1) ∧
      (SMALL_SIZE < a.size_ → ∃ sa, h1 a.buffers_.as_dynamic.arr = some sa ∧
        2 ≤ sa.ref_counter ∧ a.size_ ≤ sa.words.length ∧ s = sa.words.take a.size_) := by
  by_cases hs : a.size_ ≤ SMALL_SIZE
  · exact ⟨h, copy_ctor_inline a h hs, hw, hl, fun _ hb => hb, fun h1 => by omega⟩
  · have hs1 : SMALL_SIZE < a.size_ := by omega
    obtain ⟨hwide, sa, hp, hrc, hlen, hcap, hmax⟩ := (WF_shared a h hs1).1 hw
    rw [limbs_shared a h sa hs1 hp (by omega)] at hl
    cases hl
    refine ⟨_, copy_ctor_shared a h sa hs1 hp, ?_, ?_, ?_, ?_⟩
    · rw [WF_shared a _ hs1]
      exact ⟨hwide, _, heap_set_same _ _ _, by simp only; omega, hlen, hcap, hmax⟩
    · rw [limbs_shared a _ _ hs1 (heap_set_same _ _ _) (by simp only; omega)]
    · intro b hb
      unfold Fresh
      rw [heap_set_other _ _ _ _ (by
        intro he
        rw [Fresh, he, hp] at hb
        cases hb)]
      exact hb
    · intro _
      exact ⟨_, heap_set_same _ _ _, by simp only; omega, by simp only; omega, rfl⟩

/-! ## Every mutating operation returns and respects the frame -/

theorem mutation_runs (a : Alloc) (m : Mutation) (v : vector) (h : Heap) (hw : WF v h)
    (hf : Fresh a h) (hv : m.valid v.size_) :
    ∃ v' h', m.run (some a) v h = .ret () v' h' ∧ Frame v h (some a) h' := by
  obtain ⟨s, hl⟩ := WF_limbs hw
  have hal : Exclusive v h ∨ ∃ a', some a = some a' ∧ Fresh a' h := Or.inr ⟨a, rfl, hf⟩
  cases m with
  | assign_index i x =>
    obtain ⟨v', h', he, hpost, _⟩ := assign_index_spec (some a) i x v h s hw hl hv hal
    exact ⟨v', h', he, hpost.frame⟩
  | assign_back x =>
    obtain ⟨v', h', he, hpost, _⟩ := assign_back_spec (some a) x v h s hw hl hv hal
    exact ⟨v', h', he, hpost.frame⟩
  | push_back x =>
    obtain ⟨v', h', he, hpost, _⟩ := push_back_spec a x v h s hw hl hf hv
    exact ⟨v', h', he, hpost.frame⟩
  | pop_back =>
    obtain ⟨v', h', he, hpost, _⟩ := pop_back_spec (some a) v h s hw hv hl hal
    exact ⟨v', h', he, hpost.frame⟩
  | resize n x =>
    obtain ⟨v', h', he, hpost⟩ := resize_spec a n x v h s hw hl hf hv
    exact ⟨v', h', he, hpost.frame⟩
  | erase first last =>
    obtain ⟨p, v', h', he, _, _, hfr, _⟩ :=
      erase_range_spec (some a) first last v h s hw hl hv.1 hv.2 hal
    refine ⟨v', h', ?_, hfr⟩
    simp only [Mutation.run, he, andThen_ret]
  | clear =>
    obtain ⟨v', h', he, hpost⟩ := clear_spec (some a) v h hw
    exact ⟨v', h', he, hpost.frame⟩


/-! ## C1: copy-on-write isolation -/

/-- C1 (amended): after `b` is copy-constructed from a well-formed `a`, every mutating
operation (write through `operator[]` or `back()`, `push_back`, `pop_back`, `resize` to a
count of at most `MAX_WORDS`, `erase` of a valid range, `clear`) applied to `b` returns and
leaves the size and the limbs of `a` as they were; applied to `a` instead, it leaves the size
and the limbs of `b` as they were. -/
theorem C1_copy_on_write_isolation (a : vector) (h : Heap) (s : List Nat) (al : Alloc)
    (m : Mutation) (hw : WF a h) (hl : limbs a h = some s) (hf : Fresh al h)
    (hv : m.valid a.size_) :
    ∃ b h1, copy_ctor a h = .ret () b h1 ∧ size b = size a ∧ limbs b h1 = some s ∧
      (∃ b' h2, m.run (some al) b h1 = .ret () b' h2 ∧
        size a = s.length ∧ limbs a h2 = some s) ∧
      (∃ a' h2, m.run (some al) a h1 = .ret () a' h2 ∧
        size b = s.length ∧ limbs b h2 = some s) := by
  obtain ⟨h1, hc, hw1, hl1, hfr, hsh⟩ := copy_ctor_spec a h s hw hl
  have hsz : size a = s.length := (limbs_length hl).symm
  obtain ⟨v', h2, hrun, hframe⟩ := mutation_runs al m a h1 hw1 (hfr al hf) hv
  have hkeep : limbs a h2 = some s := by
    by_cases hs : a.size_ ≤ SMALL_SIZE
    · rw [limbs_inline a h2 hs (WF_wide hw)]
      rw [limbs_inline a h hs (WF_wide hw)] at hl
      exact hl
    · have hs1 : SMALL_SIZE < a.size_ := by omega
      obtain ⟨sa, hp, hrc, hlen, hs'⟩ := hsh hs1
      obtain ⟨sa', hp', hwords, _⟩ := sharer_of_frame hframe hp hrc
      rw [limbs_shared a h2 sa' hs1 hp' (by rw [hwords]; exact hlen), hwords, hs']
  exact ⟨a, h1, hc, rfl, hl1, ⟨v', h2, hrun, hsz, hkeep⟩, ⟨v', h2, hrun, hsz, hkeep⟩⟩

/-- C1, the scenario of the specification: `a = [1,2,3,4,5]`, `b = a`, `b[0] = 99` gives
`a[0] == 1`, `b[0] == 99` and `a == b` false. -/
theorem C1_copy_on_write_isolation_witness :
    (WF (vector_at 100 5 5) (heap_one 100 [1, 2, 3, 4, 5]) ∧
      limbs (vector_at 100 5 5) (heap_one 100 [1, 2, 3, 4, 5]) = some [1, 2, 3, 4, 5] ∧
      Fresh (block_of 200 7) (heap_one 100 [1, 2, 3, 4, 5]) ∧
      (Mutation.assign_index 0 99).valid (vector_at 100 5 5).size_) ∧
    (∃ b h1, copy_ctor (vector_at 100 5 5) (heap_one 100 [1, 2, 3, 4, 5]) = .ret () b h1 ∧
      size b = size (vector_at 100 5 5) ∧ limbs b h1 = some [1, 2, 3, 4, 5] ∧
      (∃ b' h2, (Mutation.assign_index 0 99).run (some (block_of 200 7)) b h1 = .ret () b' h2 ∧
        size (vector_at 100 5 5) = [1, 2, 3, 4, 5].length ∧
        limbs (vector_at 100 5 5) h2 = some [1, 2, 3, 4, 5]) ∧
      (∃ a' h2, (Mutation.assign_index 0 99).run (some (block_of 200 7)) (vector_at 100 5 5) h1
          = .ret () a' h2 ∧
        size b = [1, 2, 3, 4, 5].length ∧ limbs b h2 = some [1, 2, 3, 4, 5])) ∧
    ((copy_ctor (vector_at 100 5 5) (heap_one 100 [1, 2, 3, 4, 5])).andThen
        fun _ b h1 => assign_index (some (block_of 200 7)) 0 99 b h1).observe
      (fun b h2 => (read_index 0 (vector_at 100 5 5) h2, read_index 0 b h2,
        operator_eq (vector_at 100 5 5) b h2)) = some (.ok 1, .ok 99, .ok false) := by
  have hw : WF (vector_at 100 5 5) (heap_one 100 [1, 2, 3, 4, 5]) := by
    rw [WF_shared _ _ (by decide)]
    exact ⟨rfl, ⟨1, [1, 2, 3, 4, 5]⟩, rfl, by decide, rfl, by decide, by decide⟩
  have hl : limbs (vector_at 100 5 5) (heap_one 100 [1, 2, 3, 4, 5]) = some [1, 2, 3, 4, 5] := by
    decide
  have hf : Fresh (block_of 200 7) (heap_one 100 [1, 2, 3, 4, 5]) := by
    unfold Fresh
    decide
  have hv : (Mutation.assign_index 0 99).valid (vector_at 100 5 5).size_ := by
    show 0 < 5
    decide
  exact ⟨⟨hw, hl, hf, hv⟩,
    C1_copy_on_write_isolation _ _ _ (block_of 200 7) (Mutation.assign_index 0 99) hw hl hf hv,
    rfl⟩


/-! ## C4: the sized constructor -/

theorem vector_sized_small (prior : Nat → Nat) (al : Option Alloc) (n : Nat) (h : Heap)
    (hn : n ≤ SMALL_SIZE) :
    ∃ v, vector_sized prior al n h = .ret () v h ∧ v.size_ = n ∧ WF v h ∧
      limbs v h = some (List.replicate n 0) := by
  have hlen : ((List.range SMALL_SIZE).map prior).length = SMALL_SIZE := by simp
  have hlen' := fill_length ((List.range SMALL_SIZE).map prior) 0 n 0 (by omega) (by omega)
  refine ⟨⟨n, .static_ (((List.range SMALL_SIZE).map prior).take 0 ++
    List.replicate (n - 0) 0 ++ ((List.range SMALL_SIZE).map prior).drop n)⟩, ?_, rfl, ?_, ?_⟩
  · unfold vector_sized
    simp only [hn, if_true]
    rw [fill_eq _ _ _ _ (by omega) (by omega)]
  · exact (WF_inline _ _ (by exact hn)).2 (by simp only [as_static_static]; omega)
  · refine (limbs_inline _ _ (by exact hn) (by simp only [as_static_static]; omega)).trans ?_
    simp only [as_static_static]
    rw [take_fill_high _ _ _ _ (by omega) (by omega)]
    simp

theorem vector_sized_large (prior : Nat → Nat) (a : Alloc) (n : Nat) (h : Heap)
    (hn : SMALL_SIZE < n) (hmax : n ≤ MAX_WORDS) :
    vector_sized prior (some a) n h = .ret () ⟨n, .dynamic_ ⟨n, a.addr⟩⟩
        (heap_set h a.addr (some ⟨1, (List.range n).map a.junk⟩)) ∧
      limbs ⟨n, .dynamic_ ⟨n, a.addr⟩⟩
        (heap_set h a.addr (some ⟨1, (List.range n).map a.junk⟩)) =
        some ((List.range n).map a.junk) := by
  have hns : ¬ n ≤ SMALL_SIZE := by omega
  constructor
  · unfold vector_sized
    simp only [hns, if_false, alloc_data, alloc_slots_eq n hmax]
  · refine (limbs_shared _ _ _ (by exact hn) (heap_set_same _ _ _) (by simp)).trans ?_
    simp

/-- C4 (code): `vector(5)` on a block whose memory held 7 in every word returns a container
of size 5 whose limbs all read 7: `alloc_data` sets `ref_counter` only and nothing fills the
words, unlike the inline branch, which fills `static_` with 0. -/
theorem C4_sized_constructor_reads_prior_memory :
    (vector_sized (fun _ => 0) (some (block_of 100 7)) 5 empty_heap).observe
      (fun v h => (size v, limbs v h, read_index 0 v h)) =
      some (5, some [7, 7, 7, 7, 7], .ok 7) := rfl


/-! ## C3: `erase` across the inline boundary -/

/-- C3 (code): on `a = [1,2,3,4,5]` the call `a.erase(a.begin() + 1, a.begin() + 3)` returns
the iterator at offset 1 and leaves `size() == 3`, and the block holds `[1,4,5,0,0]`; but the
container still carries the handle of the block in `buffers_`, and with `size_ <= SMALL_SIZE`
its limbs are read from `static_`, that is from the bytes of the handle: capacity 5 and
address 100 read as `[5, 0, 100]`, not `[1, 4, 5]`. -/
theorem C3_erase_across_boundary_reads_handle :
    (erase_range (some (block_of 200 7)) 1 3 (vector_at 100 5 5)
        (heap_one 100 [1, 2, 3, 4, 5])).observe
      (fun v h => (size v, limbs v h, read_index 0 v h, v.buffers_,
        (h 100).map fun sa => sa.words)) =
      some (3, some [5, 0, 100], .ok 5, .dynamic_ ⟨5, 100⟩, some [1, 4, 5, 0, 0]) := rfl

/-! ## C5: `push_back` then `pop_back` -/

/-- C5: on a well-formed container with limb sequence `s`, `push_back(x)` followed by
`pop_back()` returns and leaves `size() == |s|` and limb `i` equal to `s[i]` for every
`i < |s|`, whatever the representation before (inline with room, inline and full, shared, full
or aliased); the `pop_back` allocates nothing, so it runs the same whatever the allocator
would answer. -/
theorem C5_push_back_pop_back_round_trip (a : Alloc) (al2 : Option Alloc) (x : Nat)
    (v : vector) (h : Heap) (s : List Nat) (hw : WF v h) (hl : limbs v h = some s)
    (hf : Fresh a h) (hmax : 2 * v.size_ ≤ MAX_WORDS) :
    ∃ v1 h1 v2 h2, push_back (some a) x v h = .ret () v1 h1 ∧
      pop_back al2 v1 h1 = .ret () v2 h2 ∧ size v2 = s.length ∧ limbs v2 h2 = some s ∧
      ∀ i y, s[i]? = some y → read_index i v2 h2 = .ok y := by
  obtain ⟨v1, h1, hpush, hpost1, hex1⟩ := push_back_spec a x v h s hw hl hf hmax
  obtain ⟨v2, h2, hpop, hpost2, _⟩ := pop_back_spec al2 v1 h1 (s ++ [x]) hpost1.wf
    (by rw [hpost1.size_eq]; omega) hpost1.limbs_eq (Or.inl hex1)
  have hsl : s.length = v.size_ := limbs_length hl
  have hl2 : limbs v2 h2 = some s := by
    rw [hpost2.limbs_eq, hpost1.size_eq, Nat.add_sub_cancel, ← hsl]
    simp
  refine ⟨v1, h1, v2, h2, hpush, hpop, ?_, hl2, fun i y hy => read_index_limbs hl2 i y hy⟩
  show v2.size_ = s.length
  rw [hpost2.size_eq, hpost1.size_eq, hsl]
  omega

/-- C5 at the boundary: `[1,2,3,4]` fills the inline array, `push_back(5)` moves it to a
block, `pop_back()` moves it back. -/
theorem C5_push_back_pop_back_round_trip_witness :
    (WF ⟨4, .static_ [1, 2, 3, 4]⟩ empty_heap ∧
      limbs ⟨4, .static_ [1, 2, 3, 4]⟩ empty_heap = some [1, 2, 3, 4] ∧
      Fresh (block_of 100 7) empty_heap ∧ 2 * 4 ≤ MAX_WORDS) ∧
    ∃ v1 h1 v2 h2, push_back (some (block_of 100 7)) 5 ⟨4, .static_ [1, 2, 3, 4]⟩ empty_heap
        = .ret () v1 h1 ∧
      pop_back none v1 h1 = .ret () v2 h2 ∧ size v2 = [1, 2, 3, 4].length ∧
      limbs v2 h2 = some [1, 2, 3, 4] ∧
      ∀ i y, [1, 2, 3, 4][i]? = some y → read_index i v2 h2 = .ok y :=
  ⟨⟨(WF_inline _ _ (by decide)).2 rfl, rfl, rfl, by decide⟩,
    C5_push_back_pop_back_round_trip (block_of 100 7) none 5 ⟨4, .static_ [1, 2, 3, 4]⟩
      empty_heap [1, 2, 3, 4] ((WF_inline _ _ (by decide)).2 rfl) rfl rfl (by decide)⟩

/-! ## C8: `operator==` -/

theorem limbs_eq_iff_read {a b : vector} {h : Heap} {sa sb : List Nat}
    (ha : limbs a h = some sa) (hb : limbs b h = some sb) :
    sa = sb ↔ size a = size b ∧ ∀ i, i < size a → read_index i a h = read_index i b h := by
  have hla := limbs_length ha
  have hlb := limbs_length hb
  constructor
  · intro he
    subst he
    refine ⟨by show a.size_ = b.size_; omega, ?_⟩
    intro i hi
    have hi' : i < sa.length := by rw [hla]; exact hi
    rw [read_index_limbs ha i sa[i] (List.getElem?_eq_getElem hi'),
      read_index_limbs hb i sa[i] (List.getElem?_eq_getElem hi')]
  · rintro ⟨hsz, hread⟩
    have hsz' : a.size_ = b.size_ := hsz
    apply List.ext_getElem (by omega)
    intro i h1 h2
    have hr := hread i (by show i < a.size_; omega)
    rw [read_index_limbs ha i sa[i] (List.getElem?_eq_getElem h1),
      read_index_limbs hb i sb[i] (List.getElem?_eq_getElem h2)] at hr
    exact Except.ok.inj hr

/-- C8: for well-formed `a` and `b`, `a == b` returns, and it returns true exactly when
`a.size() == b.size()` and every index below `size()` reads the same limb in both; nothing
else (representation, buffer, capacity, slots at or after `size()`) enters the result. -/
theorem C8_operator_eq_value_equality (a b : vector) (h : Heap) (hwa : WF a h)
    (hwb : WF b h) :
    ∃ r, operator_eq a b h = .ok r ∧
      (r = true ↔ size a = size b ∧
        ∀ i, i < size a → read_index i a h = read_index i b h) := by
  obtain ⟨sa, ha⟩ := WF_limbs hwa
  obtain ⟨sb, hb⟩ := WF_limbs hwb
  refine ⟨decide (sa = sb), operator_eq_limbs ha hb, ?_⟩
  rw [decide_eq_true_iff]
  exact limbs_eq_iff_read ha hb

/-- C8 on two containers that hold `[1,2,3,4,5]` in different blocks, of capacity 6 with a
stale sixth slot and of capacity 5 counted twice: they compare equal. -/
theorem C8_operator_eq_value_equality_witness :
    (WF (vector_at 100 5 6)
        (heap_set (heap_one 100 [1, 2, 3, 4, 5, 9]) 101 (some ⟨2, [1, 2, 3, 4, 5]⟩)) ∧
      WF (vector_at 101 5 5)
        (heap_set (heap_one 100 [1, 2, 3, 4, 5, 9]) 101 (some ⟨2, [1, 2, 3, 4, 5]⟩))) ∧
    (∃ r, operator_eq (vector_at 100 5 6) (vector_at 101 5 5)
        (heap_set (heap_one 100 [1, 2, 3, 4, 5, 9]) 101 (some ⟨2, [1, 2, 3, 4, 5]⟩)) = .ok r ∧
      (r = true ↔ size (vector_at 100 5 6) = size (vector_at 101 5 5) ∧
        ∀ i, i < size (vector_at 100 5 6) →
          read_index i (vector_at 100 5 6)
            (heap_set (heap_one 100 [1, 2, 3, 4, 5, 9]) 101 (some ⟨2, [1, 2, 3, 4, 5]⟩)) =
          read_index i (vector_at 101 5 5)
            (heap_set (heap_one 100 [1, 2, 3, 4, 5, 9]) 101 (some ⟨2, [1, 2, 3, 4, 5]⟩)))) ∧
    operator_eq (vector_at 100 5 6) (vector_at 101 5 5)
      (heap_set (heap_one 100 [1, 2, 3, 4, 5, 9]) 101 (some ⟨2, [1, 2, 3, 4, 5]⟩)) = .ok true :=
  have hwa : WF (vector_at 100 5 6)
      (heap_set (heap_one 100 [1, 2, 3, 4, 5, 9]) 101 (some ⟨2, [1, 2, 3, 4, 5]⟩)) :=
    (WF_shared _ _ (by decide)).2
      ⟨rfl, ⟨1, [1, 2, 3, 4, 5, 9]⟩, rfl, by decide, rfl, by decide, by decide⟩
  have hwb : WF (vector_at 101 5 5)
      (heap_set (heap_one 100 [1, 2, 3, 4, 5, 9]) 101 (some ⟨2, [1, 2, 3, 4, 5]⟩)) :=
    (WF_shared _ _ (by decide)).2
      ⟨rfl, ⟨2, [1, 2, 3, 4, 5]⟩, rfl, by decide, rfl, by decide, by decide⟩
  ⟨⟨hwa, hwb⟩, C8_operator_eq_value_equality _ _ _ hwa hwb, rfl⟩


/-! ## C7: `pop_back` -/

theorem pop_back_crossing (al : Option Alloc) (v : vector) (h : Heap) (sa : shared_array)
    (h5 : v.size_ = SMALL_SIZE + 1) (hp : h v.buffers_.as_dynamic.arr = some sa)
    (hrc : 1 ≤ sa.ref_counter) (hlen : SMALL_SIZE ≤ sa.words.length)
    (hwide : v.buffers_.as_static.length = SMALL_SIZE) :
    pop_back al v h = .ret ()
      ⟨v.size_ - 1, .static_ (sa.words.take SMALL_SIZE ++
        v.buffers_.as_static.drop SMALL_SIZE)⟩
      (heap_set h v.buffers_.as_dynamic.arr
        (if sa.ref_counter = 1 then none else some ⟨sa.ref_counter - 1, sa.words⟩)) := by
  have hne : v.size_ ≠ 0 := by omega
  have hs : ¬ v.size_ ≤ SMALL_SIZE := by omega
  unfold pop_back
  simp only [hne, hs, h5, if_false, if_true, hp]
  rw [copy_words_eq _ _ _ (by omega) (by omega), unshare_eq _ _ sa hp hrc]
  rfl

/-- C7: `pop_back` on a well-formed non-empty container with limb sequence `s` returns and
leaves `size() == |s| - 1` and the first `|s| - 1` limbs of `s`, in a well-formed container;
when the count was `SMALL_SIZE + 1` the container reads its limbs from the inline array
afterwards and its block has lost one reference (and is freed if that was the last one).
For every container that holds `[1,2,3,4]`, three `pop_back()` on a copy leave the copy at
`[1]` and the original at `[1,2,3,4]`. -/
theorem C7_pop_back (al : Option Alloc) (v : vector) (h : Heap) (s : List Nat)
    (hw : WF v h) (hl : limbs v h = some s) (hne : v.size_ ≠ 0)
    (hal : Exclusive v h ∨ ∃ a, al = some a ∧ Fresh a h) :
    (∃ v' h', pop_back al v h = .ret () v' h' ∧ size v' = s.length - 1 ∧
      limbs v' h' = some (s.take (s.length - 1)) ∧ WF v' h' ∧
      (v.size_ = SMALL_SIZE + 1 → data_const v' = ⟨.inline, 0⟩ ∧
        ∃ sa, h v.buffers_.as_dynamic.arr = some sa ∧
          h' v.buffers_.as_dynamic.arr =
            if sa.ref_counter = 1 then none
            else some ⟨sa.ref_counter - 1, sa.words⟩)) ∧
    (∀ (a : vector) (g : Heap) (al1 al2 al3 : Option Alloc), WF a g →
      limbs a g = some [1, 2, 3, 4] →
      ∃ b g0 b1 g1 b2 g2 b3 g3, copy_ctor a g = .ret () b g0 ∧
        pop_back al1 b g0 = .ret () b1 g1 ∧ pop_back al2 b1 g1 = .ret () b2 g2 ∧
        pop_back al3 b2 g2 = .ret () b3 g3 ∧
        limbs b3 g3 = some [1] ∧ limbs a g3 = some [1, 2, 3, 4]) := by
  constructor
  · obtain ⟨v', h', hpop, hpost, _⟩ := pop_back_spec al v h s hw hne hl hal
    have hsl : s.length = v.size_ := limbs_length hl
    refine ⟨v', h', hpop, ?_, ?_, hpost.wf, ?_⟩
    · show v'.size_ = s.length - 1
      rw [hpost.size_eq, hsl]
    · rw [hpost.limbs_eq, hsl]
    · intro h5
      have hs1 : SMALL_SIZE < v.size_ := by omega
      obtain ⟨hwide, sa, hp, hrc, hlen, hcap, hmax⟩ := (WF_shared v h hs1).1 hw
      have hx := pop_back_crossing al v h sa h5 hp hrc (by omega) hwide
      rw [hx] at hpop
      cases hpop
      refine ⟨?_, sa, hp, heap_set_same _ _ _⟩
      have : v.size_ - 1 ≤ SMALL_SIZE := by omega
      simp [data_const, this]
  · intro a g al1 al2 al3 hwa hla
    have hsz : a.size_ = 4 := (limbs_length hla).symm
    have hs : a.size_ ≤ SMALL_SIZE := by rw [hsz]; decide
    obtain ⟨b1, g1, hp1, hpost1, hex1⟩ := pop_back_spec al1 a g _ hwa (by omega) hla
      (Or.inl (exclusive_inline a g hs))
    obtain ⟨b2, g2, hp2, hpost2, hex2⟩ := pop_back_spec al2 b1 g1 _ hpost1.wf
      (by rw [hpost1.size_eq]; omega) hpost1.limbs_eq (Or.inl hex1)
    obtain ⟨b3, g3, hp3, hpost3, _⟩ := pop_back_spec al3 b2 g2 _ hpost2.wf
      (by rw [hpost2.size_eq, hpost1.size_eq]; omega) hpost2.limbs_eq (Or.inl hex2)
    refine ⟨a, g, b1, g1, b2, g2, b3, g3, copy_ctor_inline a g hs, hp1, hp2, hp3, ?_, ?_⟩
    · rw [hpost3.limbs_eq, hpost2.size_eq, hpost1.size_eq, hsz]
      rfl
    · rw [limbs_inline a g3 hs (WF_wide hwa)]
      rw [limbs_inline a g hs (WF_wide hwa)] at hla
      exact hla

/-- C7 at the boundary: `[1,2,3,4,5]` lives in a block shared with a copy; `pop_back()` on it
moves four limbs to the inline array and drops one of the two references. Two scenarios are
evaluated: four `pop_back()` on a copy of a shared `[1,2,3,4,5]`, and three `pop_back()` on a
copy of `[1,2,3,4]`. -/
theorem C7_pop_back_witness :
    (WF (vector_at 100 5 5) (heap_set empty_heap 100 (some ⟨2, [1, 2, 3, 4, 5]⟩)) ∧
      limbs (vector_at 100 5 5) (heap_set empty_heap 100 (some ⟨2, [1, 2, 3, 4, 5]⟩)) =
        some [1, 2, 3, 4, 5] ∧
      (vector_at 100 5 5).size_ ≠ 0 ∧
      (Exclusive (vector_at 100 5 5) (heap_set empty_heap 100 (some ⟨2, [1, 2, 3, 4, 5]⟩)) ∨
        ∃ a, some (block_of 200 7) = some a ∧
          Fresh a (heap_set empty_heap 100 (some ⟨2, [1, 2, 3, 4, 5]⟩)))) ∧
    (∃ v' h', pop_back (some (block_of 200 7)) (vector_at 100 5 5)
        (heap_set empty_heap 100 (some ⟨2, [1, 2, 3, 4, 5]⟩)) = .ret () v' h' ∧
      size v' = [1, 2, 3, 4, 5].length - 1 ∧
      limbs v' h' = some ([1, 2, 3, 4, 5].take ([1, 2, 3, 4, 5].length - 1)) ∧ WF v' h' ∧
      ((vector_at 100 5 5).size_ = SMALL_SIZE + 1 → data_const v' = ⟨.inline, 0⟩ ∧
        ∃ sa, heap_set empty_heap 100 (some ⟨2, [1, 2, 3, 4, 5]⟩)
            (vector_at 100 5 5).buffers_.as_dynamic.arr = some sa ∧
          h' (vector_at 100 5 5).buffers_.as_dynamic.arr =
            if sa.ref_counter = 1 then none
            else some ⟨sa.ref_counter - 1, sa.words⟩)) ∧
    ((copy_ctor (vector_at 100 5 5) (heap_one 100 [1, 2, 3, 4, 5])).andThen fun _ b g0 =>
      (pop_back (some (block_of 200 7)) b g0).andThen fun _ b1 g1 =>
        (pop_back none b1 g1).andThen fun _ b2 g2 =>
          (pop_back none b2 g2).andThen fun _ b3 g3 => pop_back none b3 g3).observe
      (fun b4 g4 => (limbs b4 g4, limbs (vector_at 100 5 5) g4)) =
      some (some [1], some [1, 2, 3, 4, 5]) ∧
    ((copy_ctor ⟨4, .static_ [1, 2, 3, 4]⟩ empty_heap).andThen fun _ b g0 =>
      (pop_back none b g0).andThen fun _ b1 g1 =>
        (pop_back none b1 g1).andThen fun _ b2 g2 => pop_back none b2 g2).observe
      (fun b3 g3 => (limbs b3 g3, limbs ⟨4, .static_ [1, 2, 3, 4]⟩ g3)) =
      some (some [1], some [1, 2, 3, 4]) :=
  have hw : WF (vector_at 100 5 5) (heap_set empty_heap 100 (some ⟨2, [1, 2, 3, 4, 5]⟩)) :=
    (WF_shared _ _ (by decide)).2
      ⟨rfl, ⟨2, [1, 2, 3, 4, 5]⟩, rfl, by decide, rfl, by decide, by decide⟩
  ⟨⟨hw, rfl, by decide, Or.inr ⟨_, rfl, rfl⟩⟩,
    (C7_pop_back (some (block_of 200 7)) (vector_at 100 5 5) _ [1, 2, 3, 4, 5] hw rfl
      (by decide) (Or.inr ⟨_, rfl, rfl⟩)).1, rfl, rfl⟩

/-! ## C9: copy construction -/

/-- C9: copy construction consults no allocator. For a well-formed `a` with limb sequence
`s` it returns a container `b` with the same `size()`, the same `buffers_` and the limb
sequence `s`; `b == a`; `a` still reads `s`; exactly the same addresses are live as before;
when `a` is shared, the one block `a` and `b` both point to has its `ref_counter` raised by
exactly 1, keeps its words, and no other block changes; when `a` is inline the free store is
unchanged. -/
theorem C9_copy_construction (a : vector) (h : Heap) (s : List Nat) (hw : WF a h)
    (hl : limbs a h = some s) :
    ∃ b h1, copy_ctor a h = .ret () b h1 ∧ size b = size a ∧ b.buffers_ = a.buffers_ ∧
      limbs b h1 = some s ∧ operator_eq b a h1 = .ok true ∧ WF a h1 ∧ limbs a h1 = some s ∧
      (∀ p, (h1 p).isSome = (h p).isSome) ∧
      (SMALL_SIZE < a.size_ → ∃ sa, h a.buffers_.as_dynamic.arr = some sa ∧
        h1 b.buffers_.as_dynamic.arr = some ⟨sa.ref_counter + 1, sa.words⟩ ∧
        ∀ p, p ≠ a.buffers_.as_dynamic.arr → h1 p = h p) ∧
      (a.size_ ≤ SMALL_SIZE → h1 = h) := by
  obtain ⟨h1, hc, hw1, hl1, _, _⟩ := copy_ctor_spec a h s hw hl
  have heq : operator_eq a a h1 = .ok true := by
    rw [operator_eq_limbs hl1 hl1]
    simp
  by_cases hs : a.size_ ≤ SMALL_SIZE
  · have hc' := copy_ctor_inline a h hs
    rw [hc'] at hc
    cases hc
    exact ⟨a, h, hc', rfl, rfl, hl1, heq, hw1, hl1, fun _ => rfl, fun h2 => by omega,
      fun _ => rfl⟩
  · have hs1 : SMALL_SIZE < a.size_ := by omega
    obtain ⟨_, sa, hp, _⟩ := (WF_shared a h hs1).1 hw
    have hc' := copy_ctor_shared a h sa hs1 hp
    rw [hc'] at hc
    cases hc
    refine ⟨a, _, hc', rfl, rfl, hl1, heq, hw1, hl1, ?_, ?_, fun h2 => by omega⟩
    · intro p
      by_cases hpe : p = a.buffers_.as_dynamic.arr
      · rw [hpe, heap_set_same, hp]
        rfl
      · rw [heap_set_other _ _ _ _ hpe]
    · intro _
      exact ⟨sa, hp, heap_set_same _ _ _, fun p hpe => heap_set_other _ _ _ _ hpe⟩

/-- C9 on a shared `[1,2,3,4,5]`. -/
theorem C9_copy_construction_witness :
    (WF (vector_at 100 5 5) (heap_one 100 [1, 2, 3, 4, 5]) ∧
      limbs (vector_at 100 5 5) (heap_one 100 [1, 2, 3, 4, 5]) = some [1, 2, 3, 4, 5]) ∧
    ∃ b h1, copy_ctor (vector_at 100 5 5) (heap_one 100 [1, 2, 3, 4, 5]) = .ret () b h1 ∧
      size b = size (vector_at 100 5 5) ∧ b.buffers_ = (vector_at 100 5 5).buffers_ ∧
      limbs b h1 = some [1, 2, 3, 4, 5] ∧ operator_eq b (vector_at 100 5 5) h1 = .ok true ∧
      WF (vector_at 100 5 5) h1 ∧ limbs (vector_at 100 5 5) h1 = some [1, 2, 3, 4, 5] ∧
      (∀ p, (h1 p).isSome = (heap_one 100 [1, 2, 3, 4, 5] p).isSome) ∧
      (SMALL_SIZE < (vector_at 100 5 5).size_ →
        ∃ sa, heap_one 100 [1, 2, 3, 4, 5] (vector_at 100 5 5).buffers_.as_dynamic.arr
            = some sa ∧
          h1 b.buffers_.as_dynamic.arr = some ⟨sa.ref_counter + 1, sa.words⟩ ∧
          ∀ p, p ≠ (vector_at 100 5 5).buffers_.as_dynamic.arr →
            h1 p = heap_one 100 [1, 2, 3, 4, 5] p) ∧
      ((vector_at 100 5 5).size_ ≤ SMALL_SIZE → h1 = heap_one 100 [1, 2, 3, 4, 5]) :=
  have hw : WF (vector_at 100 5 5) (heap_one 100 [1, 2, 3, 4, 5]) :=
    (WF_shared _ _ (by decide)).2
      ⟨rfl, ⟨1, [1, 2, 3, 4, 5]⟩, rfl, by decide, rfl, by decide, by decide⟩
  ⟨⟨hw, rfl⟩, C9_copy_construction _ _ _ hw rfl⟩


/-! ## C6: `resize` -/

theorem resized_getElem (s : List Nat) (n x i : Nat) :
    (s.take n ++ List.replicate (n - s.length) x)[i]? =
      if i < min s.length n then s[i]? else if i < n then some x else none := by
  rw [List.getElem?_append, List.getElem?_take, List.getElem?_replicate]
  simp only [List.length_take]
  by_cases h1 : i < min s.length n
  · have h2 : i < min n s.length := by omega
    have h3 : i < n := by omega
    simp only [h1, h2, h3, if_true]
  · have h2 : ¬ i < min n s.length := by omega
    simp only [h1, h2, if_false]
    by_cases h3 : i < n
    · have h4 : i - min n s.length < n - s.length := by omega
      simp only [h3, h4, if_true]
    · have h4 : ¬ i - min n s.length < n - s.length := by omega
      simp only [h3, h4, if_false]

theorem read_resized {v v' : vector} {h h' : Heap} {s : List Nat} {n x : Nat}
    (hl : limbs v h = some s)
    (hl' : limbs v' h' = some (s.take n ++ List.replicate (n - s.length) x)) :
    (∀ i, i < min s.length n → read_index i v' h' = read_index i v h) ∧
    (∀ i, s.length ≤ i → i < n → read_index i v' h' = .ok x) := by
  constructor
  · intro i hi
    have hi' : i < s.length := by omega
    rw [read_index_limbs hl i s[i] (List.getElem?_eq_getElem hi'),
      read_index_limbs hl' i s[i] (by
        rw [resized_getElem]
        simp only [hi, if_true]
        exact List.getElem?_eq_getElem hi')]
  · intro i h1 h2
    exact read_index_limbs hl' i x (by
      rw [resized_getElem]
      have h3 : ¬ i < min s.length n := by omega
      simp only [h3, h2, if_true, if_false])

/-- C6 (amended): `resize(n, x)` with `n` at most `MAX_WORDS` on a well-formed container
with limb sequence `s` returns and leaves `size() == n`, the limbs `s[i]` at
`i < min(|s|, n)` and `x` at `|s| <= i < n`, whatever the representation before and after.
Hence `resize(k)` followed by `resize(n)` with `k <= n` (fill 0) returns and leaves the limbs
below `min(k, |s|)` as they were and 0 at every index from `min(k, |s|)`, in particular on
`[k, n)`. -/
theorem C6_resize (a1 a2 : Alloc) (n k x : Nat) (v : vector) (h : Heap) (s : List Nat)
    (hw : WF v h) (hl : limbs v h = some s) (hf1 : Fresh a1 h) (hf2 : Fresh a2 h)
    (hne : a2.addr ≠ a1.addr) (hn : n ≤ MAX_WORDS) (hk : k ≤ n) :
    (∃ v' h', resize (some a1) n x v h = .ret () v' h' ∧ size v' = n ∧
      limbs v' h' = some (s.take n ++ List.replicate (n - s.length) x) ∧
      (∀ i, i < min s.length n → read_index i v' h' = read_index i v h) ∧
      (∀ i, s.length ≤ i → i < n → read_index i v' h' = .ok x)) ∧
    (∃ v1 h1 v2 h2, resize (some a1) k 0 v h = .ret () v1 h1 ∧
      resize (some a2) n 0 v1 h1 = .ret () v2 h2 ∧ size v2 = n ∧
      limbs v2 h2 = some (s.take k ++ List.replicate (n - min k s.length) 0) ∧
      (∀ i, i < min k s.length → read_index i v2 h2 = read_index i v h) ∧
      (∀ i, k ≤ i → i < n → read_index i v2 h2 = .ok 0)) := by
  have hsl : s.length = v.size_ := limbs_length hl
  constructor
  · obtain ⟨v', h', hr, hpost⟩ := resize_spec a1 n x v h s hw hl hf1 hn
    have hl' : limbs v' h' = some (s.take n ++ List.replicate (n - s.length) x) := by
      rw [hpost.limbs_eq, hsl]
    exact ⟨v', h', hr, hpost.size_eq, hl', (read_resized hl hl').1, (read_resized hl hl').2⟩
  · obtain ⟨v1, h1, hr1, hpost1⟩ := resize_spec a1 k 0 v h s hw hl hf1 (by omega)
    have hf2' : Fresh a2 h1 := fresh_of_frame a2 hpost1.frame hw hf2 (by
      intro a ha
      cases ha
      exact hne)
    obtain ⟨v2, h2, hr2, hpost2⟩ := resize_spec a2 n 0 v1 h1 _ hpost1.wf hpost1.limbs_eq
      hf2' hn
    have hl2 : limbs v2 h2 = some (s.take k ++ List.replicate (n - min k s.length) 0) := by
      rw [hpost2.limbs_eq, hpost1.size_eq, ← hsl]
      congr 1
      rw [List.take_of_length_le (by simp; omega), List.append_assoc,
        List.append_replicate_replicate]
      congr 2
      omega
    refine ⟨v1, h1, v2, h2, hr1, hr2, hpost2.size_eq, hl2, ?_, ?_⟩
    · intro i hi
      have hi' : i < s.length := by omega
      rw [read_index_limbs hl i s[i] (List.getElem?_eq_getElem hi'),
        read_index_limbs hl2 i s[i] (by
          rw [List.getElem?_append_left (by simp; omega), List.getElem?_take]
          have : i < k := by omega
          simp only [this, if_true]
          exact List.getElem?_eq_getElem hi')]
    · intro i h1' h2'
      exact read_index_limbs hl2 i 0 (by
        rw [List.getElem?_append_right (by simp; omega), List.getElem?_replicate]
        have : i - (s.take k).length < n - min k s.length := by
          simp only [List.length_take]
          omega
        simp only [this, if_true])

/-- C6 from `[1,2,3,4,5,6]` in a block: `resize(2)` moves to the inline array, `resize(7)`
moves to a new block, and the limbs read `[1,2,0,0,0,0,0]`. -/
theorem C6_resize_witness :
    (WF (vector_at 100 6 6) (heap_one 100 [1, 2, 3, 4, 5, 6]) ∧
      limbs (vector_at 100 6 6) (heap_one 100 [1, 2, 3, 4, 5, 6]) = some [1, 2, 3, 4, 5, 6] ∧
      Fresh (block_of 200 7) (heap_one 100 [1, 2, 3, 4, 5, 6]) ∧
      Fresh (block_of 201 7) (heap_one 100 [1, 2, 3, 4, 5, 6]) ∧
      (block_of 201 7).addr ≠ (block_of 200 7).addr ∧ 7 ≤ MAX_WORDS ∧ 2 ≤ 7) ∧
    ((∃ v' h', resize (some (block_of 200 7)) 7 9 (vector_at 100 6 6)
        (heap_one 100 [1, 2, 3, 4, 5, 6]) = .ret () v' h' ∧ size v' = 7 ∧
      limbs v' h' = some ([1, 2, 3, 4, 5, 6].take 7 ++
        List.replicate (7 - [1, 2, 3, 4, 5, 6].length) 9) ∧
      (∀ i, i < min [1, 2, 3, 4, 5, 6].length 7 →
        read_index i v' h' =
          read_index i (vector_at 100 6 6) (heap_one 100 [1, 2, 3, 4, 5, 6])) ∧
      (∀ i, [1, 2, 3, 4, 5, 6].length ≤ i → i < 7 → read_index i v' h' = .ok 9)) ∧
    (∃ v1 h1 v2 h2, resize (some (block_of 200 7)) 2 0 (vector_at 100 6 6)
        (heap_one 100 [1, 2, 3, 4, 5, 6]) = .ret () v1 h1 ∧
      resize (some (block_of 201 7)) 7 0 v1 h1 = .ret () v2 h2 ∧ size v2 = 7 ∧
      limbs v2 h2 = some ([1, 2, 3, 4, 5, 6].take 2 ++
        List.replicate (7 - min 2 [1, 2, 3, 4, 5, 6].length) 0) ∧
      (∀ i, i < min 2 [1, 2, 3, 4, 5, 6].length →
        read_index i v2 h2 =
          read_index i (vector_at 100 6 6) (heap_one 100 [1, 2, 3, 4, 5, 6])) ∧
      (∀ i, 2 ≤ i → i < 7 → read_index i v2 h2 = .ok 0))) ∧
    ((resize (some (block_of 200 7)) 2 0 (vector_at 100 6 6)
        (heap_one 100 [1, 2, 3, 4, 5, 6])).andThen fun _ v1 h1 =>
      resize (some (block_of 201 7)) 7 0 v1 h1).observe (fun v2 h2 => limbs v2 h2) =
      some (some [1, 2, 0, 0, 0, 0, 0]) :=
  have hw : WF (vector_at 100 6 6) (heap_one 100 [1, 2, 3, 4, 5, 6]) :=
    (WF_shared _ _ (by decide)).2
      ⟨rfl, ⟨1, [1, 2, 3, 4, 5, 6]⟩, rfl, by decide, rfl, by decide, by decide⟩
  ⟨⟨hw, rfl, rfl, rfl, by decide, by decide, by decide⟩,
    C6_resize (block_of 200 7) (block_of 201 7) 7 2 9 (vector_at 100 6 6) _
      [1, 2, 3, 4, 5, 6] hw rfl rfl rfl (by decide) (by decide) (by decide), rfl⟩


/-! ## C10: copy assignment -/

theorem destructor_inline (v : vector) (h : Heap) (hs : v.size_ ≤ SMALL_SIZE) :
    destructor v h = .ret () ⟨0, v.buffers_⟩ h := by
  have hns : ¬ SMALL_SIZE < v.size_ := by omega
  simp [destructor, hns]

theorem destructor_shared (v : vector) (h : Heap) (sa : shared_array)
    (hs : SMALL_SIZE < v.size_) (hp : h v.buffers_.as_dynamic.arr = some sa)
    (hrc : 1 ≤ sa.ref_counter) :
    destructor v h = .ret () ⟨0, v.buffers_⟩ (heap_set h v.buffers_.as_dynamic.arr
      (if sa.ref_counter = 1 then none else some ⟨sa.ref_counter - 1, sa.words⟩)) := by
  unfold destructor
  simp only [hs, if_true]
  rw [unshare_eq _ _ sa hp hrc]

theorem operator_assign_effect (pa pb : Nat) (a b : vector) (h : Heap) (hwa : WF a h)
    (hwb : WF b h) (hne : pa ≠ pb) :
    ∃ h', operator_assign pa pb a b h = .ret () b h' ∧
      ∀ p, ((Holds a p ↔ Holds b p) → h' p = h p) ∧
        (Holds b p → ¬ Holds a p →
          ∃ sa, h p = some sa ∧ h' p = some ⟨sa.ref_counter + 1, sa.words⟩) ∧
        (Holds a p → ¬ Holds b p →
          ∃ sa, h p = some sa ∧
            h' p = if sa.ref_counter = 1 then none
              else some ⟨sa.ref_counter - 1, sa.words⟩) := by
  unfold operator_assign
  simp only [hne, ne_eq, not_false_eq_true, if_true, swap]
  by_cases hsb : b.size_ ≤ SMALL_SIZE
  · have hnb : ∀ p, ¬ Holds b p := fun p hb => by
      have := hb.1
      omega
    rw [copy_ctor_inline b h hsb]
    simp only [andThen_ret]
    by_cases hsa : a.size_ ≤ SMALL_SIZE
    · have hna : ∀ p, ¬ Holds a p := fun p ha => by
        have := ha.1
        omega
      rw [destructor_inline ⟨a.size_, a.buffers_⟩ h hsa]
      refine ⟨h, rfl, fun p => ⟨fun _ => rfl, fun hb _ => absurd hb (hnb p),
        fun ha _ => absurd ha (hna p)⟩⟩
    · have hsa1 : SMALL_SIZE < a.size_ := by omega
      obtain ⟨_, sa, hp, hrc, _⟩ := (WF_shared a h hsa1).1 hwa
      rw [destructor_shared ⟨a.size_, a.buffers_⟩ h sa hsa1 hp hrc]
      refine ⟨_, rfl, fun p => ⟨?_, fun hb _ => absurd hb (hnb p), ?_⟩⟩
      · intro hiff
        have hnp : p ≠ a.buffers_.as_dynamic.arr := fun he =>
          hnb p (hiff.1 ⟨hsa1, he.symm⟩)
        exact heap_set_other _ _ _ _ hnp
      · intro ha _
        rw [← ha.2]
        exact ⟨sa, hp, heap_set_same _ _ _⟩
  · have hsb1 : SMALL_SIZE < b.size_ := by omega
    obtain ⟨_, sb, hpb, hrcb, _⟩ := (WF_shared b h hsb1).1 hwb
    rw [copy_ctor_shared b h sb hsb1 hpb]
    simp only [andThen_ret]
    by_cases hsa : a.size_ ≤ SMALL_SIZE
    · have hna : ∀ p, ¬ Holds a p := fun p ha => by
        have := ha.1
        omega
      rw [destructor_inline ⟨a.size_, a.buffers_⟩ _ hsa]
      refine ⟨_, rfl, fun p => ⟨?_, ?_, fun ha _ => absurd ha (hna p)⟩⟩
      · intro hiff
        have hnp : p ≠ b.buffers_.as_dynamic.arr := fun he =>
          hna p (hiff.2 ⟨hsb1, he.symm⟩)
        exact heap_set_other _ _ _ _ hnp
      · intro hb _
        rw [← hb.2]
        exact ⟨sb, hpb, heap_set_same _ _ _⟩
    · have hsa1 : SMALL_SIZE < a.size_ := by omega
      obtain ⟨_, sa, hpa, hrca, _⟩ := (WF_shared a h hsa1).1 hwa
      by_cases hsame : a.buffers_.as_dynamic.arr = b.buffers_.as_dynamic.arr
      · rw [hsame] at hpa
        rw [hpb] at hpa
        cases hpa
        rw [destructor_shared ⟨a.size_, a.buffers_⟩ _ ⟨sb.ref_counter + 1, sb.words⟩ hsa1
          (by simp only; rw [hsame]; exact heap_set_same _ _ _) (by simp only; omega)]
        refine ⟨_, rfl, fun p => ⟨?_, ?_, ?_⟩⟩
        · intro _
          simp only
          rw [hsame, heap_set_set]
          by_cases hpe : p = b.buffers_.as_dynamic.arr
          · have h1 : ¬ sb.ref_counter + 1 = 1 := by omega
            rw [hpe, heap_set_same, hpb]
            simp [h1]
          · exact heap_set_other _ _ _ _ hpe
        · intro hb hna
          exact absurd ⟨hsa1, hsame.trans hb.2⟩ hna
        · intro ha hnb
          exact absurd ⟨hsb1, hsame.symm.trans ha.2⟩ hnb
      · have hpa1 : heap_set h b.buffers_.as_dynamic.arr
            (some ⟨sb.ref_counter + 1, sb.words⟩) a.buffers_.as_dynamic.arr = some sa := by
          rw [heap_set_other _ _ _ _ hsame]
          exact hpa
        rw [destructor_shared ⟨a.size_, a.buffers_⟩ _ sa hsa1 hpa1 hrca]
        refine ⟨_, rfl, fun p => ⟨?_, ?_, ?_⟩⟩
        · intro hiff
          have hnpa : p ≠ a.buffers_.as_dynamic.arr := fun he =>
            hsame ((hiff.1 ⟨hsa1, he.symm⟩).2.trans he).symm
          have hnpb : p ≠ b.buffers_.as_dynamic.arr := fun he =>
            hsame ((hiff.2 ⟨hsb1, he.symm⟩).2.trans he)
          rw [heap_set_other _ _ _ _ hnpa, heap_set_other _ _ _ _ hnpb]
        · intro hb _
          refine ⟨sb, by rw [← hb.2]; exact hpb, ?_⟩
          rw [heap_set_other _ _ _ _ (by rw [← hb.2]; exact fun he => hsame he.symm), ← hb.2,
            heap_set_same]
        · intro ha _
          refine ⟨sa, by rw [← ha.2]; exact hpa, ?_⟩
          rw [← ha.2]
          exact heap_set_same _ _ _

/-- C10: copy assignment `a = b` between two distinct well-formed objects returns; afterwards
`a` has the `size()` and the limbs `b` had, `a == b`, and `b` is well-formed and reads the
same limbs. The block `a` held loses exactly one reference and is freed exactly when that was
its last one; the block `b` holds gains exactly one reference; when both are the same block,
or for any block neither holds, nothing changes. Self-assignment returns with the container
and the free store unchanged. -/
theorem C10_copy_assignment (pa pb : Nat) (a b : vector) (h : Heap) (sb : List Nat)
    (hwa : WF a h) (hwb : WF b h) (hlb : limbs b h = some sb) (hne : pa ≠ pb) :
    (∃ a' h', operator_assign pa pb a b h = .ret () a' h' ∧ size a' = size b ∧
      limbs a' h' = some sb ∧ operator_eq a' b h' = .ok true ∧
      WF a' h' ∧ WF b h' ∧ limbs b h' = some sb ∧
      ∀ p, ((Holds a p ↔ Holds b p) → h' p = h p) ∧
        (Holds b p → ¬ Holds a p →
          ∃ sa, h p = some sa ∧ h' p = some ⟨sa.ref_counter + 1, sa.words⟩) ∧
        (Holds a p → ¬ Holds b p →
          ∃ sa, h p = some sa ∧
            h' p = if sa.ref_counter = 1 then none
              else some ⟨sa.ref_counter - 1, sa.words⟩)) ∧
    operator_assign pa pa a a h = .ret () a h := by
  constructor
  · obtain ⟨h', hrun, heff⟩ := operator_assign_effect pa pb a b h hwa hwb hne
    have hkeep : WF b h' ∧ limbs b h' = some sb := by
      by_cases hs : b.size_ ≤ SMALL_SIZE
      · refine ⟨(WF_inline b h' hs).2 (WF_wide hwb), ?_⟩
        rw [limbs_inline b h' hs (WF_wide hwb)]
        rw [limbs_inline b h hs (WF_wide hwb)] at hlb
        exact hlb
      · have hs1 : SMALL_SIZE < b.size_ := by omega
        obtain ⟨hwide, s0, hp, hrc, hlen, hcap, hmax⟩ := (WF_shared b h hs1).1 hwb
        rw [limbs_shared b h s0 hs1 hp (by omega)] at hlb
        have hb : Holds b b.buffers_.as_dynamic.arr := ⟨hs1, rfl⟩
        by_cases ha : Holds a b.buffers_.as_dynamic.arr
        · have hsame := (heff _).1 ⟨fun _ => hb, fun _ => ha⟩
          refine ⟨(WF_shared b h' hs1).2 ⟨hwide, s0, by rw [hsame, hp], hrc, hlen, hcap,
            hmax⟩, ?_⟩
          rw [limbs_shared b h' s0 hs1 (by rw [hsame, hp]) (by omega)]
          exact hlb
        · obtain ⟨s1, hp1, hp'⟩ := (heff _).2.1 hb ha
          rw [hp] at hp1
          cases hp1
          refine ⟨(WF_shared b h' hs1).2 ⟨hwide, _, hp', by simp only; omega, hlen, hcap,
            hmax⟩, ?_⟩
          rw [limbs_shared b h' _ hs1 hp' (by simp only; omega)]
          exact hlb
    exact ⟨b, h', hrun, rfl, hkeep.2, by rw [operator_eq_limbs hkeep.2 hkeep.2]; simp,
      hkeep.1, hkeep.1, hkeep.2, heff⟩
  · simp [operator_assign]

/-- C10 on `a = [9,9,9,9,9]` alone in block 100 and `b = [1,2,3,4,5]` alone in block 101:
block 100 is freed and block 101 is counted twice. -/
theorem C10_copy_assignment_witness :
    (WF (vector_at 100 5 5)
        (heap_set (heap_one 100 [9, 9, 9, 9, 9]) 101 (some ⟨1, [1, 2, 3, 4, 5]⟩)) ∧
      WF (vector_at 101 5 5)
        (heap_set (heap_one 100 [9, 9, 9, 9, 9]) 101 (some ⟨1, [1, 2, 3, 4, 5]⟩)) ∧
      limbs (vector_at 101 5 5)
        (heap_set (heap_one 100 [9, 9, 9, 9, 9]) 101 (some ⟨1, [1, 2, 3, 4, 5]⟩)) =
        some [1, 2, 3, 4, 5] ∧ (10 : Nat) ≠ 20) ∧
    ((∃ a' h', operator_assign 10 20 (vector_at 100 5 5) (vector_at 101 5 5)
        (heap_set (heap_one 100 [9, 9, 9, 9, 9]) 101 (some ⟨1, [1, 2, 3, 4, 5]⟩))
        = .ret () a' h' ∧ size a' = size (vector_at 101 5 5) ∧
      limbs a' h' = some [1, 2, 3, 4, 5] ∧ operator_eq a' (vector_at 101 5 5) h' = .ok true ∧
      WF a' h' ∧ WF (vector_at 101 5 5) h' ∧
      limbs (vector_at 101 5 5) h' = some [1, 2, 3, 4, 5] ∧
      ∀ p, ((Holds (vector_at 100 5 5) p ↔ Holds (vector_at 101 5 5) p) →
          h' p = heap_set (heap_one 100 [9, 9, 9, 9, 9]) 101
            (some ⟨1, [1, 2, 3, 4, 5]⟩) p) ∧
        (Holds (vector_at 101 5 5) p → ¬ Holds (vector_at 100 5 5) p →
          ∃ sa, heap_set (heap_one 100 [9, 9, 9, 9, 9]) 101
              (some ⟨1, [1, 2, 3, 4, 5]⟩) p = some sa ∧
            h' p = some ⟨sa.ref_counter + 1, sa.words⟩) ∧
        (Holds (vector_at 100 5 5) p → ¬ Holds (vector_at 101 5 5) p →
          ∃ sa, heap_set (heap_one 100 [9, 9, 9, 9, 9]) 101
              (some ⟨1, [1, 2, 3, 4, 5]⟩) p = some sa ∧
            h' p = if sa.ref_counter = 1 then none
              else some ⟨sa.ref_counter - 1, sa.words⟩)) ∧
      operator_assign 10 10 (vector_at 100 5 5) (vector_at 100 5 5)
        (heap_set (heap_one 100 [9, 9, 9, 9, 9]) 101 (some ⟨1, [1, 2, 3, 4, 5]⟩)) =
        .ret () (vector_at 100 5 5)
          (heap_set (heap_one 100 [9, 9, 9, 9, 9]) 101 (some ⟨1, [1, 2, 3, 4, 5]⟩))) ∧
    (operator_assign 10 20 (vector_at 100 5 5) (vector_at 101 5 5)
        (heap_set (heap_one 100 [9, 9, 9, 9, 9]) 101 (some ⟨1, [1, 2, 3, 4, 5]⟩))).observe
      (fun a' h' => (limbs a' h', h' 100, h' 101)) =
      some (some [1, 2, 3, 4, 5], none, some ⟨2, [1, 2, 3, 4, 5]⟩) :=
  have hwa : WF (vector_at 100 5 5)
      (heap_set (heap_one 100 [9, 9, 9, 9, 9]) 101 (some ⟨1, [1, 2, 3, 4, 5]⟩)) :=
    (WF_shared _ _ (by decide)).2
      ⟨rfl, ⟨1, [9, 9, 9, 9, 9]⟩, rfl, by decide, rfl, by decide, by decide⟩
  have hwb : WF (vector_at 101 5 5)
      (heap_set (heap_one 100 [9, 9, 9, 9, 9]) 101 (some ⟨1, [1, 2, 3, 4, 5]⟩)) :=
    (WF_shared _ _ (by decide)).2
      ⟨rfl, ⟨1, [1, 2, 3, 4, 5]⟩, rfl, by decide, rfl, by decide, by decide⟩
  ⟨⟨hwa, hwb, rfl, by decide⟩,
    C10_copy_assignment 10 20 (vector_at 100 5 5) (vector_at 101 5 5) _ [1, 2, 3, 4, 5]
      hwa hwb rfl (by decide), rfl⟩


/-! ## C2: a sequence of `push_back` against sized construction and assignment -/

theorem push_back_all_spec : ∀ (xs : List Nat) (als : List Alloc) (v : vector) (h : Heap)
    (s : List Nat), als.length = xs.length → (als.map Alloc.addr).Nodup →
    (∀ a, a ∈ als → Fresh a h) → WF v h → limbs v h = some s →
    2 * (v.size_ + xs.length) ≤ MAX_WORDS →
    ∃ v' h', push_back_all als xs v h = .ret () v' h' ∧ WF v' h' ∧
      limbs v' h' = some (s ++ xs) ∧
      ∀ b, Fresh b h → b.addr ∉ als.map Alloc.addr → Fresh b h' := by
  intro xs
  induction xs with
  | nil =>
    intro als v h s _ _ _ hw hl _
    refine ⟨v, h, ?_, hw, by simpa using hl, fun b hb _ => hb⟩
    cases als <;> rfl
  | cons x xs ih =>
    intro als v h s hlen hnd hfr hw hl hmax
    cases als with
    | nil => cases hlen
    | cons a als =>
      simp only [List.length_cons, Nat.add_right_cancel_iff] at hlen
      simp only [List.map_cons, List.nodup_cons] at hnd
      simp only [List.length_cons] at hmax
      obtain ⟨v1, h1, hpush, hpost, _⟩ := push_back_spec a x v h s hw hl
        (hfr a (List.mem_cons_self _ _)) (by omega)
      have hkeep : ∀ b, Fresh b h → b.addr ≠ a.addr → Fresh b h1 := fun b hb hne =>
        fresh_of_frame b hpost.frame hw hb (by
          intro a' ha'
          cases ha'
          exact hne)
      obtain ⟨v', h', hrun, hw', hl', hfr'⟩ := ih als v1 h1 (s ++ [x]) hlen hnd.2
        (fun b hb => hkeep b (hfr b (List.mem_cons_of_mem _ hb)) (by
          intro he
          exact hnd.1 (he ▸ List.mem_map_of_mem Alloc.addr hb)))
        hpost.wf hpost.limbs_eq (by rw [hpost.size_eq]; omega)
      refine ⟨v', h', ?_, hw', ?_, ?_⟩
      · simp only [push_back_all, hpush, andThen_ret]
        exact hrun
      · rw [hl']
        simp
      · intro b hb hnotin
        simp only [List.map_cons, List.mem_cons, not_or] at hnotin
        exact hfr' b (hkeep b hb hnotin.1) hnotin.2

theorem other_of_alloc (u : vector) (h : Heap) (a : Alloc) (X : Option shared_array)
    (hu : WF u h) (hf : Fresh a h) :
    WF u (heap_set h a.addr X) ∧ limbs u (heap_set h a.addr X) = limbs u h ∧
      (SMALL_SIZE < u.size_ → u.buffers_.as_dynamic.arr ≠ a.addr) := by
  have hfr : Frame ⟨0, u.buffers_⟩ h (some a) (heap_set h a.addr X) :=
    frame_alloc _ h a hf X
  have hsep : Separate u ⟨0, u.buffers_⟩ := by
    intro _ h0
    exact absurd h0 (Nat.not_lt_zero _)
  refine ⟨(other_of_frame hfr hu hsep).1, (other_of_frame hfr hu hsep).2, ?_⟩
  intro hs he
  obtain ⟨_, sa, hp, _⟩ := (WF_shared u h hs).1 hu
  rw [he, hf] at hp
  cases hp

theorem vector_sized_spec (prior : Nat → Nat) (a : Alloc) (n : Nat) (h : Heap)
    (hn : n ≤ MAX_WORDS) (hf : Fresh a h) :
    ∃ w h' s0, vector_sized prior (some a) n h = .ret () w h' ∧ w.size_ = n ∧ WF w h' ∧
      Exclusive w h' ∧ limbs w h' = some s0 ∧
      ∀ u, WF u h → WF u h' ∧ limbs u h' = limbs u h ∧ Separate u w := by
  by_cases hs : n ≤ SMALL_SIZE
  · obtain ⟨w, hrun, hsz, hw, hl⟩ := vector_sized_small prior (some a) n h hs
    refine ⟨w, h, _, hrun, hsz, hw, exclusive_inline w h (by omega), hl, ?_⟩
    intro u hu
    refine ⟨hu, rfl, ?_⟩
    intro _ h2
    omega
  · have hs1 : SMALL_SIZE < n := by omega
    obtain ⟨hrun, hl⟩ := vector_sized_large prior a n h hs1 hn
    refine ⟨_, _, _, hrun, rfl, ?_, ?_, hl, ?_⟩
    · rw [WF_shared _ _ (by exact hs1)]
      exact ⟨rfl, _, heap_set_same _ _ _, le_refl _, by simp, le_refl _, hn⟩
    · intro _
      exact ⟨_, heap_set_same _ _ _, rfl⟩
    · intro u hu
      obtain ⟨h1, h2, h3⟩ := other_of_alloc u h a
        (some ⟨1, (List.range n).map a.junk⟩) hu hf
      exact ⟨h1, h2, fun hus _ => h3 hus⟩

theorem realloc_if_share_of_exclusive (al : Option Alloc) (v : vector) (h : Heap)
    (hex : Exclusive v h) : realloc_if_share_ al v h = .ret () v h := by
  by_cases hs : v.size_ ≤ SMALL_SIZE
  · exact realloc_if_share_inline al v h hs
  · obtain ⟨sa, hp, hrc⟩ := hex (by omega)
    exact realloc_if_share_exclusive al v h sa hp (by omega)

theorem assign_index_any (al : Option Alloc) (i x : Nat) (v : vector) (h : Heap)
    (hex : Exclusive v h) : assign_index al i x v h = assign_index none i x v h := by
  unfold assign_index operator_index data
  rw [realloc_if_share_of_exclusive al v h hex, realloc_if_share_of_exclusive none v h hex]

theorem assign_all_spec : ∀ (xs : List Nat) (i : Nat) (w : vector) (h : Heap) (s : List Nat),
    WF w h → Exclusive w h → limbs w h = some s → i + xs.length ≤ w.size_ →
    ∃ w' h', (∀ al, assign_all al xs i w h = .ret () w' h') ∧ w'.size_ = w.size_ ∧
      WF w' h' ∧ limbs w' h' = some (s.take i ++ xs ++ s.drop (i + xs.length)) ∧
      ∀ u, WF u h → Separate u w → WF u h' ∧ limbs u h' = limbs u h := by
  intro xs
  induction xs with
  | nil =>
    intro i w h s hw _ hl _
    refine ⟨w, h, fun _ => rfl, rfl, hw, ?_, fun u hu _ => ⟨hu, rfl⟩⟩
    rw [hl]
    simp
  | cons x xs ih =>
    intro i w h s hw hex hl hi
    simp only [List.length_cons] at hi
    have hsl : s.length = w.size_ := limbs_length hl
    obtain ⟨w1, h1, hrun, hpost, hex1⟩ := assign_index_spec none i x w h s hw hl (by omega)
      (Or.inl hex)
    obtain ⟨w', h', hall, hsz, hw', hl', hoth⟩ := ih (i + 1) w1 h1 (s.set i x) hpost.wf hex1
      hpost.limbs_eq (by rw [hpost.size_eq]; omega)
    have hown : SMALL_SIZE < w.size_ →
        w1.buffers_.as_dynamic.arr = w.buffers_.as_dynamic.arr := by
      intro hs
      rcases hpost.owner (by rw [hpost.size_eq]; exact hs) with ho | ⟨a, ha, _⟩
      · exact ho.2
      · cases ha
    refine ⟨w', h', ?_, by rw [hsz, hpost.size_eq], hw', ?_, ?_⟩
    · intro al
      simp only [assign_all]
      rw [assign_index_any al i x w h hex, hrun]
      exact hall al
    · rw [hl', take_succ_set _ _ _ (by omega), List.drop_set_of_lt _ _ (by omega)]
      simp only [List.length_cons, List.append_assoc, List.singleton_append,
        List.cons_append]
      have hidx : i + 1 + xs.length = i + (xs.length + 1) := by omega
      rw [hidx, List.nil_append]
    · intro u hu hsep
      obtain ⟨hu1, hl1⟩ := other_of_frame hpost.frame hu hsep
      have hsep1 : Separate u w1 := by
        intro hus hws
        rw [hpost.size_eq] at hws
        rw [hown hws]
        exact hsep hus hws
      obtain ⟨hu2, hl2⟩ := hoth u hu1 hsep1
      exact ⟨hu2, hl2.trans hl1⟩

/-- C2: for every list `xs` of limbs, `push_back(x)` for each `x` of `xs` in order on a
default-constructed container returns a container with `size() == |xs|` and limb `i` equal
to `xs[i]`; `vector(|xs|)` followed by `w[i] = xs[i]` for every `i` returns a container
with the same size and limbs, and `operator==` on the two returns true. The allocator
answers blocks that are not live and that it has not handed out before, and `2 * |xs|`
limbs are within what `size_t` can describe. -/
theorem C2_push_back_sequence (xs : List Nat) (als : List Alloc) (a2 : Alloc)
    (al3 : Option Alloc) (prior prior2 : Nat → Nat) (h : Heap)
    (hlen : als.length = xs.length) (hnd : ((a2 :: als).map Alloc.addr).Nodup)
    (hfr : ∀ a, a ∈ a2 :: als → Fresh a h) (hmax : 2 * xs.length ≤ MAX_WORDS) :
    ∃ v h1, push_back_all als xs (vector_default prior) h = .ret () v h1 ∧
      size v = xs.length ∧ limbs v h1 = some xs ∧
      (∀ i y, xs[i]? = some y → read_index i v h1 = .ok y) ∧
      ∃ w0 h2 w h3, vector_sized prior2 (some a2) xs.length h1 = .ret () w0 h2 ∧
        assign_all al3 xs 0 w0 h2 = .ret () w h3 ∧ size w = xs.length ∧
        limbs w h3 = some xs ∧ operator_eq v w h3 = .ok true := by
  simp only [List.map_cons, List.nodup_cons] at hnd
  have hw0 : WF (vector_default prior) h :=
    (WF_inline _ _ (Nat.zero_le _)).2 (by simp [vector_default])
  have hl0 : limbs (vector_default prior) h = some [] := by
    rw [limbs_inline _ _ (Nat.zero_le _) (by simp [vector_default])]
    rfl
  obtain ⟨v, h1, hrun, hw, hl, hkeep⟩ := push_back_all_spec xs als (vector_default prior) h []
    hlen hnd.2 (fun a ha => hfr a (List.mem_cons_of_mem _ ha)) hw0 hl0 (by
      show 2 * (0 + xs.length) ≤ MAX_WORDS
      omega)
  simp only [List.nil_append] at hl
  have hf2 : Fresh a2 h1 := hkeep a2 (hfr a2 (List.mem_cons_self _ _)) hnd.1
  obtain ⟨w0, h2, s0, hrun2, hsz0, hww0, hex0, hlw0, hoth0⟩ :=
    vector_sized_spec prior2 a2 xs.length h1 (by omega) hf2
  obtain ⟨hv2, hlv2, hsep2⟩ := hoth0 v hw
  obtain ⟨w, h3, hall, hszw, hww, hlw, hoth⟩ := assign_all_spec xs 0 w0 h2 s0 hww0 hex0 hlw0
    (by omega)
  obtain ⟨hv3, hlv3⟩ := hoth v hv2 hsep2
  have hs0 : s0.length = xs.length := by rw [limbs_length hlw0, hsz0]
  have hlw' : limbs w h3 = some xs := by
    rw [hlw]
    simp only [List.take_zero, List.nil_append, Nat.zero_add]
    rw [List.drop_of_length_le (by omega), List.append_nil]
  have hlv' : limbs v h3 = some xs := by rw [hlv3, hlv2, hl]
  refine ⟨v, h1, hrun, (limbs_length hl).symm, hl, fun i y hy => read_index_limbs hl i y hy,
    w0, h2, w, h3, hrun2, hall al3, ?_, hlw', ?_⟩
  · show w.size_ = xs.length
    rw [hszw, hsz0]
  · rw [operator_eq_limbs hlv' hlw']
    simp

/-- C2 across the boundary: five `push_back` against `vector(5)` and five assignments. -/
theorem C2_push_back_sequence_witness :
    ([block_of 101 7, block_of 102 7, block_of 103 7, block_of 104 7, block_of 105 7].length
        = [1, 2, 3, 4, 5].length ∧
      ((block_of 100 7 :: [block_of 101 7, block_of 102 7, block_of 103 7, block_of 104 7,
        block_of 105 7]).map Alloc.addr).Nodup ∧
      (∀ a, a ∈ block_of 100 7 :: [block_of 101 7, block_of 102 7, block_of 103 7,
        block_of 104 7, block_of 105 7] → Fresh a empty_heap) ∧
      2 * [1, 2, 3, 4, 5].length ≤ MAX_WORDS) ∧
    ∃ v h1, push_back_all [block_of 101 7, block_of 102 7, block_of 103 7, block_of 104 7,
        block_of 105 7] [1, 2, 3, 4, 5] (vector_default fun _ => 7) empty_heap = .ret () v h1 ∧
      size v = [1, 2, 3, 4, 5].length ∧ limbs v h1 = some [1, 2, 3, 4, 5] ∧
      (∀ i y, [1, 2, 3, 4, 5][i]? = some y → read_index i v h1 = .ok y) ∧
      ∃ w0 h2 w h3, vector_sized (fun _ => 7) (some (block_of 100 7))
          [1, 2, 3, 4, 5].length h1 = .ret () w0 h2 ∧
        assign_all none [1, 2, 3, 4, 5] 0 w0 h2 = .ret () w h3 ∧
        size w = [1, 2, 3, 4, 5].length ∧
        limbs w h3 = some [1, 2, 3, 4, 5] ∧ operator_eq v w h3 = .ok true :=
  ⟨⟨rfl, by decide, fun _ _ => rfl, by decide⟩,
    C2_push_back_sequence [1, 2, 3, 4, 5] [block_of 101 7, block_of 102 7, block_of 103 7,
      block_of 104 7, block_of 105 7] (block_of 100 7) none (fun _ => 7) (fun _ => 7)
      empty_heap rfl (by decide) (fun _ _ => rfl) (by decide)⟩


/-! ## C12: `back()` and `pop_back()` on an empty container -/

theorem load_default_outside (prior : Nat → Nat) (h : Heap) (i : Nat) (hi : SMALL_SIZE ≤ i) :
    load (vector_default prior) h ⟨.inline, i⟩ = none := by
  unfold load
  simp only [array_at, vector_default, as_static_static, Option.bind]
  exact List.getElem?_eq_none (by simpa using hi)

theorem read_back_const_outside (v : vector) (h : Heap) (i : Nat)
    (hb : back_const v = ⟨.inline, i⟩) (hl : load v h ⟨.inline, i⟩ = none) :
    read_back_const v h = .error .undefined := by
  unfold read_back_const
  rw [hb, hl]

theorem small_size_le_max_index : SMALL_SIZE ≤ 18446744073709551615 := by
  unfold SMALL_SIZE
  omega

/-- C12 (code): on a default-constructed, empty container the mutable `back()` and
`pop_back()` stop at their assertion, but `back() const` has no assertion: it forms the
reference `data()[size_ - 1]` with `size_ - 1 = 2^64 - 1` in `size_t` and reads outside the
inline array. -/
theorem C12_back_const_has_no_assertion (prior : Nat → Nat) (al : Option Alloc) (h : Heap) :
    back al (vector_default prior) h = .fault .assertion ∧
    pop_back al (vector_default prior) h = .fault .assertion ∧
    back_const (vector_default prior) = ⟨.inline, 18446744073709551615⟩ ∧
    read_back_const (vector_default prior) h = .error .undefined := by
  have hb : back_const (vector_default prior) = ⟨.inline, 18446744073709551615⟩ := by
    simp [back_const, data_const, vector_default, SIZE_RANGE]
  exact ⟨rfl, rfl, hb, read_back_const_outside _ h _ hb
    (load_default_outside prior h _ small_size_le_max_index)⟩

/-! ## C13: Invariant A and `erase` -/

/-- C13 (code): `a.erase(a.begin())` on `a = [1,2,3,4,5]` leaves `size() == 4`, which is
`SMALL_SIZE`, while `buffers_` still is the handle of block 100, the block still is counted
once and holds `[2,3,4,5,0]`: the four limbs are not in the inline array, where `data()` now
looks for them and finds the bytes of the handle, `[5, 0, 100, 0]`. -/
theorem C13_erase_leaves_limbs_in_block :
    (erase_pos (some (block_of 200 7)) 0 (vector_at 100 5 5)
        (heap_one 100 [1, 2, 3, 4, 5])).observe
      (fun v h => (size v, data_const v, v.buffers_, h 100, limbs v h)) =
      some (4, ⟨.inline, 0⟩, .dynamic_ ⟨5, 100⟩, some ⟨1, [2, 3, 4, 5, 0]⟩,
        some [5, 0, 100, 0]) := rfl

/-! ## C16: the slots between `size_` and the capacity -/

/-- C16 (code): `push_back(6)` on a full `[1,2,3,4,5]` of capacity 5 moves to a block of
capacity 10 taken as the allocator hands it out; with 7 in every word of that memory the
block reads `[1,2,3,4,5,6,7,7,7,7]`, so the slots 6 to 9 hold 7. Uniquifying a shared
`[1,2,3,4,5]` of capacity 6 likewise leaves 7 in slot 5 of the new block. -/
theorem C16_growth_keeps_prior_memory_in_tail :
    (push_back (some (block_of 200 7)) 6 (vector_at 100 5 5)
        (heap_one 100 [1, 2, 3, 4, 5])).observe
      (fun v h => (size v, v.buffers_, h 200)) =
      some (6, .dynamic_ ⟨10, 200⟩, some ⟨1, [1, 2, 3, 4, 5, 6, 7, 7, 7, 7]⟩) ∧
    (data (some (block_of 200 7)) (vector_at 100 5 6)
        (heap_set empty_heap 100 (some ⟨2, [1, 2, 3, 4, 5, 0]⟩))).observe
      (fun v h => (size v, v.buffers_, h 200)) =
      some (5, .dynamic_ ⟨6, 200⟩, some ⟨1, [1, 2, 3, 4, 5, 7]⟩) := ⟨rfl, rfl⟩


/-! ## C11: allocation failure -/

theorem failsClean_const {α : Type} (o : Outcome α) (v : vector) (h : Heap)
    (ho : ∀ v' h', o ≠ .threw v' h') : FailsClean (fun _ => o) v h :=
  Or.inr ⟨ho, fun _ => rfl⟩

theorem of_ub_ne_threw (x : Option (vector × Heap)) (v' : vector) (h' : Heap) :
    Outcome.of_ub x ≠ .threw v' h' := by
  cases x with
  | none => intro he; cases he
  | some p => intro he; cases he

theorem failsClean_andThen {α β : Type} (f : Option Alloc → Outcome α)
    (g : α → vector → Heap → Outcome β) (v : vector) (h : Heap) (hf : FailsClean f v h)
    (hg : ∀ a v1 h1 v' h', g a v1 h1 ≠ .threw v' h') :
    FailsClean (fun al => (f al).andThen g) v h := by
  rcases hf with hf | ⟨hf1, hf2⟩
  · left
    simp only [hf, Outcome.andThen]
  · right
    refine ⟨?_, fun al => by simp only [hf2 al]⟩
    intro v' h' he
    cases ho : f none with
    | ret a v1 h1 =>
      change (f none).andThen g = _ at he
      rw [ho] at he
      exact hg a v1 h1 v' h' he
    | threw v1 h1 => exact hf1 v1 h1 ho
    | fault e =>
      change (f none).andThen g = _ at he
      rw [ho] at he
      cases he

theorem failsClean_realloc_data_ (c : Nat) (v : vector) (h : Heap) :
    FailsClean (fun al => realloc_data_ al c v h) v h := by
  unfold realloc_data_
  by_cases h1 : SMALL_SIZE < v.size_
  · by_cases h2 : SMALL_SIZE < c
    · left
      simp [h1, h2, alloc_data]
    · right
      simp [h1, h2]
  · right
    simp [h1]

theorem failsClean_realloc_if_share_ (v : vector) (h : Heap) :
    FailsClean (fun al => realloc_if_share_ al v h) v h := by
  unfold realloc_if_share_
  by_cases h1 : SMALL_SIZE < v.size_
  · cases hp : h v.buffers_.as_dynamic.arr with
    | none =>
      right
      simp [h1]
    | some sa =>
      by_cases h2 : 1 < sa.ref_counter
      · simp only [h1, if_true, h2]
        exact failsClean_realloc_data_ _ v h
      · right
        simp [h1, h2]
  · right
    simp [h1]

theorem realloc_if_share_none_ret (v v1 : vector) (h h1 : Heap)
    (hr : realloc_if_share_ none v h = .ret () v1 h1) : v1 = v ∧ h1 = h := by
  unfold realloc_if_share_ at hr
  split at hr
  · split at hr
    · cases hr
    · split at hr
      · unfold realloc_data_ at hr
        split at hr
        · cases hr
        · split at hr
          · cases hr
          · simp only [alloc_data] at hr
            cases hr
      · cases hr
        exact ⟨rfl, rfl⟩
  · cases hr
    exact ⟨rfl, rfl⟩

theorem failsClean_data (v : vector) (h : Heap) : FailsClean (fun al => data al v h) v h :=
  failsClean_andThen _ _ v h (failsClean_realloc_if_share_ v h)
    (fun _ _ _ _ _ he => by cases he)

theorem failsClean_operator_index (i : Nat) (v : vector) (h : Heap) :
    FailsClean (fun al => operator_index al i v h) v h := by
  unfold operator_index
  by_cases hi : i < v.size_
  · simp only [hi, if_true]
    exact failsClean_andThen _ _ v h (failsClean_data v h) (fun _ _ _ _ _ he => by cases he)
  · simp only [hi, if_false]
    exact failsClean_const _ v h (fun _ _ he => by cases he)

theorem failsClean_back (v : vector) (h : Heap) : FailsClean (fun al => back al v h) v h := by
  unfold back
  by_cases hi : v.size_ ≠ 0
  · simp only [if_pos hi]
    exact failsClean_andThen _ _ v h (failsClean_data v h) (fun _ _ _ _ _ he => by cases he)
  · simp only [if_neg hi]
    exact failsClean_const _ v h (fun _ _ he => by cases he)

theorem failsClean_assign_index (i x : Nat) (v : vector) (h : Heap) :
    FailsClean (fun al => assign_index al i x v h) v h :=
  failsClean_andThen _ _ v h (failsClean_operator_index i v h)
    (fun _ _ _ _ _ => of_ub_ne_threw _ _ _)

theorem failsClean_assign_back (x : Nat) (v : vector) (h : Heap) :
    FailsClean (fun al => assign_back al x v h) v h :=
  failsClean_andThen _ _ v h (failsClean_back v h) (fun _ _ _ _ _ => of_ub_ne_threw _ _ _)

theorem failsClean_pop_back (v : vector) (h : Heap) :
    FailsClean (fun al => pop_back al v h) v h := by
  unfold pop_back
  by_cases h0 : v.size_ = 0
  · simp only [h0, if_true]
    exact failsClean_const _ v h (fun _ _ he => by cases he)
  · by_cases h1 : v.size_ ≤ SMALL_SIZE
    · simp only [h0, h1, if_true, if_false]
      exact failsClean_const _ v h (fun _ _ he => by cases he)
    · by_cases h2 : v.size_ = SMALL_SIZE + 1
      · simp only [if_neg h0, if_neg h1, if_pos h2]
        refine failsClean_const _ v h ?_
        intro v' h'
        split
        · intro he
          cases he
        · exact of_ub_ne_threw _ _ _
      · simp only [if_neg h0, if_neg h1, if_neg h2]
        exact failsClean_andThen _ _ v h (failsClean_realloc_if_share_ v h)
          (fun _ _ _ _ _ => of_ub_ne_threw _ _ _)


theorem failsClean_push_back (x : Nat) (v : vector) (h : Heap) :
    FailsClean (fun al => push_back al x v h) v h := by
  unfold push_back
  by_cases h1 : v.size_ < SMALL_SIZE
  · simp only [h1, if_true]
    exact failsClean_const _ v h (fun _ _ => of_ub_ne_threw _ _ _)
  · by_cases h2 : v.size_ = SMALL_SIZE
    · left
      simp [h2, alloc_data]
    · simp only [h1, h2, if_false]
      cases hp : h v.buffers_.as_dynamic.arr with
      | none => exact failsClean_const _ v h (fun _ _ he => by cases he)
      | some sa =>
        simp only
        refine failsClean_andThen _ _ v h ?_ (fun _ _ _ _ _ => of_ub_ne_threw _ _ _)
        by_cases hc : 1 < sa.ref_counter ∨ v.size_ = v.buffers_.as_dynamic.capacity
        · simp only [hc, if_true]
          by_cases hfull : v.size_ = v.buffers_.as_dynamic.capacity
          · simp only [hfull, if_true]
            cases hi : increased_capacity_ v with
            | ok c => exact failsClean_realloc_data_ c v h
            | error e => exact failsClean_const _ v h (fun _ _ he => by cases he)
          · simp only [hfull, if_false]
            exact failsClean_realloc_data_ _ v h
        · simp only [hc, if_false]
          exact failsClean_const _ v h (fun _ _ he => by cases he)

theorem failsClean_resize (n x : Nat) (v : vector) (h : Heap) :
    FailsClean (fun al => resize al n x v h) v h := by
  unfold resize
  by_cases h1 : n < v.size_
  · simp only [h1, if_true]
    by_cases h2 : v.size_ ≤ SMALL_SIZE
    · simp only [h2, if_true]
      exact failsClean_const _ v h (fun _ _ => of_ub_ne_threw _ _ _)
    · by_cases h3 : n ≤ SMALL_SIZE
      · simp only [h2, h3, if_true, if_false]
        refine failsClean_const _ v h ?_
        intro v' h'
        split
        · intro he
          cases he
        · exact of_ub_ne_threw _ _ _
      · simp only [h2, h3, if_false]
        exact failsClean_andThen _ _ v h (failsClean_realloc_if_share_ v h)
          (fun _ _ _ _ _ => of_ub_ne_threw _ _ _)
  · by_cases h2 : v.size_ < n
    · simp only [h1, h2, if_true, if_false]
      by_cases h3 : SMALL_SIZE < v.size_
      · simp only [h3, if_true]
        cases hp : h v.buffers_.as_dynamic.arr with
        | none => exact failsClean_const _ v h (fun _ _ he => by cases he)
        | some sa =>
          simp only
          refine failsClean_andThen _ _ v h ?_ (fun _ _ _ _ _ => of_ub_ne_threw _ _ _)
          by_cases hc : 1 < sa.ref_counter ∨ v.buffers_.as_dynamic.capacity < n
          · simp only [hc, if_true]
            exact failsClean_realloc_data_ _ v h
          · simp only [hc, if_false]
            exact failsClean_const _ v h (fun _ _ he => by cases he)
      · by_cases h4 : SMALL_SIZE < n
        · left
          simp [h3, h4, alloc_data]
        · simp only [h3, h4, if_false]
          exact failsClean_const _ v h (fun _ _ => of_ub_ne_threw _ _ _)
    · simp only [h1, h2, if_false]
      exact failsClean_const _ v h (fun _ _ he => by cases he)

theorem failsClean_erase (first last : Ptr) (v : vector) (h : Heap) :
    FailsClean (fun al => erase al first last v h) v h := by
  unfold erase
  refine failsClean_andThen _ _ v h ?_ ?_
  · by_cases h1 : SMALL_SIZE < v.size_
    · simp only [h1, if_true]
      exact failsClean_realloc_if_share_ v h
    · simp only [h1, if_false]
      exact failsClean_const _ v h (fun _ _ he => by cases he)
  · intro _ v1 h1 v' h'
    split
    · split
      · intro he
        cases he
      · split
        · intro he
          cases he
        · split
          · intro he
            cases he
          · intro he
            cases he
    · intro he
      cases he

theorem data_none_ret (v v1 : vector) (h h1 : Heap) (p : Ptr)
    (hr : data none v h = .ret p v1 h1) : v1 = v ∧ h1 = h := by
  unfold data at hr
  cases ho : realloc_if_share_ none v h with
  | ret u v2 h2 =>
    rw [ho] at hr
    simp only [andThen_ret] at hr
    cases hr
    exact realloc_if_share_none_ret v _ h _ ho
  | threw v2 h2 =>
    rw [ho] at hr
    cases hr
  | fault e =>
    rw [ho] at hr
    cases hr

theorem failsClean_erase_range (first last : Nat) (v : vector) (h : Heap) :
    FailsClean (fun al => erase_range al first last v h) v h := by
  rcases failsClean_data v h with hd | ⟨hd1, hd2⟩
  · left
    simp only [erase_range, begin_, hd, Outcome.andThen]
  · simp only at hd1 hd2
    cases ho : data none v h with
    | ret p v1 h1 =>
      obtain ⟨hv, hh⟩ := data_none_ret v v1 h h1 p ho
      subst hv
      subst hh
      have hall : ∀ al, erase_range al first last v1 h1 =
          erase al ⟨p.base, p.off + first⟩ ⟨p.base, p.off + last⟩ v1 h1 := by
        intro al
        simp only [erase_range, begin_, hd2 al, ho, andThen_ret]
      rcases failsClean_erase ⟨p.base, p.off + first⟩ ⟨p.base, p.off + last⟩ v1 h1 with
        he | ⟨he1, he2⟩
      · left
        simp only at he
        simp only [hall, he]
      · right
        simp only at he1 he2
        refine ⟨fun v' h' => ?_, fun al => ?_⟩
        · simp only [hall]
          exact he1 v' h'
        · simp only [hall]
          exact he2 al
    | threw v1 h1 => exact absurd ho (hd1 v1 h1)
    | fault e =>
      right
      have hall : ∀ al, erase_range al first last v h = .fault e := by
        intro al
        simp only [erase_range, begin_, hd2 al, ho, Outcome.andThen]
      refine ⟨fun v' h' => ?_, fun al => ?_⟩
      · simp only [hall]
        intro he
        cases he
      · simp only [hall]

theorem clear_ne_threw (v : vector) (h : Heap) (v' : vector) (h' : Heap) :
    clear v h ≠ .threw v' h' := by
  unfold clear
  by_cases h1 : SMALL_SIZE < v.size_
  · simp only [if_pos h1]
    cases hu : unshare v.buffers_.as_dynamic.arr h with
    | none => intro he; cases he
    | some h2 => intro he; cases he
  · simp only [if_neg h1]
    intro he
    cases he

theorem failsClean_mutation (m : Mutation) (v : vector) (h : Heap) :
    FailsClean (fun al => m.run al v h) v h := by
  cases m with
  | assign_index i x => exact failsClean_assign_index i x v h
  | assign_back x => exact failsClean_assign_back x v h
  | push_back x => exact failsClean_push_back x v h
  | pop_back => exact failsClean_pop_back v h
  | resize n x => exact failsClean_resize n x v h
  | erase first last =>
    exact failsClean_andThen _ _ v h (failsClean_erase_range first last v h)
      (fun _ _ _ _ _ he => by cases he)
  | clear => exact failsClean_const _ v h (clear_ne_threw v h)

/-- C11: every operation that can allocate gives the strong guarantee. Run with an allocator
that fails, `push_back`, `resize`, `pop_back`, `erase`, the writes through `operator[]` and
`back()` (and `clear`), and the mutable `operator[]`, `back()`, `data()`, either end in
`std::bad_alloc` with the container (count, `buffers_`, capacity) and the whole free store
(every block's words and `ref_counter`) exactly as before the call, or end without
`std::bad_alloc` in the outcome they have with any other answer of the allocator. The failure
does occur: `push_back` on a full inline array and `data()` on an aliased block throw. -/
theorem C11_strong_guarantee (m : Mutation) (i : Nat) (first last : Ptr) (v : vector)
    (h : Heap) :
    FailsClean (fun al => m.run al v h) v h ∧
    FailsClean (fun al => operator_index al i v h) v h ∧
    FailsClean (fun al => back al v h) v h ∧
    FailsClean (fun al => data al v h) v h ∧
    FailsClean (fun al => erase al first last v h) v h ∧
    push_back none 5 ⟨4, .static_ [1, 2, 3, 4]⟩ empty_heap =
      .threw ⟨4, .static_ [1, 2, 3, 4]⟩ empty_heap ∧
    data none (vector_at 100 5 5) (heap_set empty_heap 100 (some ⟨2, [1, 2, 3, 4, 5]⟩)) =
      .threw (vector_at 100 5 5) (heap_set empty_heap 100 (some ⟨2, [1, 2, 3, 4, 5]⟩)) :=
  ⟨failsClean_mutation m v h, failsClean_operator_index i v h, failsClean_back v h,
    failsClean_data v h, failsClean_erase first last v h, rfl, rfl⟩


/-! ## C17: uniquify on mutable access -/

theorem data_of_uniquify (al : Option Alloc) (v v1 : vector) (h h1 : Heap) (i : Nat)
    (hi : i < v.size_) (hr : realloc_if_share_ al v h = .ret () v1 h1)
    (hsz : v1.size_ = v.size_) :
    data al v h = .ret (data_const v1) v1 h1 ∧
    begin_ al v h = .ret (data_const v1) v1 h1 ∧
    end_ al v h = .ret ⟨(data_const v1).base, v.size_⟩ v1 h1 ∧
    operator_index al i v h = .ret ⟨(data_const v1).base, i⟩ v1 h1 ∧
    back al v h = .ret ⟨(data_const v1).base, v.size_ - 1⟩ v1 h1 := by
  have hd : data al v h = .ret (data_const v1) v1 h1 := by
    simp only [data, hr, andThen_ret]
  have hne : v.size_ ≠ 0 := by omega
  refine ⟨hd, hd, ?_, ?_, ?_⟩
  · simp only [end_, hd, andThen_ret, data_const_off, Nat.zero_add, hsz]
  · simp only [operator_index, hi, if_true, hd, andThen_ret, data_const_off, Nat.zero_add]
  · simp only [back, hne, ne_eq, not_false_eq_true, if_true, hd, andThen_ret, data_const_off,
      Nat.zero_add, hsz]

/-- C17: on a well-formed container whose block is counted `r > 1` times, each of the
mutable `data()`, `begin()`, `end()`, `operator[]` and `back()` returns a pointer into the
block the allocator just handed out; that block is counted once, has the same capacity and
starts with the same `size()` limbs; the old block keeps its words and is counted `r - 1`
times, and no other block changes. When the container is inline or its block is counted
once, the same accessors return pointers into the storage it already has and leave the
container and the free store as they are, whatever the allocator would answer. The const
accessors are functions of the state: `data() const` points into the block the container
has, aliased or not. -/
theorem C17_uniquify_on_mutable_access (a : Alloc) (al : Option Alloc) (i : Nat) (v : vector)
    (h : Heap) (hw : WF v h) (hi : i < v.size_) (hf : Fresh a h) :
    (∀ sa, SMALL_SIZE < v.size_ → h v.buffers_.as_dynamic.arr = some sa →
      1 < sa.ref_counter →
      ∃ ws h',
        data (some a) v h = .ret ⟨.block a.addr, 0⟩
          ⟨v.size_, .dynamic_ ⟨v.buffers_.as_dynamic.capacity, a.addr⟩⟩ h' ∧
        begin_ (some a) v h = .ret ⟨.block a.addr, 0⟩
          ⟨v.size_, .dynamic_ ⟨v.buffers_.as_dynamic.capacity, a.addr⟩⟩ h' ∧
        end_ (some a) v h = .ret ⟨.block a.addr, v.size_⟩
          ⟨v.size_, .dynamic_ ⟨v.buffers_.as_dynamic.capacity, a.addr⟩⟩ h' ∧
        operator_index (some a) i v h = .ret ⟨.block a.addr, i⟩
          ⟨v.size_, .dynamic_ ⟨v.buffers_.as_dynamic.capacity, a.addr⟩⟩ h' ∧
        back (some a) v h = .ret ⟨.block a.addr, v.size_ - 1⟩
          ⟨v.size_, .dynamic_ ⟨v.buffers_.as_dynamic.capacity, a.addr⟩⟩ h' ∧
        h' a.addr = some ⟨1, ws⟩ ∧ ws.length = v.buffers_.as_dynamic.capacity ∧
        ws.take v.size_ = sa.words.take v.size_ ∧
        h' v.buffers_.as_dynamic.arr = some ⟨sa.ref_counter - 1, sa.words⟩ ∧
        ∀ p, p ≠ a.addr → p ≠ v.buffers_.as_dynamic.arr → h' p = h p) ∧
    ((v.size_ ≤ SMALL_SIZE ∨
        ∃ sa, h v.buffers_.as_dynamic.arr = some sa ∧ sa.ref_counter = 1) →
      data al v h = .ret (data_const v) v h ∧ begin_ al v h = .ret (data_const v) v h ∧
      end_ al v h = .ret ⟨(data_const v).base, v.size_⟩ v h ∧
      operator_index al i v h = .ret ⟨(data_const v).base, i⟩ v h ∧
      back al v h = .ret ⟨(data_const v).base, v.size_ - 1⟩ v h) ∧
    (SMALL_SIZE < v.size_ → data_const v = ⟨.block v.buffers_.as_dynamic.arr, 0⟩ ∧
      begin_const v = ⟨.block v.buffers_.as_dynamic.arr, 0⟩ ∧
      end_const v = ⟨.block v.buffers_.as_dynamic.arr, v.size_⟩ ∧
      operator_index_const i v = .ok ⟨.block v.buffers_.as_dynamic.arr, i⟩) := by
  refine ⟨?_, ?_, ?_⟩
  · intro sa hs hp hrc
    obtain ⟨_, sa', hp', _, hlen, hcap, hmax⟩ := (WF_shared v h hs).1 hw
    rw [hp] at hp'
    cases hp'
    have hne : v.buffers_.as_dynamic.arr ≠ a.addr := by
      intro he
      rw [he, hf] at hp
      cases hp
    have hr := realloc_if_share_shared a v h sa hs hp hrc hcap hmax (by omega) hf
    have hns : ¬ v.size_ ≤ SMALL_SIZE := by omega
    have hdc : data_const ⟨v.size_, .dynamic_ ⟨v.buffers_.as_dynamic.capacity, a.addr⟩⟩ =
        ⟨.block a.addr, 0⟩ := by
      simp [data_const, hns]
    obtain ⟨e1, e2, e3, e4, e5⟩ := data_of_uniquify (some a) v _ h _ i hi hr rfl
    rw [hdc] at e1 e2 e3 e4 e5
    refine ⟨sa.words.take v.size_ ++
      ((List.range v.buffers_.as_dynamic.capacity).map a.junk).drop v.size_, _,
      e1, e2, e3, e4, e5, ?_, ?_, ?_, heap_set_same _ _ _, ?_⟩
    · rw [heap_set_other _ _ _ _ (Ne.symm hne), heap_set_same]
    · simp only [List.length_append, List.length_take, List.length_drop, List.length_map,
        List.length_range]
      omega
    · rw [List.take_append_of_le_length (by simp; omega), List.take_take]
      simp
    · intro p h1 h2
      rw [heap_set_other _ _ _ _ h2, heap_set_other _ _ _ _ h1]
  · intro hcase
    have hr : realloc_if_share_ al v h = .ret () v h := by
      rcases hcase with hs | ⟨sa, hp, hrc⟩
      · exact realloc_if_share_inline al v h hs
      · exact realloc_if_share_exclusive al v h sa hp (by omega)
    exact data_of_uniquify al v v h h i hi hr rfl
  · intro hs
    have hns : ¬ v.size_ ≤ SMALL_SIZE := by omega
    have hdc : data_const v = ⟨.block v.buffers_.as_dynamic.arr, 0⟩ := by
      simp [data_const, hns]
    refine ⟨hdc, hdc, ?_, ?_⟩
    · simp only [end_const, hdc, Nat.zero_add]
    · simp only [operator_index_const, hi, if_true, hdc, Nat.zero_add]

/-- C17 on `[1,2,3,4,5]` in block 100, counted twice: `data()` moves the container to block
200 and leaves block 100 counted once; counted once, `data()` changes nothing. -/
theorem C17_uniquify_on_mutable_access_witness :
    (WF (vector_at 100 5 5) (heap_set empty_heap 100 (some ⟨2, [1, 2, 3, 4, 5]⟩)) ∧
      2 < (vector_at 100 5 5).size_ ∧
      Fresh (block_of 200 7) (heap_set empty_heap 100 (some ⟨2, [1, 2, 3, 4, 5]⟩))) ∧
    (SMALL_SIZE < (vector_at 100 5 5).size_ →
      data_const (vector_at 100 5 5) =
        ⟨.block (vector_at 100 5 5).buffers_.as_dynamic.arr, 0⟩ ∧
      begin_const (vector_at 100 5 5) =
        ⟨.block (vector_at 100 5 5).buffers_.as_dynamic.arr, 0⟩ ∧
      end_const (vector_at 100 5 5) =
        ⟨.block (vector_at 100 5 5).buffers_.as_dynamic.arr, (vector_at 100 5 5).size_⟩ ∧
      operator_index_const 2 (vector_at 100 5 5) =
        .ok ⟨.block (vector_at 100 5 5).buffers_.as_dynamic.arr, 2⟩) ∧
    (data (some (block_of 200 7)) (vector_at 100 5 5)
        (heap_set empty_heap 100 (some ⟨2, [1, 2, 3, 4, 5]⟩))).observe
      (fun v h => (v, h 100, h 200)) =
      some (vector_at 200 5 5, some ⟨1, [1, 2, 3, 4, 5]⟩, some ⟨1, [1, 2, 3, 4, 5]⟩) ∧
    (data none (vector_at 100 5 5) (heap_one 100 [1, 2, 3, 4, 5])).observe
      (fun v h => (v, h 100)) = some (vector_at 100 5 5, some ⟨1, [1, 2, 3, 4, 5]⟩) :=
  have hw : WF (vector_at 100 5 5) (heap_set empty_heap 100 (some ⟨2, [1, 2, 3, 4, 5]⟩)) :=
    (WF_shared _ _ (by decide)).2
      ⟨rfl, ⟨2, [1, 2, 3, 4, 5]⟩, rfl, by decide, rfl, by decide, by decide⟩
  ⟨⟨hw, by decide, rfl⟩,
    (C17_uniquify_on_mutable_access (block_of 200 7) none 2 (vector_at 100 5 5)
      (heap_set empty_heap 100 (some ⟨2, [1, 2, 3, 4, 5]⟩)) hw (by decide) rfl).2.2, rfl, rfl⟩


/-! ## The exact effect of an operation on the free store -/

theorem heap_set_comm (h : Heap) (p q : Nat) (x y : Option shared_array) (hne : p ≠ q) :
    heap_set (heap_set h p x) q y = heap_set (heap_set h q y) p x := by
  funext r
  by_cases h1 : r = p
  · have h2 : r ≠ q := fun e => hne (h1.symm.trans e)
    simp [heap_set, h1, hne]
  · by_cases h2 : r = q
    · simp [heap_set, h2, Ne.symm hne]
    · simp [heap_set, h1, h2]

theorem with_words_eq (h : Heap) (p : Nat) (f : List Nat → Option (List Nat))
    (sa : shared_array) (ws' : List Nat) (hp : h p = some sa) (hf : f sa.words = some ws') :
    with_words h p f = some (heap_set h p (some ⟨sa.ref_counter, ws'⟩)) := by
  simp [with_words, hp, hf]

theorem released_eq (sa : shared_array) :
    (if sa.ref_counter = 1 then none else some ⟨sa.ref_counter - 1, sa.words⟩) =
      released sa := rfl

theorem not_holds_of_inline (v : vector) (p : Nat) (hs : v.size_ ≤ SMALL_SIZE) :
    ¬ Holds v p := by
  intro hh
  have := hh.1
  omega

theorem effect_inline (leak : Bool) (v v' : vector) (h : Heap) (hs : v.size_ ≤ SMALL_SIZE)
    (hs' : v'.size_ ≤ SMALL_SIZE) : Effect leak v h v' h := by
  intro p
  refine ⟨fun hv _ => absurd hv (not_holds_of_inline v p hs),
    fun hv _ => absurd hv (not_holds_of_inline v p hs),
    fun _ hv' => absurd hv' (not_holds_of_inline v' p hs'), fun _ _ => Or.inl rfl⟩

theorem effect_self (leak : Bool) (v : vector) (h : Heap) (hw : WF v h) :
    Effect leak v h v h := by
  intro p
  refine ⟨?_, fun hv hn => absurd hv hn, fun hn hv => absurd hv hn, fun _ _ => Or.inl rfl⟩
  intro hv _
  obtain ⟨_, sa, hp, _⟩ := (WF_shared v h hv.1).1 hw
  rw [hv.2] at hp
  exact ⟨sa, sa.words, hp, hp, rfl, Or.inl ⟨rfl, rfl, rfl⟩⟩

theorem effect_inplace (leak : Bool) (v v' : vector) (h : Heap) (sa : shared_array)
    (ws : List Nat) (hs : SMALL_SIZE < v.size_) (hs' : SMALL_SIZE < v'.size_)
    (harr : v'.buffers_.as_dynamic.arr = v.buffers_.as_dynamic.arr)
    (hp : h v.buffers_.as_dynamic.arr = some sa) (hrc : sa.ref_counter = 1)
    (hlen : ws.length = sa.words.length) :
    Effect leak v h v' (heap_set h v.buffers_.as_dynamic.arr (some ⟨1, ws⟩)) := by
  intro p
  by_cases hpe : p = v.buffers_.as_dynamic.arr
  · have hv : Holds v p := ⟨hs, hpe.symm⟩
    have hv' : Holds v' p := ⟨hs', harr.trans hpe.symm⟩
    refine ⟨fun _ _ => ?_, fun _ hn => absurd hv' hn, fun hn _ => absurd hv hn,
      fun hn _ => absurd hv hn⟩
    subst hpe
    exact ⟨sa, ws, hp, by rw [heap_set_same, hrc], hlen, Or.inr hrc⟩
  · have hv : ¬ Holds v p := fun hh => hpe hh.2.symm
    have hv' : ¬ Holds v' p := fun hh => hpe (hh.2.symm.trans harr)
    exact ⟨fun hh _ => absurd hh hv, fun hh _ => absurd hh hv, fun _ hh => absurd hh hv',
      fun _ _ => Or.inl (heap_set_other _ _ _ _ hpe)⟩

theorem effect_down (leak : Bool) (v v' : vector) (h : Heap) (sa : shared_array)
    (hs : SMALL_SIZE < v.size_) (hs' : v'.size_ ≤ SMALL_SIZE)
    (hp : h v.buffers_.as_dynamic.arr = some sa) :
    Effect leak v h v' (heap_set h v.buffers_.as_dynamic.arr (released sa)) := by
  intro p
  have hv' : ¬ Holds v' p := not_holds_of_inline v' p hs'
  by_cases hpe : p = v.buffers_.as_dynamic.arr
  · have hv : Holds v p := ⟨hs, hpe.symm⟩
    refine ⟨fun _ hh => absurd hh hv', fun _ _ => ?_, fun hn _ => absurd hv hn,
      fun hn _ => absurd hv hn⟩
    subst hpe
    exact ⟨sa, hp, Or.inl (heap_set_same _ _ _)⟩
  · have hv : ¬ Holds v p := fun hh => hpe hh.2.symm
    exact ⟨fun hh _ => absurd hh hv, fun hh _ => absurd hh hv, fun _ hh => absurd hh hv',
      fun _ _ => Or.inl (heap_set_other _ _ _ _ hpe)⟩

theorem effect_up (leak : Bool) (v v' : vector) (h : Heap) (a : Alloc) (ws : List Nat)
    (hs : v.size_ ≤ SMALL_SIZE) (hs' : SMALL_SIZE < v'.size_)
    (harr : v'.buffers_.as_dynamic.arr = a.addr) (hf : Fresh a h) :
    Effect leak v h v' (heap_set h a.addr (some ⟨1, ws⟩)) := by
  intro p
  have hv : ¬ Holds v p := not_holds_of_inline v p hs
  by_cases hpe : p = a.addr
  · have hv' : Holds v' p := ⟨hs', harr.trans hpe.symm⟩
    refine ⟨fun hh _ => absurd hh hv, fun hh _ => absurd hh hv, fun _ _ => ?_,
      fun _ hn => absurd hv' hn⟩
    subst hpe
    exact ⟨hf, ws, heap_set_same _ _ _⟩
  · have hv' : ¬ Holds v' p := fun hh => hpe (hh.2.symm.trans harr)
    exact ⟨fun hh _ => absurd hh hv, fun hh _ => absurd hh hv, fun _ hh => absurd hh hv',
      fun _ _ => Or.inl (heap_set_other _ _ _ _ hpe)⟩

theorem effect_move (leak : Bool) (v v' : vector) (h : Heap) (a : Alloc) (sa : shared_array)
    (ws : List Nat) (hs : SMALL_SIZE < v.size_) (hs' : SMALL_SIZE < v'.size_)
    (harr : v'.buffers_.as_dynamic.arr = a.addr) (hf : Fresh a h)
    (hp : h v.buffers_.as_dynamic.arr = some sa) :
    Effect leak v h v' (heap_set (heap_set h a.addr (some ⟨1, ws⟩))
      v.buffers_.as_dynamic.arr (released sa)) := by
  have hne : v.buffers_.as_dynamic.arr ≠ a.addr := by
    intro he
    rw [he, hf] at hp
    cases hp
  intro p
  by_cases hpa : p = a.addr
  · have hv : ¬ Holds v p := fun hh => hne (hh.2.trans hpa)
    have hv' : Holds v' p := ⟨hs', harr.trans hpa.symm⟩
    refine ⟨fun hh _ => absurd hh hv, fun hh _ => absurd hh hv, fun _ _ => ?_,
      fun _ hn => absurd hv' hn⟩
    subst hpa
    exact ⟨hf, ws, by rw [heap_set_other _ _ _ _ (Ne.symm hne), heap_set_same]⟩
  · have hv' : ¬ Holds v' p := fun hh => hpa (hh.2.symm.trans harr)
    by_cases hpe : p = v.buffers_.as_dynamic.arr
    · have hv : Holds v p := ⟨hs, hpe.symm⟩
      refine ⟨fun _ hh => absurd hh hv', fun _ _ => ?_, fun hn _ => absurd hv hn,
        fun hn _ => absurd hv hn⟩
      subst hpe
      exact ⟨sa, hp, Or.inl (heap_set_same _ _ _)⟩
    · have hv : ¬ Holds v p := fun hh => hpe hh.2.symm
      refine ⟨fun hh _ => absurd hh hv, fun hh _ => absurd hh hv, fun _ hh => absurd hh hv',
        fun _ _ => Or.inl ?_⟩
      rw [heap_set_other _ _ _ _ hpe, heap_set_other _ _ _ _ hpa]

theorem effect_leak_inplace (v v' : vector) (h : Heap) (sa : shared_array) (ws : List Nat)
    (hs : SMALL_SIZE < v.size_) (hs' : v'.size_ ≤ SMALL_SIZE)
    (hp : h v.buffers_.as_dynamic.arr = some sa) (hrc : sa.ref_counter = 1) :
    Effect true v h v' (heap_set h v.buffers_.as_dynamic.arr (some ⟨1, ws⟩)) := by
  intro p
  have hv' : ¬ Holds v' p := not_holds_of_inline v' p hs'
  by_cases hpe : p = v.buffers_.as_dynamic.arr
  · have hv : Holds v p := ⟨hs, hpe.symm⟩
    refine ⟨fun _ hh => absurd hh hv', fun _ _ => ?_, fun hn _ => absurd hv hn,
      fun hn _ => absurd hv hn⟩
    subst hpe
    exact ⟨sa, hp, Or.inr ⟨rfl, hrc, ws, heap_set_same _ _ _⟩⟩
  · have hv : ¬ Holds v p := fun hh => hpe hh.2.symm
    exact ⟨fun hh _ => absurd hh hv, fun hh _ => absurd hh hv, fun _ hh => absurd hh hv',
      fun _ _ => Or.inl (heap_set_other _ _ _ _ hpe)⟩

theorem effect_leak_move (v v' : vector) (h : Heap) (a : Alloc) (sa : shared_array)
    (ws : List Nat) (hs : SMALL_SIZE < v.size_) (hs' : v'.size_ ≤ SMALL_SIZE)
    (hf : Fresh a h) (hp : h v.buffers_.as_dynamic.arr = some sa) :
    Effect true v h v' (heap_set (heap_set h a.addr (some ⟨1, ws⟩))
      v.buffers_.as_dynamic.arr (released sa)) := by
  have hne : v.buffers_.as_dynamic.arr ≠ a.addr := by
    intro he
    rw [he, hf] at hp
    cases hp
  intro p
  have hv' : ¬ Holds v' p := not_holds_of_inline v' p hs'
  by_cases hpa : p = a.addr
  · have hv : ¬ Holds v p := fun hh => hne (hh.2.trans hpa)
    refine ⟨fun hh _ => absurd hh hv, fun hh _ => absurd hh hv, fun _ hh => absurd hh hv',
      fun _ _ => Or.inr ?_⟩
    subst hpa
    exact ⟨rfl, hf, ws, by rw [heap_set_other _ _ _ _ (Ne.symm hne), heap_set_same]⟩
  · by_cases hpe : p = v.buffers_.as_dynamic.arr
    · have hv : Holds v p := ⟨hs, hpe.symm⟩
      refine ⟨fun _ hh => absurd hh hv', fun _ _ => ?_, fun hn _ => absurd hv hn,
        fun hn _ => absurd hv hn⟩
      subst hpe
      exact ⟨sa, hp, Or.inl (heap_set_same _ _ _)⟩
    · have hv : ¬ Holds v p := fun hh => hpe hh.2.symm
      refine ⟨fun hh _ => absurd hh hv, fun hh _ => absurd hh hv, fun _ hh => absurd hh hv',
        fun _ _ => Or.inl ?_⟩
      rw [heap_set_other _ _ _ _ hpe, heap_set_other _ _ _ _ hpa]


theorem with_words_stay (h : Heap) (p : Nat) (f : List Nat → Option (List Nat))
    (sa : shared_array) (ws' : List Nat) (hp : h p = some sa) (hrc : sa.ref_counter = 1)
    (hf : f sa.words = some ws') :
    with_words h p f = some (heap_set h p (some ⟨1, ws'⟩)) := by
  rw [with_words_eq h p f sa ws' hp hf, hrc]

theorem with_words_move (h : Heap) (a p : Nat) (W W' : List Nat) (R : Option shared_array)
    (f : List Nat → Option (List Nat)) (hne : p ≠ a) (hf : f W = some W') :
    with_words (heap_set (heap_set h a (some ⟨1, W⟩)) p R) a f =
      some (heap_set (heap_set h a (some ⟨1, W'⟩)) p R) := by
  have hp : (heap_set (heap_set h a (some ⟨1, W⟩)) p R) a = some ⟨1, W⟩ := by
    rw [heap_set_other _ _ _ _ (Ne.symm hne), heap_set_same]
  rw [with_words_eq _ a f ⟨1, W⟩ W' hp hf]
  congr 1
  rw [heap_set_comm _ _ _ _ _ (Ne.symm hne), heap_set_set, heap_set_comm _ _ _ _ _ hne]

/-- The four ways `push_back` runs on a well-formed container, with the state it returns. -/
theorem push_back_cases (a : Alloc) (x : Nat) (v : vector) (h : Heap) (hw : WF v h)
    (hfresh : Fresh a h) (hmax : 2 * v.size_ ≤ MAX_WORDS) :
    (v.size_ < SMALL_SIZE ∧ ∃ w,
      push_back (some a) x v h = .ret () ⟨v.size_ + 1, .static_ w⟩ h) ∨
    (v.size_ = SMALL_SIZE ∧ ∃ W, W.length = SMALL_SIZE + 1 ∧
      push_back (some a) x v h = .ret () ⟨v.size_ + 1, .dynamic_ ⟨SMALL_SIZE + 1, a.addr⟩⟩
        (heap_set h a.addr (some ⟨1, W⟩))) ∨
    (∃ sa, SMALL_SIZE < v.size_ ∧ h v.buffers_.as_dynamic.arr = some sa ∧
      sa.ref_counter = 1 ∧ v.size_ < v.buffers_.as_dynamic.capacity ∧
      ∃ W, W.length = sa.words.length ∧
        push_back (some a) x v h = .ret () ⟨v.size_ + 1, v.buffers_⟩
          (heap_set h v.buffers_.as_dynamic.arr (some ⟨1, W⟩))) ∨
    (∃ sa c, SMALL_SIZE < v.size_ ∧ h v.buffers_.as_dynamic.arr = some sa ∧
      (1 < sa.ref_counter ∨ v.size_ = v.buffers_.as_dynamic.capacity) ∧
      c = (if v.size_ = v.buffers_.as_dynamic.capacity
        then 2 * v.buffers_.as_dynamic.capacity else v.buffers_.as_dynamic.capacity) ∧
      ∃ W, W.length = c ∧
        push_back (some a) x v h = .ret () ⟨v.size_ + 1, .dynamic_ ⟨c, a.addr⟩⟩
          (heap_set (heap_set h a.addr (some ⟨1, W⟩)) v.buffers_.as_dynamic.arr
            (released sa))) := by
  have hwide := WF_wide hw
  by_cases hs : v.size_ < SMALL_SIZE
  · refine Or.inl ⟨hs, v.buffers_.as_static.set v.size_ x, ?_⟩
    unfold push_back
    simp only [hs, if_true]
    rw [store_at_eq _ _ _ (by omega)]
    rfl
  · by_cases h4 : v.size_ = SMALL_SIZE
    · have h5 : SMALL_SIZE + 1 ≤ MAX_WORDS := by decide
      refine Or.inr (Or.inl ⟨h4, (v.buffers_.as_static.take SMALL_SIZE ++
        ((List.range (SMALL_SIZE + 1)).map a.junk).drop SMALL_SIZE).set SMALL_SIZE x, ?_, ?_⟩)
      · simp [hwide]
      · have hst := store_at_eq (v.buffers_.as_static.take SMALL_SIZE ++
          ((List.range (SMALL_SIZE + 1)).map a.junk).drop SMALL_SIZE) SMALL_SIZE x (by
            simp only [List.length_append, List.length_take, List.length_drop,
              List.length_map, List.length_range, hwide]
            omega)
        unfold push_back
        simp only [hs, h4, if_false, if_true, alloc_data, alloc_slots_eq _ h5, with_words,
          heap_set_same, lt_irrefl]
        rw [copy_words_eq _ _ _ (by omega) (by simp)]
        simp only [Option.bind, hst, Option.map, of_ub_some, heap_set_set]
    · have hs1 : SMALL_SIZE < v.size_ := by omega
      obtain ⟨_, sa, hp, hrc, hlen, hcap, hcmax⟩ := (WF_shared v h hs1).1 hw
      have hne : v.buffers_.as_dynamic.arr ≠ a.addr := by
        intro he
        rw [he, hfresh] at hp
        cases hp
      by_cases hre : 1 < sa.ref_counter ∨ v.size_ = v.buffers_.as_dynamic.capacity
      · -- one new block serves both needs
        have hc : ∃ c, c = (if v.size_ = v.buffers_.as_dynamic.capacity
            then 2 * v.buffers_.as_dynamic.capacity else v.buffers_.as_dynamic.capacity) ∧
            v.size_ + 1 ≤ c ∧ c ≤ MAX_WORDS ∧
            (if v.size_ = v.buffers_.as_dynamic.capacity then
              match increased_capacity_ v with
              | .ok c => realloc_data_ (some a) c v h
              | .error e => .fault e
             else realloc_data_ (some a) v.buffers_.as_dynamic.capacity v h) =
              realloc_data_ (some a) c v h := by
          by_cases hfull : v.size_ = v.buffers_.as_dynamic.capacity
          · have hinc : increased_capacity_ v = .ok (2 * v.size_) := by
              unfold increased_capacity_
              have h0 : v.buffers_.as_dynamic.capacity ≠ 0 := by omega
              have h0' : v.size_ ≠ 0 := by omega
              simp only [hs1, if_true, h0, h0', if_false, ← hfull, Nat.add_zero]
              congr 1
              unfold SIZE_RANGE
              unfold MAX_WORDS at hmax
              omega
            refine ⟨2 * v.size_, ?_, by omega, hmax, ?_⟩
            · simp only [← hfull, if_true]
            · simp only [← hfull, if_true, hinc]
          · refine ⟨v.buffers_.as_dynamic.capacity, ?_, by omega, hcmax, ?_⟩
            · simp only [hfull, if_false]
            · simp only [hfull, if_false]
        obtain ⟨c, hceq, hc1, hc2, hrun⟩ := hc
        have hWlen : (sa.words.take v.size_ ++
            ((List.range c).map a.junk).drop v.size_).length = c := by
          simp only [List.length_append, List.length_take, List.length_drop, List.length_map,
            List.length_range]
          omega
        refine Or.inr (Or.inr (Or.inr ⟨sa, c, hs1, hp, hre, hceq,
          (sa.words.take v.size_ ++ ((List.range c).map a.junk).drop v.size_).set v.size_ x,
          by simp only [List.length_set, hWlen], ?_⟩))
        unfold push_back
        simp only [hs, h4, if_false, hp, hre, if_true]
        rw [hrun, realloc_data_eq a c v h sa hs1 (by omega) hc2 hp hrc (by omega) hfresh]
        simp only [andThen_ret, as_dynamic_dynamic, released_eq]
        rw [with_words_move h a.addr _ _ _ _ _ hne
          (store_at_eq _ _ _ (by rw [hWlen]; omega))]
        rfl
      · have hrc1 : sa.ref_counter = 1 := by
          by_contra hne1
          exact hre (Or.inl (by omega))
        have hroom : v.size_ < v.buffers_.as_dynamic.capacity := by
          have : v.size_ ≠ v.buffers_.as_dynamic.capacity := fun e => hre (Or.inr e)
          omega
        refine Or.inr (Or.inr (Or.inl ⟨sa, hs1, hp, hrc1, hroom, sa.words.set v.size_ x,
          by simp, ?_⟩))
        unfold push_back
        simp only [hs, h4, if_false, hp, hre]
        simp only [andThen_ret]
        rw [with_words_stay h _ _ sa _ hp hrc1 (store_at_eq _ _ _ (by omega))]
        rfl


/-! ## C18: the growth policy of `push_back` -/

/-- C18: growth policy of `push_back` on a well-formed container with `c = size_` limbs, when
the allocator answers with a block that is not live and `2 * c` is a capacity `size_t` can
describe. The call returns, and only the allocator's block can be live afterwards without
having been live before, so at most one buffer is allocated. With `c = SMALL_SIZE` the
container moves to that block, which has exactly `SMALL_SIZE + 1` slots. On the shared branch
with capacity `k` and counter `r` the block is allocated iff `1 < r` or `c = k`; the capacity
after the call is `2 * k` when `c = k` and `k` otherwise, which is the larger of the capacity
the growth needs and `k`; a block that was allocated is the container's buffer, counted once,
with that many slots, and without an allocation the handle is unchanged. The helper
`increased_capacity_` returns `2 * k + 1` only for `k = 0` and `2 * k` otherwise. -/
theorem C18_push_back_growth_policy (a : Alloc) (x : Nat) (v : vector) (h : Heap)
    (hw : WF v h) (hf : Fresh a h) (hmax : 2 * v.size_ ≤ MAX_WORDS) :
    ∃ v' h', push_back (some a) x v h = .ret () v' h' ∧
      (∀ p, p ≠ a.addr → (h' p).isSome → (h p).isSome) ∧
      (v.size_ < SMALL_SIZE → h' = h) ∧
      (v.size_ = SMALL_SIZE →
        v'.buffers_ = .dynamic_ ⟨SMALL_SIZE + 1, a.addr⟩ ∧
        ∃ W, h' a.addr = some ⟨1, W⟩ ∧ W.length = SMALL_SIZE + 1) ∧
      (∀ sa, SMALL_SIZE < v.size_ → h v.buffers_.as_dynamic.arr = some sa →
        ((h' a.addr).isSome ↔
          (1 < sa.ref_counter ∨ v.size_ = v.buffers_.as_dynamic.capacity)) ∧
        v'.buffers_.as_dynamic.capacity =
          (if v.size_ = v.buffers_.as_dynamic.capacity
            then 2 * v.buffers_.as_dynamic.capacity else v.buffers_.as_dynamic.capacity) ∧
        v'.buffers_.as_dynamic.capacity =
          max (if v.size_ = v.buffers_.as_dynamic.capacity
            then 2 * v.buffers_.as_dynamic.capacity else v.size_ + 1)
            v.buffers_.as_dynamic.capacity ∧
        ((h' a.addr).isSome → v'.buffers_.as_dynamic.arr = a.addr ∧
          ∃ W, h' a.addr = some ⟨1, W⟩ ∧ W.length = v'.buffers_.as_dynamic.capacity) ∧
        (h' a.addr = none → v'.buffers_ = v.buffers_)) ∧
      (∀ u : vector, SMALL_SIZE < u.size_ → u.buffers_.as_dynamic.capacity ≤ MAX_WORDS →
        ∃ c, increased_capacity_ u = .ok c ∧
          (c = 2 * u.buffers_.as_dynamic.capacity + 1 ↔ u.buffers_.as_dynamic.capacity = 0) ∧
          (u.buffers_.as_dynamic.capacity ≠ 0 → c = 2 * u.buffers_.as_dynamic.capacity)) := by
  have hhelper : ∀ u : vector, SMALL_SIZE < u.size_ →
      u.buffers_.as_dynamic.capacity ≤ MAX_WORDS →
      ∃ c, increased_capacity_ u = .ok c ∧
        (c = 2 * u.buffers_.as_dynamic.capacity + 1 ↔ u.buffers_.as_dynamic.capacity = 0) ∧
        (u.buffers_.as_dynamic.capacity ≠ 0 → c = 2 * u.buffers_.as_dynamic.capacity) := by
    intro u hu hcm
    unfold MAX_WORDS at hcm
    by_cases h0 : u.buffers_.as_dynamic.capacity = 0
    · refine ⟨1, ?_, ?_, fun hne => absurd h0 hne⟩
      · simp [increased_capacity_, hu, h0, SIZE_RANGE]
      · simp [h0]
    · refine ⟨2 * u.buffers_.as_dynamic.capacity, ?_, ?_, fun _ => rfl⟩
      · unfold increased_capacity_
        simp only [hu, if_true, h0, if_false, Nat.add_zero]
        congr 1
        unfold SIZE_RANGE
        omega
      · constructor
        · intro he
          omega
        · intro he
          exact absurd he h0
  rcases push_back_cases a x v h hw hf hmax with
    ⟨hs, w, hr⟩ | ⟨hs, W, hWl, hr⟩ | ⟨sa, hs, hp, hrc, hroom, W, hWl, hr⟩ |
    ⟨sa, c, hs, hp, hre, hc, W, hWl, hr⟩
  · refine ⟨_, _, hr, fun _ _ hp => hp, fun _ => rfl, fun h4 => ?_, fun sa hs1 => ?_,
      hhelper⟩
    · omega
    · omega
  · refine ⟨_, _, hr, ?_, fun h4 => ?_, fun _ => ⟨rfl, W, heap_set_same _ _ _, hWl⟩,
      fun sa hs1 => ?_, hhelper⟩
    · intro p hpa hl
      rwa [heap_set_other _ _ _ _ hpa] at hl
    · omega
    · omega
  · have hne : a.addr ≠ v.buffers_.as_dynamic.arr := by
      intro he
      rw [← he, hf] at hp
      cases hp
    have hnew : heap_set h v.buffers_.as_dynamic.arr (some ⟨1, W⟩) a.addr = none := by
      rw [heap_set_other _ _ _ _ hne]
      exact hf
    have hnf : v.size_ ≠ v.buffers_.as_dynamic.capacity := by omega
    refine ⟨_, _, hr, ?_, fun h4 => ?_, fun h4 => ?_, ?_, hhelper⟩
    · intro p _ hl
      by_cases hpe : p = v.buffers_.as_dynamic.arr
      · rw [hpe, hp]
        rfl
      · rwa [heap_set_other _ _ _ _ hpe] at hl
    · omega
    · omega
    · intro sa' _ hp'
      rw [hp] at hp'
      cases hp'
      refine ⟨?_, ?_, ?_, ?_, fun _ => rfl⟩
      · rw [hnew]
        constructor
        · intro hcon
          cases hcon
        · rintro (h1 | h1)
          · omega
          · omega
      · simp only [hnf, if_false]
      · simp only [hnf, if_false]
        omega
      · rw [hnew]
        intro hcon
        cases hcon
  · have hne : a.addr ≠ v.buffers_.as_dynamic.arr := by
      intro he
      rw [← he, hf] at hp
      cases hp
    have hnew : heap_set (heap_set h a.addr (some ⟨1, W⟩)) v.buffers_.as_dynamic.arr
        (released sa) a.addr = some ⟨1, W⟩ := by
      rw [heap_set_other _ _ _ _ hne, heap_set_same]
    obtain ⟨_, sa0, hp0, _, hlen, hcap, _⟩ := (WF_shared v h hs).1 hw
    refine ⟨_, _, hr, ?_, fun h4 => ?_, fun h4 => ?_, ?_, hhelper⟩
    · intro p hpa hl
      by_cases hpe : p = v.buffers_.as_dynamic.arr
      · rw [hpe, hp]
        rfl
      · rwa [heap_set_other _ _ _ _ hpe, heap_set_other _ _ _ _ hpa] at hl
    · omega
    · omega
    · intro sa' _ hp'
      rw [hp] at hp'
      cases hp'
      refine ⟨?_, ?_, ?_, ?_, ?_⟩
      · rw [hnew]
        exact ⟨fun _ => hre, fun _ => rfl⟩
      · simp only [as_dynamic_dynamic]
        exact hc
      · simp only [as_dynamic_dynamic]
        rw [hc]
        by_cases hfull : v.size_ = v.buffers_.as_dynamic.capacity
        · simp only [hfull, if_true]
          omega
        · simp only [hfull, if_false]
          omega
      · intro _
        exact ⟨rfl, W, hnew, hWl⟩
      · rw [hnew]
        intro hcon
        cases hcon

theorem C18_push_back_growth_policy_witness :
    (WF (vector_at 100 5 5) (heap_one 100 [1, 2, 3, 4, 5]) ∧
      Fresh (block_of 200 7) (heap_one 100 [1, 2, 3, 4, 5]) ∧
      2 * (vector_at 100 5 5).size_ ≤ MAX_WORDS) ∧
    (∃ v' h', push_back (some (block_of 200 7)) 6 (vector_at 100 5 5)
        (heap_one 100 [1, 2, 3, 4, 5]) = .ret () v' h' ∧
      v'.buffers_.as_dynamic.capacity = 10 ∧ (h' 200).isSome = true ∧ h' 100 = none) ∧
    (push_back (some (block_of 200 7)) 5 ⟨4, .static_ [1, 2, 3, 4]⟩ empty_heap).observe
      (fun v h => (v, h 200)) = some (vector_at 200 5 5, some ⟨1, [1, 2, 3, 4, 5]⟩) :=
  have hw : WF (vector_at 100 5 5) (heap_one 100 [1, 2, 3, 4, 5]) :=
    (WF_shared _ _ (by decide)).2
      ⟨rfl, ⟨1, [1, 2, 3, 4, 5]⟩, rfl, by decide, rfl, by decide, by decide⟩
  ⟨⟨hw, rfl, by decide⟩,
    (C18_push_back_growth_policy (block_of 200 7) 6 (vector_at 100 5 5)
      (heap_one 100 [1, 2, 3, 4, 5]) hw rfl (by decide)).elim
      fun v' hv => hv.elim fun h' hh =>
        ⟨v', h', hh.1,
          ((hh.2.2.2.2.1 ⟨1, [1, 2, 3, 4, 5]⟩ (by decide) rfl).2.1).trans rfl,
          (hh.2.2.2.2.1 ⟨1, [1, 2, 3, 4, 5]⟩ (by decide) rfl).1.2 (Or.inr rfl),
          by
            have e := hh.1
            cases e
            rfl⟩,
    rfl⟩


/-! ## `erase`: the state it returns -/

theorem heap_set_move (h : Heap) (a p : Nat) (X Y R : Option shared_array) (hne : p ≠ a) :
    heap_set (heap_set (heap_set h a X) p R) a Y = heap_set (heap_set h a Y) p R := by
  rw [heap_set_comm _ _ _ _ _ (Ne.symm hne), heap_set_set, heap_set_comm _ _ _ _ _ hne]

theorem erase_loop_short (e : Nat) : ∀ (fuel : Nat) (ws : List Nat) (p1 p2 : Nat),
    fuel < e - p2 → erase_loop e fuel ws p1 p2 = none := by
  intro fuel
  induction fuel with
  | zero =>
    intro ws p1 p2 hlt
    have hne : p2 ≠ e := by omega
    simp [erase_loop, hne]
  | succ n ih =>
    intro ws p1 p2 hlt
    have hne : p2 ≠ e := by omega
    unfold erase_loop
    simp only [hne, if_false]
    cases hsw : swap_at ws p1 p2 with
    | none => rfl
    | some w => exact ih w (p1 + 1) (p2 + 1) (by omega)

/-- The three ways `erase(begin() + first, begin() + last)` runs on a well-formed container:
on the inline array, on its own block, or on a private copy of an aliased block. `ws` is the
array the loop runs on, `w2` what it leaves there. -/
theorem erase_range_cases (a : Alloc) (first last : Nat) (v : vector) (h : Heap)
    (hw : WF v h) (h1 : first ≤ last) (h2 : last ≤ v.size_) (hfresh : Fresh a h) :
    ∃ ws w1 w2, v.size_ ≤ ws.length ∧
      erase_loop v.size_ ws.length ws first last =
        some (w1, first + (v.size_ - last), v.size_) ∧
      w2.length = ws.length ∧
      w2.take (v.size_ - (last - first)) =
        (ws.take v.size_).take first ++ (ws.take v.size_).drop last ∧
      (∀ i, v.size_ - (last - first) ≤ i → i < v.size_ → w2[i]? = some 0) ∧
      ((v.size_ ≤ SMALL_SIZE ∧ ws = v.buffers_.as_static ∧
          erase_range (some a) first last v h =
            .ret ⟨.inline, first⟩ ⟨v.size_ - (last - first), .static_ w2⟩ h) ∨
        (∃ sa, SMALL_SIZE < v.size_ ∧ h v.buffers_.as_dynamic.arr = some sa ∧
          sa.ref_counter = 1 ∧ ws = sa.words ∧
          erase_range (some a) first last v h =
            .ret ⟨.block v.buffers_.as_dynamic.arr, first⟩
              ⟨v.size_ - (last - first), v.buffers_⟩
              (heap_set h v.buffers_.as_dynamic.arr (some ⟨1, w2⟩))) ∨
        (∃ sa, SMALL_SIZE < v.size_ ∧ h v.buffers_.as_dynamic.arr = some sa ∧
          1 < sa.ref_counter ∧
          ws = sa.words.take v.size_ ++
            ((List.range v.buffers_.as_dynamic.capacity).map a.junk).drop v.size_ ∧
          ws.length = v.buffers_.as_dynamic.capacity ∧
          erase_range (some a) first last v h =
            .ret ⟨.block a.addr, first⟩
              ⟨v.size_ - (last - first),
                .dynamic_ ⟨v.buffers_.as_dynamic.capacity, a.addr⟩⟩
              (heap_set (heap_set h a.addr (some ⟨1, w2⟩)) v.buffers_.as_dynamic.arr
                (released sa)))) := by
  have hwide := WF_wide hw
  by_cases hs : v.size_ ≤ SMALL_SIZE
  · obtain ⟨w1, w2, hloop, hfill, hlen2, htake, _, hz⟩ :=
      erase_array v.buffers_.as_static first last v.size_ h1 h2 (by omega)
    have hdc : data_const v = ⟨.inline, 0⟩ := by simp [data_const, hs]
    refine ⟨_, w1, w2, by omega, hloop, hlen2, htake, hz, Or.inl ⟨hs, rfl, ?_⟩⟩
    have he := erase_range_eval (some a) first last v v ⟨v.size_, .static_ w2⟩ h h h
      v.buffers_.as_static w1 w2 _ _ (realloc_if_share_inline _ v h hs)
      (realloc_if_share_inline _ v h hs) (by rw [hdc]; rfl) hloop hfill (by rw [hdc]; rfl)
    rw [hdc] at he
    exact he
  · have hs1 : SMALL_SIZE < v.size_ := by omega
    obtain ⟨_, sa, hp, hrc, hlen, hcap, hcmax⟩ := (WF_shared v h hs1).1 hw
    have hne : v.buffers_.as_dynamic.arr ≠ a.addr := by
      intro he
      rw [he, hfresh] at hp
      cases hp
    have hdc : data_const v = ⟨.block v.buffers_.as_dynamic.arr, 0⟩ := by
      simp [data_const, hs]
    by_cases hsh : 1 < sa.ref_counter
    · have hWlen : (sa.words.take v.size_ ++
          ((List.range v.buffers_.as_dynamic.capacity).map a.junk).drop v.size_).length =
          v.buffers_.as_dynamic.capacity := by
        simp only [List.length_append, List.length_take, List.length_drop, List.length_map,
          List.length_range]
        omega
      obtain ⟨w1, w2, hloop, hfill, hlen2, htake, _, hz⟩ :=
        erase_array (sa.words.take v.size_ ++
          ((List.range v.buffers_.as_dynamic.capacity).map a.junk).drop v.size_)
          first last v.size_ h1 h2 (by omega)
      refine ⟨_, w1, w2, by omega, hloop, hlen2, htake, hz,
        Or.inr (Or.inr ⟨sa, hs1, hp, hsh, rfl, hWlen, ?_⟩)⟩
      have hu := realloc_if_share_shared a v h sa hs1 hp hsh hcap hcmax (by omega) hfresh
      have hn1 : sa.ref_counter ≠ 1 := by omega
      have hrel : (some ⟨sa.ref_counter - 1, sa.words⟩ : Option shared_array) =
          released sa := by
        simp [released, hn1]
      rw [hrel] at hu
      have hnew : heap_set (heap_set h a.addr (some ⟨1, sa.words.take v.size_ ++
          ((List.range v.buffers_.as_dynamic.capacity).map a.junk).drop v.size_⟩))
          v.buffers_.as_dynamic.arr (released sa) a.addr = some ⟨1, sa.words.take v.size_ ++
          ((List.range v.buffers_.as_dynamic.capacity).map a.junk).drop v.size_⟩ := by
        rw [heap_set_other _ _ _ _ (Ne.symm hne), heap_set_same]
      have hdc1 : data_const ⟨v.size_, .dynamic_ ⟨v.buffers_.as_dynamic.capacity, a.addr⟩⟩ =
          ⟨.block a.addr, 0⟩ := by
        simp [data_const, hs]
      have he := erase_range_eval (some a) first last v _ _ h _ _ _ w1 w2 _ _ hu
        (realloc_if_share_exclusive _ _ _ _ (by exact hnew) (le_refl _))
        (by rw [hdc1]; simp only [array_at, hnew, Option.map]) hloop hfill
        (by rw [hdc1]; simp only [array_put, hnew]; rfl)
      rw [hdc1, heap_set_move _ _ _ _ _ _ hne] at he
      exact he
    · have hrc1 : sa.ref_counter = 1 := by omega
      obtain ⟨w1, w2, hloop, hfill, hlen2, htake, _, hz⟩ :=
        erase_array sa.words first last v.size_ h1 h2 (by omega)
      refine ⟨_, w1, w2, by omega, hloop, hlen2, htake, hz,
        Or.inr (Or.inl ⟨sa, hs1, hp, hrc1, rfl, ?_⟩)⟩
      have hu := realloc_if_share_exclusive (some a) v h sa hp (by omega)
      have he := erase_range_eval (some a) first last v v v h h _ _ w1 w2 _ _ hu hu
        (by rw [hdc]; simp only [array_at, hp, Option.map]) hloop hfill
        (by rw [hdc]; simp only [array_put, hp]; rfl)
      rw [hdc, hrc1] at he
      exact he


theorem sharer_keeps (u : vector) (h h' : Heap) (sa : shared_array) (r : Nat) (hu : WF u h)
    (hs : SMALL_SIZE < u.size_) (hp : h u.buffers_.as_dynamic.arr = some sa)
    (hp' : h' u.buffers_.as_dynamic.arr = some ⟨r, sa.words⟩) (hr : 1 ≤ r) :
    WF u h' ∧ limbs u h' = limbs u h := by
  obtain ⟨hwide, sa0, hp0, _, hlen, hcap, hcmax⟩ := (WF_shared u h hs).1 hu
  rw [hp] at hp0
  cases hp0
  constructor
  · exact (WF_shared u h' hs).2 ⟨hwide, _, hp', hr, hlen, hcap, hcmax⟩
  · rw [limbs_shared u h sa hs hp (by omega),
      limbs_shared u h' ⟨r, sa.words⟩ hs hp' (by simp only; omega)]

/-! ## C20: `erase` within one representation -/

/-- C20: `erase(begin() + first, begin() + last)` on a well-formed container with limb
sequence `s`, a valid range, an allocator answer that is not live, and a count that stays at
or below `SMALL_SIZE` or stays above it. The call returns `begin() + first`; the new size is
`|s| - (last - first)`, the container is well formed in the same representation, and its
limbs are `s[0..first) ++ s[last..|s|)`. In the array `ws'` the container now reads from,
every slot in `[|s| - (last - first), |s|)` holds 0. The loop runs on an array `ws` that starts
with `s`; it uses one unit of fuel per swap, returns with fuel `k` iff `|s| - last ≤ k`, and
with exactly that fuel leaves `p2 = |s|`. When the block was counted more than once, it
keeps its words and is counted once less, and every container that points to it is still
well formed with the limbs it had. -/
theorem C20_erase_within_one_representation (a : Alloc) (first last : Nat) (v : vector)
    (h : Heap) (s : List Nat) (hw : WF v h) (hl : limbs v h = some s) (h1 : first ≤ last)
    (h2 : last ≤ s.length) (hf : Fresh a h)
    (hrep : s.length ≤ SMALL_SIZE ∨ SMALL_SIZE < s.length - (last - first)) :
    ∃ p v' h' ws ws',
      erase_range (some a) first last v h = .ret p v' h' ∧
      p = ⟨(data_const v').base, first⟩ ∧
      size v' = s.length - (last - first) ∧ WF v' h' ∧
      limbs v' h' = some (s.take first ++ s.drop last) ∧
      (v'.size_ ≤ SMALL_SIZE ↔ v.size_ ≤ SMALL_SIZE) ∧
      array_at v' h' (data_const v').base = some ws' ∧
      (∀ i, s.length - (last - first) ≤ i → i < s.length → ws'[i]? = some 0) ∧
      ws.take s.length = s ∧
      (∀ k, (erase_loop s.length k ws first last).isSome = true ↔ s.length - last ≤ k) ∧
      (∃ w1, erase_loop s.length (s.length - last) ws first last =
        some (w1, first + (s.length - last), s.length)) ∧
      (∀ sa, SMALL_SIZE < v.size_ → h v.buffers_.as_dynamic.arr = some sa →
        1 < sa.ref_counter →
        h' v.buffers_.as_dynamic.arr = some ⟨sa.ref_counter - 1, sa.words⟩ ∧
        ∀ u, WF u h → Holds u v.buffers_.as_dynamic.arr →
          WF u h' ∧ limbs u h' = limbs u h) := by
  have hsl := limbs_length hl
  rw [hsl] at h2 hrep
  rw [hsl]
  have hwide := WF_wide hw
  obtain ⟨ws, w1, w2, hwl, hloop, hlen2, htake, hz, hcases⟩ :=
    erase_range_cases a first last v h hw h1 h2 hf
  have hsteps : (∀ k, (erase_loop v.size_ k ws first last).isSome = true ↔
        v.size_ - last ≤ k) ∧
      (∃ w1, erase_loop v.size_ (v.size_ - last) ws first last =
        some (w1, first + (v.size_ - last), v.size_)) := by
    constructor
    · intro k
      constructor
      · intro hk
        by_contra hlt
        rw [erase_loop_short v.size_ k ws first last (by omega)] at hk
        cases hk
      · intro hk
        obtain ⟨w, hw1, _⟩ := erase_loop_spec v.size_ k ws first last h1 h2 hwl hk
        rw [hw1]
        rfl
    · obtain ⟨w, hw1, _⟩ := erase_loop_spec v.size_ (v.size_ - last) ws first last h1 h2 hwl
        (le_refl _)
      exact ⟨w, hw1⟩
  rcases hcases with ⟨hs, hws, hr⟩ | ⟨sa, hs, hp, hrc, hws, hr⟩ |
    ⟨sa, hs, hp, hrc, hws, hWl, hr⟩
  · -- on the inline array
    rw [limbs_inline v h hs hwide] at hl
    cases hl
    subst hws
    have hs' : v.size_ - (last - first) ≤ SMALL_SIZE := by omega
    have hdc : data_const ⟨v.size_ - (last - first), .static_ w2⟩ = ⟨.inline, 0⟩ := by
      simp [data_const, hs']
    refine ⟨_, _, _, v.buffers_.as_static, w2, hr, by rw [hdc], rfl, ?_, ?_, ?_, ?_, hz, rfl,
      hsteps.1, hsteps.2, ?_⟩
    · exact (WF_inline _ _ (by exact hs')).2 (by simp only [as_static_static]; omega)
    · refine (limbs_inline _ _ (by exact hs')
        (by simp only [as_static_static]; omega)).trans ?_
      simp only [as_static_static]
      rw [htake]
    · exact ⟨fun _ => hs, fun _ => hs'⟩
    · rw [hdc]
      rfl
    · intro sa hs1 _ _
      omega
  · -- on the block the container owns alone
    have hbig : SMALL_SIZE < v.size_ - (last - first) := by
      rcases hrep with hr1 | hr1
      · omega
      · exact hr1
    obtain ⟨_, sa0, hp0, _, hlen, hcap, hcmax⟩ := (WF_shared v h hs).1 hw
    rw [hp] at hp0
    cases hp0
    rw [limbs_shared v h sa hs hp (by omega)] at hl
    cases hl
    subst hws
    have hnb : ¬ v.size_ - (last - first) ≤ SMALL_SIZE := by omega
    have hdc : data_const ⟨v.size_ - (last - first), v.buffers_⟩ =
        ⟨.block v.buffers_.as_dynamic.arr, 0⟩ := by
      simp [data_const, hnb]
    refine ⟨_, _, _, sa.words, w2, hr, by rw [hdc], rfl, ?_, ?_, ?_, ?_, hz, rfl,
      hsteps.1, hsteps.2, ?_⟩
    · rw [WF_shared _ _ (by exact hbig)]
      refine ⟨hwide, _, heap_set_same _ _ _, le_refl _, ?_, ?_, hcmax⟩
      · simp only
        rw [hlen2, hlen]
      · simp only
        omega
    · refine (limbs_shared _ _ _ (by exact hbig) (heap_set_same _ _ _)
        (by simp only; omega)).trans ?_
      simp only
      rw [htake]
    · constructor
      · intro hle
        exact absurd hle hnb
      · intro hle
        omega
    · rw [hdc]
      simp only [array_at, heap_set_same, Option.map]
    · intro sa' _ hp' hrc'
      rw [hp] at hp'
      cases hp'
      omega
  · -- on a private copy of an aliased block
    have hbig : SMALL_SIZE < v.size_ - (last - first) := by
      rcases hrep with hr1 | hr1
      · omega
      · exact hr1
    obtain ⟨_, sa0, hp0, _, hlen, hcap, hcmax⟩ := (WF_shared v h hs).1 hw
    rw [hp] at hp0
    cases hp0
    rw [limbs_shared v h sa hs hp (by omega)] at hl
    cases hl
    have hne : v.buffers_.as_dynamic.arr ≠ a.addr := by
      intro he
      rw [he, hf] at hp
      cases hp
    have hnb : ¬ v.size_ - (last - first) ≤ SMALL_SIZE := by omega
    have hdc : data_const ⟨v.size_ - (last - first),
        .dynamic_ ⟨v.buffers_.as_dynamic.capacity, a.addr⟩⟩ = ⟨.block a.addr, 0⟩ := by
      simp [data_const, hnb]
    have hnew : heap_set (heap_set h a.addr (some ⟨1, w2⟩)) v.buffers_.as_dynamic.arr
        (released sa) a.addr = some ⟨1, w2⟩ := by
      rw [heap_set_other _ _ _ _ (Ne.symm hne), heap_set_same]
    have hn1 : sa.ref_counter ≠ 1 := by omega
    have hold : heap_set (heap_set h a.addr (some ⟨1, w2⟩)) v.buffers_.as_dynamic.arr
        (released sa) v.buffers_.as_dynamic.arr =
        some ⟨sa.ref_counter - 1, sa.words⟩ := by
      rw [heap_set_same]
      simp [released, hn1]
    have htk : ws.take v.size_ = sa.words.take v.size_ := by
      rw [hws, List.take_append_of_le_length (by simp; omega), List.take_take]
      simp
    refine ⟨_, _, _, ws, w2, hr, by rw [hdc], rfl, ?_, ?_, ?_, ?_, hz, htk,
      hsteps.1, hsteps.2, ?_⟩
    · rw [WF_shared _ _ (by exact hbig)]
      refine ⟨rfl, _, hnew, le_refl _, ?_, ?_, hcmax⟩
      · simp only [as_dynamic_dynamic]
        rw [hlen2, hWl]
      · simp only [as_dynamic_dynamic]
        omega
    · refine (limbs_shared _ _ _ (by exact hbig) (by exact hnew)
        (by simp only; omega)).trans ?_
      simp only
      rw [htake, htk]
    · constructor
      · intro hle
        exact absurd hle hnb
      · intro hle
        omega
    · rw [hdc]
      simp only [array_at, hnew, Option.map]
    · intro sa' _ hp' _
      rw [hp] at hp'
      cases hp'
      refine ⟨hold, ?_⟩
      intro u hu hholds
      have hpu : h u.buffers_.as_dynamic.arr = some sa := by rw [hholds.2, hp]
      exact sharer_keeps u h _ sa (sa.ref_counter - 1) hu hholds.1 hpu
        (by rw [hholds.2]; exact hold) (by omega)


/-- C20 on `[1,2,3,4,5,6]` in block 100, counted twice: `erase(begin() + 1, begin() + 2)`
moves the container to block 200 with `[1,3,4,5,6]` and a zero in slot 5, and leaves block
100 with its six limbs, counted once. -/
theorem C20_erase_within_one_representation_witness :
    (WF (vector_at 100 6 6) (heap_set empty_heap 100 (some ⟨2, [1, 2, 3, 4, 5, 6]⟩)) ∧
      limbs (vector_at 100 6 6) (heap_set empty_heap 100 (some ⟨2, [1, 2, 3, 4, 5, 6]⟩)) =
        some [1, 2, 3, 4, 5, 6] ∧
      Fresh (block_of 200 7) (heap_set empty_heap 100 (some ⟨2, [1, 2, 3, 4, 5, 6]⟩))) ∧
    (∃ p v' h', erase_range (some (block_of 200 7)) 1 2 (vector_at 100 6 6)
        (heap_set empty_heap 100 (some ⟨2, [1, 2, 3, 4, 5, 6]⟩)) = .ret p v' h' ∧
      size v' = 5 ∧ limbs v' h' = some [1, 3, 4, 5, 6]) ∧
    (erase_range (some (block_of 200 7)) 1 2 (vector_at 100 6 6)
        (heap_set empty_heap 100 (some ⟨2, [1, 2, 3, 4, 5, 6]⟩))).observe
      (fun v h => (v, h 100, h 200)) =
      some (vector_at 200 5 6, some ⟨1, [1, 2, 3, 4, 5, 6]⟩, some ⟨1, [1, 3, 4, 5, 6, 0]⟩) :=
  have hw : WF (vector_at 100 6 6) (heap_set empty_heap 100 (some ⟨2, [1, 2, 3, 4, 5, 6]⟩)) :=
    (WF_shared _ _ (by decide)).2
      ⟨rfl, ⟨2, [1, 2, 3, 4, 5, 6]⟩, rfl, by decide, rfl, by decide, by decide⟩
  ⟨⟨hw, rfl, rfl⟩,
    by
      obtain ⟨p, v', h', _, _, hr, _, hsz, _, hl, _⟩ :=
        C20_erase_within_one_representation (block_of 200 7) 1 2 (vector_at 100 6 6)
          (heap_set empty_heap 100 (some ⟨2, [1, 2, 3, 4, 5, 6]⟩)) [1, 2, 3, 4, 5, 6] hw rfl
          (by decide) (by decide) rfl (Or.inr (by decide))
      exact ⟨p, v', h', hr, hsz, hl⟩,
    rfl⟩


/-! ## The effect of each operation -/

theorem ret_unique {α : Type} {o : Outcome α} {x1 x2 : α} {v1 v2 : vector} {h1 h2 : Heap}
    (e1 : o = .ret x1 v1 h1) (e2 : o = .ret x2 v2 h2) : v1 = v2 ∧ h1 = h2 := by
  rw [e1] at e2
  cases e2
  exact ⟨rfl, rfl⟩

theorem holds_resized (v : vector) (n p : Nat) (hn : SMALL_SIZE < n)
    (hs : SMALL_SIZE < v.size_) : Holds ⟨n, v.buffers_⟩ p ↔ Holds v p :=
  ⟨fun hh => ⟨hs, hh.2⟩, fun hh => ⟨hn, hh.2⟩⟩

/-- Writing new words of the same length into the block the container owns alone, and
setting its size, keeps the effect of what came before. -/
theorem effect_then_write (leak : Bool) (v v1 : vector) (h h1 : Heap) (W W' : List Nat)
    (n : Nat) (hE : Effect leak v h v1 h1) (hs1 : SMALL_SIZE < v1.size_)
    (hnew : h1 v1.buffers_.as_dynamic.arr = some ⟨1, W⟩) (hlen : W'.length = W.length)
    (hn : SMALL_SIZE < n ∨ leak = true) :
    Effect leak v h ⟨n, v1.buffers_⟩
      (heap_set h1 v1.buffers_.as_dynamic.arr (some ⟨1, W'⟩)) := by
  intro p
  obtain ⟨c1, c2, c3, c4⟩ := hE p
  by_cases hpq : p = v1.buffers_.as_dynamic.arr
  · have hv1 : Holds v1 p := ⟨hs1, hpq.symm⟩
    have hh2 : heap_set h1 v1.buffers_.as_dynamic.arr (some ⟨1, W'⟩) p = some ⟨1, W'⟩ := by
      rw [hpq, heap_set_same]
    have hh1 : h1 p = some ⟨1, W⟩ := by rw [hpq, hnew]
    by_cases hbig : SMALL_SIZE < n
    · have hv2 : Holds ⟨n, v1.buffers_⟩ p := ⟨hbig, hpq.symm⟩
      refine ⟨fun hv _ => ?_, fun _ hn2 => absurd hv2 hn2, fun hnv _ => ?_,
        fun _ hn2 => absurd hv2 hn2⟩
      · obtain ⟨sa, ws, e1, e2, e3, _⟩ := c1 hv hv1
        rw [hh1] at e2
        have e2' := Option.some.inj e2
        have hrc : sa.ref_counter = 1 := by
          have := congrArg shared_array.ref_counter e2'
          exact this.symm
        have hws : ws = W := by
          have := congrArg shared_array.words e2'
          exact this.symm
        refine ⟨sa, W', e1, by rw [hh2, hrc], ?_, Or.inr hrc⟩
        rw [hlen, ← hws, e3]
      · obtain ⟨e1, _⟩ := c3 hnv hv1
        exact ⟨e1, W', hh2⟩
    · have hlk : leak = true := by
        rcases hn with hn1 | hn1
        · exact absurd hn1 hbig
        · exact hn1
      have hv2 : ¬ Holds ⟨n, v1.buffers_⟩ p := fun hh => hbig hh.1
      refine ⟨fun _ hh => absurd hh hv2, fun hv _ => ?_, fun _ hh => absurd hh hv2,
        fun hnv _ => ?_⟩
      · obtain ⟨sa, ws, e1, e2, _, _⟩ := c1 hv hv1
        rw [hh1] at e2
        have e2' := Option.some.inj e2
        have hrc : sa.ref_counter = 1 := by
          have := congrArg shared_array.ref_counter e2'
          exact this.symm
        exact ⟨sa, e1, Or.inr ⟨hlk, hrc, W', hh2⟩⟩
      · obtain ⟨e1, _⟩ := c3 hnv hv1
        exact Or.inr ⟨hlk, e1, W', hh2⟩
  · have hv1 : ¬ Holds v1 p := fun hh => hpq hh.2.symm
    have hv2 : ¬ Holds ⟨n, v1.buffers_⟩ p := fun hh => hpq hh.2.symm
    have hh2 : heap_set h1 v1.buffers_.as_dynamic.arr (some ⟨1, W'⟩) p = h1 p :=
      heap_set_other _ _ _ _ hpq
    refine ⟨fun _ hh => absurd hh hv2, fun hv _ => ?_, fun _ hh => absurd hh hv2,
      fun hnv _ => ?_⟩
    · rw [hh2]
      exact c2 hv hv1
    · rw [hh2]
      exact c4 hnv hv1

theorem write_eval (h1 : Heap) (p : Nat) (g : List Nat → Option (List Nat)) (v2 : vector)
    (W W' : List Nat) (hnew : h1 p = some ⟨1, W⟩) (hg : g W = some W') :
    Outcome.of_ub ((with_words h1 p g).map fun h2 => (v2, h2)) =
      .ret () v2 (heap_set h1 p (some ⟨1, W'⟩)) := by
  rw [with_words_eq h1 p g ⟨1, W⟩ W' hnew hg]
  rfl

theorem realloc_data_effect (leak : Bool) (a : Alloc) (c : Nat) (v : vector) (h : Heap)
    (sa : shared_array) (hs : SMALL_SIZE < v.size_) (hc : v.size_ ≤ c) (hmax : c ≤ MAX_WORDS)
    (hp : h v.buffers_.as_dynamic.arr = some sa) (hrc : 1 ≤ sa.ref_counter)
    (hlen : v.size_ ≤ sa.words.length) (hfresh : Fresh a h) :
    ∃ h1 W, realloc_data_ (some a) c v h = .ret () ⟨v.size_, .dynamic_ ⟨c, a.addr⟩⟩ h1 ∧
      h1 a.addr = some ⟨1, W⟩ ∧ W.length = c ∧
      Effect leak v h ⟨v.size_, .dynamic_ ⟨c, a.addr⟩⟩ h1 := by
  have hne : v.buffers_.as_dynamic.arr ≠ a.addr := by
    intro he
    rw [he, hfresh] at hp
    cases hp
  refine ⟨heap_set (heap_set h a.addr
      (some ⟨1, sa.words.take v.size_ ++ ((List.range c).map a.junk).drop v.size_⟩))
      v.buffers_.as_dynamic.arr (released sa),
    sa.words.take v.size_ ++ ((List.range c).map a.junk).drop v.size_,
    realloc_data_eq a c v h sa hs hc hmax hp hrc hlen hfresh, ?_, ?_,
    effect_move leak v _ h a sa _ hs (by exact hs) rfl hfresh hp⟩
  · rw [heap_set_other _ _ _ _ (Ne.symm hne), heap_set_same]
  · simp only [List.length_append, List.length_take, List.length_drop, List.length_map,
      List.length_range]
    omega

/-- After `realloc_if_share_` a container in the shared representation owns its block
alone: the block it had, if that was counted once, or a new one of the same capacity. -/
theorem uniquify_effect (leak : Bool) (a : Alloc) (v : vector) (h : Heap) (hw : WF v h)
    (hs : SMALL_SIZE < v.size_) (hfresh : Fresh a h) :
    ∃ v1 h1 W, realloc_if_share_ (some a) v h = .ret () v1 h1 ∧ v1.size_ = v.size_ ∧
      v1.buffers_.as_dynamic.capacity = v.buffers_.as_dynamic.capacity ∧
      v1.buffers_.as_static.length = SMALL_SIZE ∧
      h1 v1.buffers_.as_dynamic.arr = some ⟨1, W⟩ ∧
      W.length = v.buffers_.as_dynamic.capacity ∧ Effect leak v h v1 h1 := by
  obtain ⟨hwide, sa, hp, hrc, hlen, hcap, hcmax⟩ := (WF_shared v h hs).1 hw
  by_cases h1 : sa.ref_counter = 1
  · refine ⟨v, h, sa.words, realloc_if_share_exclusive _ v h sa hp (by omega), rfl, rfl,
      hwide, ?_, hlen, effect_self leak v h hw⟩
    rw [hp, ← h1]
  · obtain ⟨h1', W, he, hnew, hWl, hE⟩ := realloc_data_effect leak a
      v.buffers_.as_dynamic.capacity v h sa hs hcap hcmax hp hrc (by omega) hfresh
    refine ⟨⟨v.size_, .dynamic_ ⟨v.buffers_.as_dynamic.capacity, a.addr⟩⟩, h1', W, ?_, rfl,
      rfl, rfl, hnew, hWl, hE⟩
    unfold realloc_if_share_
    have h2 : 1 < sa.ref_counter := by omega
    simp only [hs, if_true, hp, h2]
    exact he

theorem WF_block (n c p : Nat) (h : Heap) (W : List Nat) (hn : SMALL_SIZE < n)
    (hnc : n ≤ c) (hc : c ≤ MAX_WORDS) (hp : h p = some ⟨1, W⟩) (hl : W.length = c) :
    WF ⟨n, .dynamic_ ⟨c, p⟩⟩ h :=
  (WF_shared _ _ (by exact hn)).2 ⟨rfl, _, hp, le_refl _, hl, hnc, hc⟩

theorem data_effect (leak : Bool) (a : Alloc) (v : vector) (h : Heap) (hw : WF v h)
    (hfresh : Fresh a h) :
    ∃ p v' h', data (some a) v h = .ret p v' h' ∧ WF v' h' ∧ Effect leak v h v' h' := by
  by_cases hs : v.size_ ≤ SMALL_SIZE
  · refine ⟨data_const v, v, h, ?_, hw, effect_self leak v h hw⟩
    simp only [data, realloc_if_share_inline _ v h hs, andThen_ret]
  · have hs1 : SMALL_SIZE < v.size_ := by omega
    obtain ⟨_, sa, hp, hrc, hlen, hcap, hcmax⟩ := (WF_shared v h hs1).1 hw
    obtain ⟨v1, h1, W, hu, hsz, hcp, hwd, hnew, hWl, hE⟩ :=
      uniquify_effect leak a v h hw hs1 hfresh
    refine ⟨data_const v1, v1, h1, ?_, ?_, hE⟩
    · simp only [data, hu, andThen_ret]
    · exact (WF_shared _ _ (by omega)).2
        ⟨hwd, _, hnew, le_refl _, by rw [hWl, hcp], by omega, by omega⟩


theorem push_back_effect (leak : Bool) (a : Alloc) (x : Nat) (v : vector) (h : Heap)
    (hw : WF v h) (hfresh : Fresh a h) (hmax : 2 * v.size_ ≤ MAX_WORDS) :
    ∃ v' h', push_back (some a) x v h = .ret () v' h' ∧ Effect leak v h v' h' := by
  rcases push_back_cases a x v h hw hfresh hmax with
    ⟨hs, w, hr⟩ | ⟨hs, W, _, hr⟩ | ⟨sa, hs, hp, hrc, _, W, hWl, hr⟩ |
    ⟨sa, c, hs, hp, _, _, W, _, hr⟩
  · exact ⟨_, _, hr, effect_inline leak v _ h (by omega) (by simp only; omega)⟩
  · exact ⟨_, _, hr, effect_up leak v _ h a W (by omega) (by simp only; omega) rfl hfresh⟩
  · exact ⟨_, _, hr, effect_inplace leak v _ h sa W hs (by simp only; omega) rfl hp hrc hWl⟩
  · exact ⟨_, _, hr, effect_move leak v _ h a sa W hs (by simp only; omega) rfl hfresh hp⟩

theorem pop_back_effect (leak : Bool) (a : Alloc) (v : vector) (h : Heap) (hw : WF v h)
    (hne : v.size_ ≠ 0) (hfresh : Fresh a h) :
    ∃ v' h', pop_back (some a) v h = .ret () v' h' ∧ Effect leak v h v' h' := by
  by_cases hs : v.size_ ≤ SMALL_SIZE
  · refine ⟨⟨v.size_ - 1, v.buffers_⟩, h, ?_,
      effect_inline leak v _ h hs (by simp only; omega)⟩
    unfold pop_back
    simp only [if_neg hne, if_pos hs]
  · have hs1 : SMALL_SIZE < v.size_ := by omega
    obtain ⟨hwide, sa, hp, hrc, hlen, hcap, hcmax⟩ := (WF_shared v h hs1).1 hw
    by_cases h5 : v.size_ = SMALL_SIZE + 1
    · have hc := pop_back_crossing (some a) v h sa h5 hp hrc (by omega) hwide
      exact ⟨_, _, hc, effect_down leak v _ h sa hs1 (by simp only; omega) hp⟩
    · obtain ⟨v1, h1, W, hu, hsz, hcp, _, hnew, hWl, hE⟩ :=
        uniquify_effect leak a v h hw hs1 hfresh
      have hst := store_at_eq W (v.size_ - 1) 0 (by omega)
      refine ⟨⟨v.size_ - 1, v1.buffers_⟩,
        heap_set h1 v1.buffers_.as_dynamic.arr (some ⟨1, W.set (v.size_ - 1) 0⟩), ?_,
        effect_then_write leak v v1 h h1 W _ _ hE (by omega) hnew (by simp)
          (Or.inl (by omega))⟩
      unfold pop_back
      simp only [if_neg hne, if_neg hs, if_neg h5, hu, andThen_ret, hsz]
      exact write_eval h1 _ _ _ W _ hnew hst

theorem clear_effect (leak : Bool) (v : vector) (h : Heap) (hw : WF v h) :
    ∃ h', clear v h = .ret () ⟨0, v.buffers_⟩ h' ∧ Effect leak v h ⟨0, v.buffers_⟩ h' := by
  by_cases hs : v.size_ ≤ SMALL_SIZE
  · have hns : ¬ SMALL_SIZE < v.size_ := by omega
    refine ⟨h, ?_, effect_inline leak v _ h hs (Nat.zero_le _)⟩
    unfold clear
    simp only [if_neg hns]
  · have hs1 : SMALL_SIZE < v.size_ := by omega
    obtain ⟨_, sa, hp, hrc, _, _, _⟩ := (WF_shared v h hs1).1 hw
    refine ⟨heap_set h v.buffers_.as_dynamic.arr (released sa), ?_,
      effect_down leak v _ h sa hs1 (Nat.zero_le _) hp⟩
    unfold clear
    simp only [if_pos hs1]
    rw [unshare_eq _ _ sa hp hrc]
    rfl

theorem destructor_effect (leak : Bool) (v : vector) (h : Heap) (hw : WF v h) :
    ∃ h', destructor v h = .ret () ⟨0, v.buffers_⟩ h' ∧
      Effect leak v h ⟨0, v.buffers_⟩ h' := by
  by_cases hs : v.size_ ≤ SMALL_SIZE
  · exact ⟨h, destructor_inline v h hs, effect_inline leak v _ h hs (Nat.zero_le _)⟩
  · have hs1 : SMALL_SIZE < v.size_ := by omega
    obtain ⟨_, sa, hp, hrc, _, _, _⟩ := (WF_shared v h hs1).1 hw
    exact ⟨heap_set h v.buffers_.as_dynamic.arr (released sa),
      destructor_shared v h sa hs1 hp hrc, effect_down leak v _ h sa hs1 (Nat.zero_le _) hp⟩

theorem assign_index_effect (leak : Bool) (a : Alloc) (i x : Nat) (v : vector) (h : Heap)
    (hw : WF v h) (hi : i < v.size_) (hfresh : Fresh a h) :
    ∃ v' h', assign_index (some a) i x v h = .ret () v' h' ∧ Effect leak v h v' h' := by
  have hwide := WF_wide hw
  by_cases hs : v.size_ ≤ SMALL_SIZE
  · have hdc : data_const v = ⟨.inline, 0⟩ := by simp [data_const, hs]
    refine ⟨⟨v.size_, .static_ (v.buffers_.as_static.set i x)⟩, h, ?_,
      effect_inline leak v _ h hs (by exact hs)⟩
    unfold assign_index operator_index data
    simp only [hi, if_true, realloc_if_share_inline _ v h hs, andThen_ret, hdc, Nat.zero_add,
      store, array_at, Option.bind]
    rw [store_at_eq _ _ _ (by omega)]
    rfl
  · have hs1 : SMALL_SIZE < v.size_ := by omega
    obtain ⟨_, sa, hp, hrc, hlen, hcap, hcmax⟩ := (WF_shared v h hs1).1 hw
    obtain ⟨v1, h1, W, hu, hsz, hcp, _, hnew, hWl, hE⟩ :=
      uniquify_effect leak a v h hw hs1 hfresh
    have hns1 : ¬ v1.size_ ≤ SMALL_SIZE := by omega
    have hdc : data_const v1 = ⟨.block v1.buffers_.as_dynamic.arr, 0⟩ := by
      simp [data_const, hns1]
    refine ⟨v1, heap_set h1 v1.buffers_.as_dynamic.arr (some ⟨1, W.set i x⟩), ?_,
      effect_then_write leak v v1 h h1 W _ v1.size_ hE (by omega) hnew (by simp)
        (Or.inl (by omega))⟩
    unfold assign_index operator_index data
    simp only [hi, if_true, hu, andThen_ret, hdc, Nat.zero_add, store, array_at, hnew,
      Option.map, Option.bind, array_put]
    rw [store_at_eq _ _ _ (by omega)]
    rfl

theorem assign_back_effect (leak : Bool) (a : Alloc) (x : Nat) (v : vector) (h : Heap)
    (hw : WF v h) (hne : v.size_ ≠ 0) (hfresh : Fresh a h) :
    ∃ v' h', assign_back (some a) x v h = .ret () v' h' ∧ Effect leak v h v' h' := by
  rw [assign_back_eq (some a) x v h hne
    (fun v1 h1 hr => realloc_if_share_size (some a) v v1 h h1 hr)]
  exact assign_index_effect leak a (v.size_ - 1) x v h hw (by omega) hfresh

theorem vector_sized_effect (leak : Bool) (prior : Nat → Nat) (a : Alloc) (n : Nat)
    (h : Heap) (hn : n ≤ MAX_WORDS) (hfresh : Fresh a h) :
    ∃ w h', vector_sized prior (some a) n h = .ret () w h' ∧ WF w h' ∧
      Effect leak (vector_default prior) h w h' := by
  by_cases hs : n ≤ SMALL_SIZE
  · obtain ⟨w, hr, hsz, hww, _⟩ := vector_sized_small prior (some a) n h hs
    exact ⟨w, h, hr, hww, effect_inline leak _ w h (Nat.zero_le _) (by omega)⟩
  · have hs1 : SMALL_SIZE < n := by omega
    obtain ⟨hr, _⟩ := vector_sized_large prior a n h hs1 hn
    exact ⟨_, _, hr, WF_block n n a.addr _ _ hs1 (le_refl _) hn (heap_set_same _ _ _)
      (by simp), effect_up leak _ _ h a _ (Nat.zero_le _) (by exact hs1) rfl hfresh⟩


theorem resize_effect (leak : Bool) (a : Alloc) (n x : Nat) (v : vector) (h : Heap)
    (hw : WF v h) (hfresh : Fresh a h) (hmax : n ≤ MAX_WORDS) :
    ∃ v' h', resize (some a) n x v h = .ret () v' h' ∧ Effect leak v h v' h' := by
  have hwide := WF_wide hw
  by_cases hs : v.size_ ≤ SMALL_SIZE
  · have hns : ¬ SMALL_SIZE < v.size_ := by omega
    by_cases hlt : n < v.size_
    · refine ⟨⟨n, .static_ (v.buffers_.as_static.take n ++
        List.replicate (v.size_ - n) 0 ++ v.buffers_.as_static.drop v.size_)⟩, h, ?_,
        effect_inline leak v _ h hs (by simp only; omega)⟩
      unfold resize
      simp only [if_pos hlt, if_pos hs]
      rw [fill_eq _ _ _ _ (by omega) (by omega)]
      rfl
    · by_cases hgt : v.size_ < n
      · by_cases hbig : SMALL_SIZE < n
        · obtain ⟨W0, hW0⟩ : ∃ W0, W0 = v.buffers_.as_static.take v.size_ ++
              ((List.range n).map a.junk).drop v.size_ := ⟨_, rfl⟩
          have hlen2 : W0.length = n := by
            rw [hW0]
            simp only [List.length_append, List.length_take, List.length_drop,
              List.length_map, List.length_range]
            omega
          have hst := fill_eq W0 v.size_ n x (by omega) (by omega)
          refine ⟨⟨n, .dynamic_ ⟨n, a.addr⟩⟩, heap_set h a.addr (some ⟨1, W0.take v.size_ ++
            List.replicate (n - v.size_) x ++ W0.drop n⟩), ?_,
            effect_up leak v _ h a _ hs (by exact hbig) rfl hfresh⟩
          unfold resize
          simp only [hlt, hgt, hns, hbig, if_false, if_true, alloc_data,
            alloc_slots_eq _ hmax, with_words, heap_set_same]
          rw [copy_words_eq _ _ _ (by omega) (by simp; omega)]
          simp only [Option.bind]
          rw [← hW0]
          simp only [hst, Option.map, of_ub_some, heap_set_set]
        · refine ⟨⟨n, .static_ (v.buffers_.as_static.take v.size_ ++
            List.replicate (n - v.size_) x ++ v.buffers_.as_static.drop n)⟩, h, ?_,
            effect_inline leak v _ h hs (by simp only; omega)⟩
          unfold resize
          simp only [hlt, hgt, hns, hbig, if_false, if_true]
          rw [fill_eq _ _ _ _ (by omega) (by omega)]
          rfl
      · have he : n = v.size_ := by omega
        subst he
        refine ⟨⟨v.size_, v.buffers_⟩, h, ?_, effect_inline leak v _ h hs (by exact hs)⟩
        unfold resize
        simp only [lt_irrefl, if_false]
  · have hs1 : SMALL_SIZE < v.size_ := by omega
    obtain ⟨_, sa, hp, hrc, hlen, hcap, hcmax⟩ := (WF_shared v h hs1).1 hw
    by_cases hlt : n < v.size_
    · by_cases hsmall : n ≤ SMALL_SIZE
      · refine ⟨⟨n, .static_ (sa.words.take n ++ v.buffers_.as_static.drop n)⟩,
          heap_set h v.buffers_.as_dynamic.arr (released sa), ?_,
          effect_down leak v _ h sa hs1 (by exact hsmall) hp⟩
        unfold resize
        simp only [hlt, hs, hsmall, if_false, if_true, hp]
        rw [copy_words_eq _ _ _ (by omega) (by omega), unshare_eq _ _ sa hp hrc]
        rfl
      · obtain ⟨v1, h1, W, hu, hsz, hcp, _, hnew, hWl, hE⟩ :=
          uniquify_effect leak a v h hw hs1 hfresh
        have hst := fill_eq W n v.size_ 0 (by omega) (by omega)
        have hfl := fill_length W n v.size_ 0 (by omega) (by omega)
        refine ⟨⟨n, v1.buffers_⟩, heap_set h1 v1.buffers_.as_dynamic.arr
          (some ⟨1, W.take n ++ List.replicate (v.size_ - n) 0 ++ W.drop v.size_⟩), ?_,
          effect_then_write leak v v1 h h1 W _ n hE (by omega) hnew hfl
            (Or.inl (by omega))⟩
        unfold resize
        simp only [if_pos hlt, if_neg hs, if_neg hsmall, hu, andThen_ret, hsz]
        exact write_eval h1 _ _ _ W _ hnew hst
    · by_cases hgt : v.size_ < n
      · by_cases hc : 1 < sa.ref_counter ∨ v.buffers_.as_dynamic.capacity < n
        · have hcc : ∃ c, c = (if v.buffers_.as_dynamic.capacity < n then n
              else v.buffers_.as_dynamic.capacity) ∧ n ≤ c ∧ c ≤ MAX_WORDS := by
            by_cases hsc : v.buffers_.as_dynamic.capacity < n
            · exact ⟨n, by simp only [if_pos hsc], le_refl _, hmax⟩
            · exact ⟨_, by simp only [if_neg hsc], by omega, hcmax⟩
          obtain ⟨c, hceq, hc1, hc2⟩ := hcc
          obtain ⟨h1, W, he, hnew, hWl, hE⟩ := realloc_data_effect leak a c v h sa hs1
            (by omega) hc2 hp hrc (by omega) hfresh
          have hst := fill_eq W v.size_ n x (by omega) (by omega)
          have hfl := fill_length W v.size_ n x (by omega) (by omega)
          refine ⟨⟨n, .dynamic_ ⟨c, a.addr⟩⟩, heap_set h1 a.addr
            (some ⟨1, W.take v.size_ ++ List.replicate (n - v.size_) x ++ W.drop n⟩), ?_,
            effect_then_write leak v ⟨v.size_, .dynamic_ ⟨c, a.addr⟩⟩ h h1 W _ n hE
              (by exact hs1) hnew hfl (Or.inl (by omega))⟩
          unfold resize
          simp only [if_neg hlt, if_pos hgt, if_pos hs1, hp, if_pos hc, ← hceq, he,
            andThen_ret, as_dynamic_dynamic]
          exact write_eval h1 _ _ _ W _ hnew hst
        · have hrc1 : sa.ref_counter = 1 := by
            by_contra hne1
            exact hc (Or.inl (by omega))
          have hroom : n ≤ v.buffers_.as_dynamic.capacity := by
            by_contra hlt2
            exact hc (Or.inr (by omega))
          have hnew : h v.buffers_.as_dynamic.arr = some ⟨1, sa.words⟩ := by
            rw [hp, ← hrc1]
          have hst := fill_eq sa.words v.size_ n x (by omega) (by omega)
          have hfl := fill_length sa.words v.size_ n x (by omega) (by omega)
          refine ⟨⟨n, v.buffers_⟩, heap_set h v.buffers_.as_dynamic.arr
            (some ⟨1, sa.words.take v.size_ ++ List.replicate (n - v.size_) x ++
              sa.words.drop n⟩), ?_,
            effect_then_write leak v v h h sa.words _ n (effect_self leak v h hw) hs1 hnew
              hfl (Or.inl (by omega))⟩
          unfold resize
          simp only [if_neg hlt, if_pos hgt, if_pos hs1, hp, if_neg hc, andThen_ret]
          exact write_eval h _ _ _ sa.words _ hnew hst
      · have he : n = v.size_ := by omega
        subst he
        refine ⟨⟨v.size_, v.buffers_⟩, h, ?_, effect_self leak v h hw⟩
        unfold resize
        simp only [lt_irrefl, if_false]

theorem erase_effect (a : Alloc) (first last : Nat) (v : vector) (h : Heap) (hw : WF v h)
    (h1 : first ≤ last) (h2 : last ≤ v.size_) (hfresh : Fresh a h) :
    ∃ p v' h', erase_range (some a) first last v h = .ret p v' h' ∧ WF v' h' ∧
      Effect true v h v' h' := by
  have hwide := WF_wide hw
  obtain ⟨ws, w1, w2, hwl, _, hlen2, _, _, hcases⟩ :=
    erase_range_cases a first last v h hw h1 h2 hfresh
  rcases hcases with ⟨hs, hws, hr⟩ | ⟨sa, hs, hp, hrc, hws, hr⟩ |
    ⟨sa, hs, hp, hrc, hws, hWl, hr⟩
  · subst hws
    have hs' : v.size_ - (last - first) ≤ SMALL_SIZE := by omega
    exact ⟨_, _, _, hr,
      (WF_inline _ _ (by exact hs')).2 (by simp only [as_static_static]; omega),
      effect_inline true v _ h hs (by exact hs')⟩
  · obtain ⟨_, sa0, hp0, _, hlen, hcap, hcmax⟩ := (WF_shared v h hs).1 hw
    rw [hp] at hp0
    cases hp0
    subst hws
    by_cases hbig : SMALL_SIZE < v.size_ - (last - first)
    · refine ⟨_, _, _, hr, ?_,
        effect_inplace true v _ h sa w2 hs (by exact hbig) rfl hp hrc hlen2⟩
      rw [WF_shared _ _ (by exact hbig)]
      refine ⟨hwide, _, heap_set_same _ _ _, le_refl _, ?_, ?_, hcmax⟩
      · simp only
        rw [hlen2, hlen]
      · simp only
        omega
    · exact ⟨_, _, _, hr, (WF_inline _ _ (by simp only; omega)).2 hwide,
        effect_leak_inplace v _ h sa w2 hs (by simp only; omega) hp hrc⟩
  · obtain ⟨_, sa0, hp0, _, hlen, hcap, hcmax⟩ := (WF_shared v h hs).1 hw
    rw [hp] at hp0
    cases hp0
    have hne : v.buffers_.as_dynamic.arr ≠ a.addr := by
      intro he
      rw [he, hfresh] at hp
      cases hp
    by_cases hbig : SMALL_SIZE < v.size_ - (last - first)
    · refine ⟨_, _, _, hr, ?_,
        effect_move true v _ h a sa w2 hs (by exact hbig) rfl hfresh hp⟩
      exact WF_block _ _ _ _ w2 hbig (by omega) hcmax
        (by rw [heap_set_other _ _ _ _ (Ne.symm hne), heap_set_same]) (by rw [hlen2, hWl])
    · exact ⟨_, _, _, hr, (WF_inline _ _ (by simp only; omega)).2 rfl,
        effect_leak_move v _ h a sa w2 hs (by simp only; omega) hfresh hp⟩


theorem merge_ret {o : Outcome Unit} {P Q : vector → Heap → Prop}
    (h1 : ∃ v' h', o = .ret () v' h' ∧ P v' h') (h2 : ∃ v' h', o = .ret () v' h' ∧ Q v' h') :
    ∃ v' h', o = .ret () v' h' ∧ P v' h' ∧ Q v' h' := by
  obtain ⟨v1, g1, e1, p1⟩ := h1
  obtain ⟨v2, g2, e2, p2⟩ := h2
  obtain ⟨ev, eh⟩ := ret_unique e1 e2
  subst ev
  subst eh
  exact ⟨v1, g1, e1, p1, p2⟩

/-- Every mutating operation within its contract returns a well-formed container and has an
exact effect on the free store; only `erase` may leave its block behind. -/
theorem mutation_effect (a : Alloc) (m : Mutation) (v : vector) (h : Heap) (hw : WF v h)
    (hf : Fresh a h) (hv : m.valid v.size_) :
    ∃ v' h', m.run (some a) v h = .ret () v' h' ∧ WF v' h' ∧
      (Effect true v h v' h' ∧ ((∀ f l, m ≠ .erase f l) → Effect false v h v' h')) := by
  obtain ⟨s, hl⟩ := WF_limbs hw
  have hal : Exclusive v h ∨ ∃ a', some a = some a' ∧ Fresh a' h := Or.inr ⟨a, rfl, hf⟩
  cases m with
  | assign_index i x =>
    obtain ⟨v', h', he, hpost, _⟩ := assign_index_spec (some a) i x v h s hw hl hv hal
    exact merge_ret ⟨v', h', he, hpost.wf⟩
      (merge_ret (assign_index_effect true a i x v h hw hv hf)
        (Exists.imp (fun _ => Exists.imp fun _ hh => ⟨hh.1, fun _ => hh.2⟩)
          (assign_index_effect false a i x v h hw hv hf)))
  | assign_back x =>
    obtain ⟨v', h', he, hpost, _⟩ := assign_back_spec (some a) x v h s hw hl hv hal
    exact merge_ret ⟨v', h', he, hpost.wf⟩
      (merge_ret (assign_back_effect true a x v h hw hv hf)
        (Exists.imp (fun _ => Exists.imp fun _ hh => ⟨hh.1, fun _ => hh.2⟩)
          (assign_back_effect false a x v h hw hv hf)))
  | push_back x =>
    obtain ⟨v', h', he, hpost, _⟩ := push_back_spec a x v h s hw hl hf hv
    exact merge_ret ⟨v', h', he, hpost.wf⟩
      (merge_ret (push_back_effect true a x v h hw hf hv)
        (Exists.imp (fun _ => Exists.imp fun _ hh => ⟨hh.1, fun _ => hh.2⟩)
          (push_back_effect false a x v h hw hf hv)))
  | pop_back =>
    obtain ⟨v', h', he, hpost, _⟩ := pop_back_spec (some a) v h s hw hv hl hal
    exact merge_ret ⟨v', h', he, hpost.wf⟩
      (merge_ret (pop_back_effect true a v h hw hv hf)
        (Exists.imp (fun _ => Exists.imp fun _ hh => ⟨hh.1, fun _ => hh.2⟩)
          (pop_back_effect false a v h hw hv hf)))
  | resize n x =>
    obtain ⟨v', h', he, hpost⟩ := resize_spec a n x v h s hw hl hf hv
    exact merge_ret ⟨v', h', he, hpost.wf⟩
      (merge_ret (resize_effect true a n x v h hw hf hv)
        (Exists.imp (fun _ => Exists.imp fun _ hh => ⟨hh.1, fun _ => hh.2⟩)
          (resize_effect false a n x v h hw hf hv)))
  | erase first last =>
    obtain ⟨p, v', h', he, hwf, hE⟩ := erase_effect a first last v h hw hv.1 hv.2 hf
    refine ⟨v', h', ?_, hwf, hE, fun hne => absurd rfl (hne first last)⟩
    simp only [Mutation.run, he, andThen_ret]
  | clear =>
    obtain ⟨v', h', he, hpost⟩ := clear_spec (some a) v h hw
    obtain ⟨g1, e1, p1⟩ := clear_effect true v h hw
    obtain ⟨g2, e2, p2⟩ := clear_effect false v h hw
    exact merge_ret ⟨v', h', he, hpost.wf⟩
      (merge_ret ⟨_, g1, e1, p1⟩ ⟨_, g2, e2, fun _ => p2⟩)


/-! ## Programs: containers in one free store -/

theorem holds_iff (v : vector) (p : Nat) : holds v p = true ↔ Holds v p := by
  simp [holds, Holds]

theorem holders_cons (v : vector) (rest : List vector) (p : Nat) :
    holders (v :: rest) p = holders rest p + (if holds v p = true then 1 else 0) := by
  unfold holders
  rw [List.countP_cons]

theorem holders_cons_pos (v : vector) (rest : List vector) (p : Nat) (hv : Holds v p) :
    holders (v :: rest) p = holders rest p + 1 := by
  rw [holders_cons, if_pos ((holds_iff v p).2 hv)]

theorem holders_cons_neg (v : vector) (rest : List vector) (p : Nat) (hv : ¬ Holds v p) :
    holders (v :: rest) p = holders rest p := by
  rw [holders_cons, if_neg (fun hh => hv ((holds_iff v p).1 hh))]
  rfl

theorem holders_perm {l1 l2 : List vector} (hp : l1.Perm l2) (p : Nat) :
    holders l1 p = holders l2 p :=
  hp.countP_eq _

theorem holders_pos_of_mem {l : List vector} {u : vector} {p : Nat} (hu : u ∈ l)
    (hh : Holds u p) : 1 ≤ holders l p := by
  unfold holders
  exact List.countP_pos_iff.2 ⟨u, hu, (holds_iff u p).2 hh⟩

theorem live_of_holds {u : vector} {h : Heap} {p : Nat} (hw : WF u h) (hh : Holds u p) :
    ∃ sa, h p = some sa ∧ 1 ≤ sa.ref_counter ∧
      sa.words.length = u.buffers_.as_dynamic.capacity := by
  obtain ⟨_, sa, hp, hrc, hlen, _, _⟩ := (WF_shared u h hh.1).1 hw
  rw [hh.2] at hp
  exact ⟨sa, hp, hrc, hlen⟩

theorem holders_zero_of_none {l : List vector} {h : Heap} {p : Nat}
    (hw : ∀ v ∈ l, WF v h) (hp : h p = none) : holders l p = 0 := by
  unfold holders
  rw [List.countP_eq_zero]
  intro u hu hh
  obtain ⟨sa, hsa, _⟩ := live_of_holds (hw u hu) ((holds_iff u p).1 hh)
  rw [hp] at hsa
  cases hsa

theorem WF_of_same_length (x : vector) (h h' : Heap) (sa : shared_array) (r : Nat)
    (ws : List Nat) (hw : WF x h) (hs : SMALL_SIZE < x.size_)
    (hp : h x.buffers_.as_dynamic.arr = some sa)
    (hp' : h' x.buffers_.as_dynamic.arr = some ⟨r, ws⟩) (hr : 1 ≤ r)
    (hl : ws.length = sa.words.length) : WF x h' := by
  obtain ⟨hwide, sa0, hp0, _, hlen, hcap, hcmax⟩ := (WF_shared x h hs).1 hw
  rw [hp] at hp0
  cases hp0
  exact (WF_shared x h' hs).2 ⟨hwide, _, hp', hr, by rw [hl, hlen], hcap, hcmax⟩

theorem ledger_perm {strict : Bool} {l1 l2 : List vector} {h : Heap} (hp : l1.Perm l2)
    (hl : Ledger strict l1 h) : Ledger strict l2 h := by
  obtain ⟨hw, hc⟩ := hl
  refine ⟨fun v hv => hw v (hp.mem_iff.2 hv), fun p sa hsa => ?_⟩
  rw [← holders_perm hp p]
  exact hc p sa hsa

theorem ledger_add_inline {strict : Bool} {l : List vector} {h : Heap} (w : vector)
    (hl : Ledger strict l h) (hs : w.size_ ≤ SMALL_SIZE) (hw : WF w h) :
    Ledger strict (w :: l) h := by
  obtain ⟨hwf, hc⟩ := hl
  refine ⟨fun v hv => ?_, fun p sa hsa => ?_⟩
  · rcases List.mem_cons.1 hv with he | he
    · rw [he]
      exact hw
    · exact hwf v he
  · rw [holders_cons_neg w l p (not_holds_of_inline w p hs)]
    exact hc p sa hsa

theorem ledger_drop_inline {strict : Bool} {l : List vector} {h : Heap} (w : vector)
    (hl : Ledger strict (w :: l) h) (hs : w.size_ ≤ SMALL_SIZE) : Ledger strict l h := by
  obtain ⟨hwf, hc⟩ := hl
  refine ⟨fun v hv => hwf v (List.mem_cons_of_mem _ hv), fun p sa hsa => ?_⟩
  rw [← holders_cons_neg w l p (not_holds_of_inline w p hs)]
  exact hc p sa hsa


/-- Replacing one container by the result of an operation with an exact effect keeps the
ledger. -/
theorem ledger_replace {strict leak : Bool} {v v' : vector} {rest : List vector}
    {h h' : Heap} (hl : Ledger strict (v :: rest) h) (hw' : WF v' h')
    (hE : Effect leak v h v' h') (hsl : strict = true → leak = false) :
    Ledger strict (v' :: rest) h' := by
  obtain ⟨hwf, hc⟩ := hl
  have hwv : WF v h := hwf v (List.mem_cons_self _ _)
  have hwr : ∀ x ∈ rest, WF x h := fun x hx => hwf x (List.mem_cons_of_mem _ hx)
  refine ⟨fun x hx => ?_, fun p sa' hsa' => ?_⟩
  · rcases List.mem_cons.1 hx with he | he
    · rw [he]
      exact hw'
    · have hwx := hwr x he
      by_cases hs : SMALL_SIZE < x.size_
      · have hhx : Holds x x.buffers_.as_dynamic.arr := ⟨hs, rfl⟩
        obtain ⟨sa, hsa, hrc, _⟩ := live_of_holds hwx hhx
        obtain ⟨c1, c2, c3, c4⟩ := hE x.buffers_.as_dynamic.arr
        have hk := holders_pos_of_mem he hhx
        by_cases hv : Holds v x.buffers_.as_dynamic.arr
        · have hcnt := (hc _ sa hsa).1
          rw [holders_cons_pos v rest _ hv] at hcnt
          by_cases hv' : Holds v' x.buffers_.as_dynamic.arr
          · obtain ⟨sa0, ws, e1, e2, e3, _⟩ := c1 hv hv'
            rw [hsa] at e1
            cases e1
            exact WF_of_same_length x h h' sa _ ws hwx hs hsa e2 hrc e3
          · obtain ⟨sa0, e1, e2⟩ := c2 hv hv'
            rw [hsa] at e1
            cases e1
            rcases e2 with e2 | ⟨_, e2, _⟩
            · have hn1 : sa.ref_counter ≠ 1 := by omega
              have e3 : h' x.buffers_.as_dynamic.arr =
                  some ⟨sa.ref_counter - 1, sa.words⟩ := by
                rw [e2]
                simp [released, hn1]
              exact WF_of_same_length x h h' sa _ _ hwx hs hsa e3 (by omega) rfl
            · omega
        · by_cases hv' : Holds v' x.buffers_.as_dynamic.arr
          · obtain ⟨e1, _⟩ := c3 hv hv'
            rw [hsa] at e1
            cases e1
          · rcases c4 hv hv' with e1 | ⟨_, e1, _⟩
            · exact WF_of_same_length x h h' sa sa.ref_counter sa.words hwx hs hsa
                (by rw [e1, hsa]) hrc rfl
            · rw [hsa] at e1
              cases e1
      · exact (WF_inline x h' (by omega)).2 ((WF_inline x h (by omega)).1 hwx)
  · obtain ⟨c1, c2, c3, c4⟩ := hE p
    by_cases hv : Holds v p
    · by_cases hv' : Holds v' p
      · obtain ⟨sa, ws, e1, e2, _, _⟩ := c1 hv hv'
        rw [hsa'] at e2
        cases e2
        have hold := hc p sa e1
        rw [holders_cons_pos v rest p hv] at hold
        rw [holders_cons_pos v' rest p hv']
        exact hold
      · obtain ⟨sa, e1, e2⟩ := c2 hv hv'
        have hold := hc p sa e1
        rw [holders_cons_pos v rest p hv] at hold
        rw [holders_cons_neg v' rest p hv']
        rcases e2 with e2 | ⟨hlk, hrc1, ws, e2⟩
        · rw [hsa'] at e2
          by_cases hn1 : sa.ref_counter = 1
          · simp [released, hn1] at e2
          · simp only [released, if_neg hn1] at e2
            cases e2
            refine ⟨by simp only; omega, fun hst => ?_⟩
            have := hold.2 hst
            simp only
            omega
        · rw [hsa'] at e2
          cases e2
          refine ⟨by simp only; omega, fun hst => ?_⟩
          have := hsl hst
          rw [hlk] at this
          cases this
    · have hk0 : h p = none → holders rest p = 0 := fun hn => holders_zero_of_none hwr hn
      by_cases hv' : Holds v' p
      · obtain ⟨e1, ws, e2⟩ := c3 hv hv'
        rw [hsa'] at e2
        cases e2
        rw [holders_cons_pos v' rest p hv', hk0 e1]
        exact ⟨le_refl _, fun _ => ⟨rfl, le_refl _⟩⟩
      · rw [holders_cons_neg v' rest p hv']
        rcases c4 hv hv' with e1 | ⟨hlk, e1, ws, e2⟩
        · rw [e1] at hsa'
          have hold := hc p sa' hsa'
          rw [holders_cons_neg v rest p hv] at hold
          exact hold
        · rw [hsa'] at e2
          cases e2
          rw [hk0 e1]
          refine ⟨Nat.zero_le _, fun hst => ?_⟩
          have := hsl hst
          rw [hlk] at this
          cases this


/-- Copy construction adds a container with the same handle and counts the block once
more. -/
theorem ledger_copy {strict : Bool} {u w : vector} {rest : List vector} {h h' : Heap}
    (hl : Ledger strict (u :: rest) h) (hr : copy_ctor u h = .ret () w h') :
    w = u ∧ Ledger strict (w :: u :: rest) h' ∧
      (∀ p, h' p = h p ∨ ∃ sa, h p = some sa ∧
        h' p = some ⟨sa.ref_counter + 1, sa.words⟩) := by
  have hwu : WF u h := hl.1 u (List.mem_cons_self _ _)
  by_cases hs : u.size_ ≤ SMALL_SIZE
  · obtain ⟨ev, eh⟩ := ret_unique (copy_ctor_inline u h hs) hr
    subst ev
    subst eh
    exact ⟨rfl, ledger_add_inline u hl hs hwu, fun _ => Or.inl rfl⟩
  · have hs1 : SMALL_SIZE < u.size_ := by omega
    obtain ⟨sa, hsa, hrc, _⟩ := live_of_holds hwu ⟨hs1, rfl⟩
    obtain ⟨ev, eh⟩ := ret_unique (copy_ctor_shared u h sa hs1 hsa) hr
    subst ev
    subst eh
    have huh : Holds u u.buffers_.as_dynamic.arr := ⟨hs1, rfl⟩
    refine ⟨rfl, ⟨fun x hx => ?_, fun p sa' hsa' => ?_⟩, fun p => ?_⟩
    · have hx' : x ∈ u :: rest := by
        rcases List.mem_cons.1 hx with he | he
        · rw [he]
          exact List.mem_cons_self _ _
        · exact he
      have hwx := hl.1 x hx'
      by_cases hsx : SMALL_SIZE < x.size_
      · obtain ⟨sx, hsx1, hrx, _⟩ := live_of_holds hwx ⟨hsx, rfl⟩
        by_cases hpe : x.buffers_.as_dynamic.arr = u.buffers_.as_dynamic.arr
        · rw [hpe, hsa] at hsx1
          cases hsx1
          exact WF_of_same_length x h _ sa (sa.ref_counter + 1) sa.words hwx hsx
            (by rw [hpe, hsa]) (by rw [hpe, heap_set_same]) (by omega) rfl
        · exact WF_of_same_length x h _ sx sx.ref_counter sx.words hwx hsx hsx1
            (by rw [heap_set_other _ _ _ _ hpe, hsx1]) hrx rfl
      · exact (WF_inline x _ (by omega)).2 ((WF_inline x h (by omega)).1 hwx)
    · by_cases hpe : p = u.buffers_.as_dynamic.arr
      · subst hpe
        rw [heap_set_same] at hsa'
        cases hsa'
        have hold := hl.2 _ sa hsa
        rw [holders_cons_pos u (u :: rest) _ huh]
        refine ⟨by simp only; omega, fun hst => ?_⟩
        have := hold.2 hst
        simp only
        omega
      · rw [heap_set_other _ _ _ _ hpe] at hsa'
        rw [holders_cons_neg u (u :: rest) p (fun hh => hpe hh.2.symm)]
        exact hl.2 p sa' hsa'
    · by_cases hpe : p = u.buffers_.as_dynamic.arr
      · subst hpe
        exact Or.inr ⟨sa, hsa, heap_set_same _ _ _⟩
      · exact Or.inl (heap_set_other _ _ _ _ hpe)

theorem WF_destroyed (v : vector) (h h' : Heap) (hw : WF v h) : WF ⟨0, v.buffers_⟩ h' :=
  (WF_inline ⟨0, v.buffers_⟩ h' (Nat.zero_le _)).2 (hw.1)

/-- Destruction releases the block and removes the container. -/
theorem ledger_destroy {strict leak : Bool} {v w : vector} {rest : List vector}
    {h h' : Heap} (hl : Ledger strict (v :: rest) h) (hr : destructor v h = .ret () w h')
    (hsl : strict = true → leak = false) :
    Ledger strict rest h' ∧ Effect leak v h ⟨0, v.buffers_⟩ h' := by
  have hwv : WF v h := hl.1 v (List.mem_cons_self _ _)
  obtain ⟨h1, e1, hE⟩ := destructor_effect leak v h hwv
  obtain ⟨_, eh⟩ := ret_unique e1 hr
  subst eh
  exact ⟨ledger_drop_inline ⟨0, v.buffers_⟩
    (ledger_replace hl (WF_destroyed v h h1 hwv) hE hsl) (Nat.zero_le _), hE⟩

theorem operator_assign_steps (pa pb : Nat) (a b a' : vector) (h h' : Heap) (hne : pa ≠ pb)
    (hr : operator_assign pa pb a b h = .ret () a' h') :
    ∃ tmp h1 w, copy_ctor b h = .ret () tmp h1 ∧ destructor a h1 = .ret () w h' ∧
      a' = tmp := by
  unfold operator_assign at hr
  simp only [if_pos hne] at hr
  cases hc : copy_ctor b h with
  | ret u tmp h1 =>
    rw [hc] at hr
    simp only [andThen_ret] at hr
    cases hd : destructor (swap a tmp).2 h1 with
    | ret u2 w h2 =>
      rw [hd] at hr
      simp only [andThen_ret] at hr
      cases hr
      exact ⟨tmp, h1, w, rfl, hd, rfl⟩
    | threw v2 h2 =>
      rw [hd] at hr
      simp only [Outcome.andThen] at hr
      cases hr
    | fault e =>
      rw [hd] at hr
      simp only [Outcome.andThen] at hr
      cases hr
  | threw v2 h2 =>
    rw [hc] at hr
    simp only [Outcome.andThen] at hr
    cases hr
  | fault e =>
    rw [hc] at hr
    simp only [Outcome.andThen] at hr
    cases hr

/-- Copy assignment from another container: a copy is made, then the old value is
destroyed. -/
theorem ledger_assign {strict : Bool} {pa pb : Nat} {a b a' : vector} {rest : List vector}
    {h h' : Heap} (hl : Ledger strict (a :: b :: rest) h) (hne : pa ≠ pb)
    (hr : operator_assign pa pb a b h = .ret () a' h') :
    a' = b ∧ Ledger strict (a' :: b :: rest) h' := by
  obtain ⟨tmp, h1, w, hc, hd, ha'⟩ := operator_assign_steps pa pb a b a' h h' hne hr
  subst ha'
  have hl1 : Ledger strict (b :: a :: rest) h := ledger_perm (List.Perm.swap b a rest) hl
  obtain ⟨htmp, hl2, _⟩ := ledger_copy hl1 hc
  subst htmp
  have hl3 : Ledger strict (a :: a' :: a' :: rest) h1 :=
    ledger_perm ((List.Perm.cons a' (List.Perm.swap a a' rest)).trans
      (List.Perm.swap a a' (a' :: rest))) hl2
  have hwa : WF a h1 := hl3.1 a (List.mem_cons_self _ _)
  obtain ⟨h2, e1, hE⟩ := destructor_effect false a h1 hwa
  obtain ⟨_, eh⟩ := ret_unique e1 hd
  subst eh
  exact ⟨rfl, ledger_drop_inline ⟨0, a.buffers_⟩
    (ledger_replace hl3 (WF_destroyed a h1 h2 hwa) hE (fun _ => rfl)) (Nat.zero_le _)⟩


theorem WF_default (prior : Nat → Nat) (h : Heap) : WF (vector_default prior) h :=
  (WF_inline (vector_default prior) h (Nat.zero_le _)).2
    (by simp [vector_default, SMALL_SIZE])

theorem operator_assign_self (pa : Nat) (v o : vector) (h : Heap) :
    operator_assign pa pa v o h = .ret () v h := by
  simp [operator_assign]

/-- Every step keeps the ledger; the exact ledger needs steps without `erase`. -/
theorem step_ledger {strict we : Bool} {s s' : System} (hl : Ledger strict s.objs s.heap)
    (hst : Step we s s') (hsl : strict = true → we = false) :
    Ledger strict s'.objs s'.heap := by
  cases hst with
  | default_constructed objs h prior =>
    exact ledger_add_inline _ hl (Nat.zero_le _) (WF_default prior h)
  | sized_constructed objs h prior a n w h' hf hn hr =>
    obtain ⟨w1, h1, e1, hw1, hE⟩ := vector_sized_effect false prior a n h hn hf
    obtain ⟨ev, eh⟩ := ret_unique e1 hr
    subst ev
    subst eh
    exact ledger_replace
      (ledger_add_inline _ hl (Nat.zero_le _) (WF_default prior h)) hw1 hE (fun _ => rfl)
  | copied objs h u rest w h' hperm hr =>
    exact (ledger_copy (ledger_perm hperm hl) hr).2.1
  | assigned objs h pa pb a b rest a' h' hne hperm hr =>
    exact (ledger_assign (ledger_perm hperm hl) hne hr).2
  | self_assigned objs h pa a rest a' h' hperm hr =>
    obtain ⟨ev, eh⟩ := ret_unique (operator_assign_self pa a a h) hr
    subst ev
    subst eh
    exact ledger_perm hperm hl
  | destroyed objs h v rest w h' hperm hr =>
    exact (ledger_destroy (ledger_perm hperm hl) hr (fun _ => rfl)).1
  | swapped objs h a b rest hperm =>
    exact ledger_perm (hperm.trans (List.Perm.swap b a rest)) hl
  | accessed objs h v rest a p v' h' hperm hf hr =>
    have hl1 := ledger_perm hperm hl
    obtain ⟨p1, v1, h1, e1, hw1, hE⟩ :=
      data_effect false a v h (hl1.1 v (List.mem_cons_self _ _)) hf
    obtain ⟨ev, eh⟩ := ret_unique e1 hr
    subst ev
    subst eh
    exact ledger_replace hl1 hw1 hE (fun _ => rfl)
  | mutated objs h v rest a m v' h' hperm hf hv he hr =>
    have hl1 := ledger_perm hperm hl
    obtain ⟨v1, h1, e1, hw1, hE1, hE2⟩ :=
      mutation_effect a m v h (hl1.1 v (List.mem_cons_self _ _)) hf hv
    obtain ⟨ev, eh⟩ := ret_unique e1 hr
    subst ev
    subst eh
    rcases he with he | he
    · refine ledger_replace hl1 hw1 hE1 (fun hst => ?_)
      have := hsl hst
      rw [he] at this
      cases this
    · exact ledger_replace hl1 hw1 (hE2 he) (fun _ => rfl)

theorem snapshot_subset {l l' : List vector} (hs : Snapshot l) (hsub : ∀ x ∈ l', x ∈ l) :
    Snapshot l' :=
  fun u hu w hw p hup hwp => hs u (hsub u hu) w (hsub w hw) p hup hwp

theorem snapshot_add_inline {l : List vector} (w : vector) (hs : Snapshot l)
    (hw : w.size_ ≤ SMALL_SIZE) : Snapshot (w :: l) := by
  intro u hu x hx p hup hxp
  rcases List.mem_cons.1 hu with he | he
  · rw [he] at hup
    exact absurd hup (not_holds_of_inline w p hw)
  · rcases List.mem_cons.1 hx with he2 | he2
    · rw [he2] at hxp
      exact absurd hxp (not_holds_of_inline w p hw)
    · exact hs u he x he2 p hup hxp

/-- A container that shares its block after an operation with an exact effect was not
touched by it: the operation would have moved it to a block of its own first. -/
theorem snapshot_pair {leak : Bool} {v v' x : vector} {rest : List vector} {h h' : Heap}
    (hl : Ledger false (v :: rest) h) (hs : Snapshot (v :: rest))
    (hE : Effect leak v h v' h') (hx : x ∈ rest) (p : Nat) (hv' : Holds v' p)
    (hxp : Holds x p) :
    v'.size_ = x.size_ ∧
      v'.buffers_.as_dynamic.capacity = x.buffers_.as_dynamic.capacity := by
  obtain ⟨c1, _, c3, _⟩ := hE p
  have hwx := hl.1 x (List.mem_cons_of_mem _ hx)
  obtain ⟨sx, hsx, _, _⟩ := live_of_holds hwx hxp
  by_cases hv : Holds v p
  · obtain ⟨sa, ws, e1, _, _, e4⟩ := c1 hv hv'
    have hcnt := (hl.2 p sa e1).1
    rw [holders_cons_pos v rest p hv] at hcnt
    have hk := holders_pos_of_mem hx hxp
    rcases e4 with ⟨_, e5, e6⟩ | e4
    · obtain ⟨o1, o2⟩ := hs v (List.mem_cons_self _ _) x (List.mem_cons_of_mem _ hx) p hv hxp
      exact ⟨e5.trans o1, e6.trans o2⟩
    · omega
  · obtain ⟨e1, _⟩ := c3 hv hv'
    rw [hsx] at e1
    cases e1

theorem snapshot_replace {leak : Bool} {v v' : vector} {rest : List vector} {h h' : Heap}
    (hl : Ledger false (v :: rest) h) (hs : Snapshot (v :: rest))
    (hE : Effect leak v h v' h') : Snapshot (v' :: rest) := by
  intro u hu x hx p hup hxp
  rcases List.mem_cons.1 hu with he | he
  · rcases List.mem_cons.1 hx with he2 | he2
    · rw [he, he2]
      exact ⟨rfl, rfl⟩
    · rw [he] at hup ⊢
      exact snapshot_pair hl hs hE he2 p hup hxp
  · rcases List.mem_cons.1 hx with he2 | he2
    · rw [he2] at hxp ⊢
      obtain ⟨o1, o2⟩ := snapshot_pair hl hs hE he p hxp hup
      exact ⟨o1.symm, o2.symm⟩
    · exact hs u (List.mem_cons_of_mem _ he) x (List.mem_cons_of_mem _ he2) p hup hxp


/-- Every step keeps the snapshot relation between containers that share a block. -/
theorem step_snapshot {we : Bool} {s s' : System} (hl : Ledger false s.objs s.heap)
    (hs : Snapshot s.objs) (hst : Step we s s') : Snapshot s'.objs := by
  cases hst with
  | default_constructed objs h prior =>
    exact snapshot_add_inline _ hs (Nat.zero_le _)
  | sized_constructed objs h prior a n w h' hf hn hr =>
    obtain ⟨w1, h1, e1, hw1, hE⟩ := vector_sized_effect false prior a n h hn hf
    obtain ⟨ev, eh⟩ := ret_unique e1 hr
    subst ev
    subst eh
    exact snapshot_replace
      (ledger_add_inline _ hl (Nat.zero_le _) (WF_default prior h))
      (snapshot_add_inline _ hs (Nat.zero_le _)) hE
  | copied objs h u rest w h' hperm hr =>
    obtain ⟨hw, _, _⟩ := ledger_copy (ledger_perm hperm hl) hr
    subst hw
    refine snapshot_subset hs (fun x hx => hperm.mem_iff.2 ?_)
    rcases List.mem_cons.1 hx with he | he
    · rw [he]
      exact List.mem_cons_self _ _
    · exact he
  | assigned objs h pa pb a b rest a' h' hne hperm hr =>
    obtain ⟨ha', _⟩ := ledger_assign (ledger_perm hperm hl) hne hr
    subst ha'
    refine snapshot_subset hs (fun x hx => hperm.mem_iff.2 ?_)
    rcases List.mem_cons.1 hx with he | he
    · rw [he]
      exact List.mem_cons_of_mem _ (List.mem_cons_self _ _)
    · exact List.mem_cons_of_mem _ he
  | self_assigned objs h pa a rest a' h' hperm hr =>
    obtain ⟨ev, eh⟩ := ret_unique (operator_assign_self pa a a h) hr
    subst ev
    subst eh
    exact snapshot_subset hs (fun x hx => hperm.mem_iff.2 hx)
  | destroyed objs h v rest w h' hperm hr =>
    exact snapshot_subset hs (fun x hx => hperm.mem_iff.2 (List.mem_cons_of_mem _ hx))
  | swapped objs h a b rest hperm =>
    exact snapshot_subset hs
      (fun x hx => (hperm.trans (List.Perm.swap b a rest)).mem_iff.2 hx)
  | accessed objs h v rest a p v' h' hperm hf hr =>
    have hl1 := ledger_perm hperm hl
    obtain ⟨p1, v1, h1, e1, hw1, hE⟩ :=
      data_effect false a v h (hl1.1 v (List.mem_cons_self _ _)) hf
    obtain ⟨ev, eh⟩ := ret_unique e1 hr
    subst ev
    subst eh
    exact snapshot_replace hl1 (snapshot_subset hs (fun x hx => hperm.mem_iff.2 hx)) hE
  | mutated objs h v rest a m v' h' hperm hf hv he hr =>
    have hl1 := ledger_perm hperm hl
    obtain ⟨v1, h1, e1, hw1, hE1, _⟩ :=
      mutation_effect a m v h (hl1.1 v (List.mem_cons_self _ _)) hf hv
    obtain ⟨ev, eh⟩ := ret_unique e1 hr
    subst ev
    subst eh
    exact snapshot_replace hl1 (snapshot_subset hs (fun x hx => hperm.mem_iff.2 hx)) hE1

/-- In every reachable state the ledger holds and sharing is a snapshot. -/
theorem reachable_sound {s : System} (hr : Reachable s) :
    Ledger false s.objs s.heap ∧ Snapshot s.objs := by
  induction hr with
  | start h =>
    refine ⟨⟨fun v hv => ?_, fun p sa _ => ⟨Nat.zero_le _, fun hst => ?_⟩⟩, ?_⟩
    · cases hv
    · cases hst
    · intro u hu
      cases hu
  | step s s' _ hst ih =>
    exact ⟨step_ledger ih.1 hst (fun hst => by cases hst), step_snapshot ih.1 ih.2 hst⟩

theorem counted_iff_ledger (s : System) : Counted s ↔ Ledger true s.objs s.heap := by
  constructor
  · rintro ⟨hw, hc⟩
    refine ⟨hw, fun p sa hsa => ?_⟩
    obtain ⟨e1, e2⟩ := hc p sa hsa
    exact ⟨by omega, fun _ => ⟨e1, e2⟩⟩
  · rintro ⟨hw, hc⟩
    exact ⟨hw, fun p sa hsa => (hc p sa hsa).2 rfl⟩

theorem lifecycle_refl (h : Heap) : Lifecycle h h := by
  intro p
  refine ⟨fun h1 sa' h2 => ?_, fun sa h1 h2 => ?_⟩
  · rw [h1] at h2
    cases h2
  · rw [h1] at h2
    cases h2

theorem effect_lifecycle {v v' : vector} {h h' : Heap} (hE : Effect false v h v' h') :
    Lifecycle h h' := by
  intro p
  obtain ⟨c1, c2, c3, c4⟩ := hE p
  by_cases hv : Holds v p
  · by_cases hv' : Holds v' p
    · obtain ⟨sa, ws, e1, e2, _, _⟩ := c1 hv hv'
      refine ⟨fun h1 => ?_, fun sa0 _ h2 => ?_⟩
      · rw [e1] at h1
        cases h1
      · rw [e2] at h2
        cases h2
    · obtain ⟨sa, e1, e2⟩ := c2 hv hv'
      refine ⟨fun h1 => ?_, fun sa0 h1 h2 => ?_⟩
      · rw [e1] at h1
        cases h1
      · rw [e1] at h1
        cases h1
        rcases e2 with e2 | ⟨hlk, _⟩
        · rw [e2] at h2
          by_contra hn1
          simp [released, hn1] at h2
        · cases hlk
  · by_cases hv' : Holds v' p
    · obtain ⟨e1, ws, e2⟩ := c3 hv hv'
      refine ⟨fun _ sa' h2 => ?_, fun sa0 h1 => ?_⟩
      · rw [e2] at h2
        cases h2
        rfl
      · rw [e1] at h1
        cases h1
    · rcases c4 hv hv' with e1 | ⟨hlk, _⟩
      · rw [e1]
        exact lifecycle_refl h p
      · cases hlk


theorem assign_lifecycle {pa pb : Nat} {a b a' : vector} {rest : List vector} {h h' : Heap}
    (hl : Ledger true (a :: b :: rest) h) (hne : pa ≠ pb)
    (hr : operator_assign pa pb a b h = .ret () a' h') : Lifecycle h h' := by
  obtain ⟨tmp, h1, w, hc, hd, _⟩ := operator_assign_steps pa pb a b a' h h' hne hr
  have hl1 : Ledger true (b :: a :: rest) h := ledger_perm (List.Perm.swap b a rest) hl
  obtain ⟨_, hl2, hcp⟩ := ledger_copy hl1 hc
  have hwa : WF a h1 :=
    hl2.1 a (List.mem_cons_of_mem _ (List.mem_cons_of_mem _ (List.mem_cons_self _ _)))
  obtain ⟨h2, e1, hE⟩ := destructor_effect false a h1 hwa
  obtain ⟨_, eh⟩ := ret_unique e1 hd
  subst eh
  have hL := effect_lifecycle hE
  intro p
  rcases hcp p with e | ⟨sa, e2, e3⟩
  · have := hL p
    rw [e] at this
    exact this
  · refine ⟨fun hn => ?_, fun sa0 h0 hnone => ?_⟩
    · rw [e2] at hn
      cases hn
    · rw [e2] at h0
      cases h0
      have h3 := (hL p).2 _ e3 hnone
      have h4 := ((hl.2 p sa e2).2 rfl).2
      simp only at h3
      omega

theorem copy_lifecycle {h h' : Heap}
    (hcp : ∀ p, h' p = h p ∨ ∃ sa, h p = some sa ∧
      h' p = some ⟨sa.ref_counter + 1, sa.words⟩) : Lifecycle h h' := by
  intro p
  rcases hcp p with e | ⟨sa, e2, e3⟩
  · rw [e]
    exact lifecycle_refl h p
  · refine ⟨fun hn => ?_, fun sa0 _ hnone => ?_⟩
    · rw [e2] at hn
      cases hn
    · rw [e3] at hnone
      cases hnone

/-- In a step without `erase`, a block that appears is counted once and a block that
disappears was counted once. -/
theorem step_lifecycle {s s' : System} (hl : Ledger true s.objs s.heap)
    (hst : Step false s s') : Lifecycle s.heap s'.heap := by
  cases hst with
  | default_constructed objs h prior => exact lifecycle_refl h
  | sized_constructed objs h prior a n w h' hf hn hr =>
    obtain ⟨w1, h1, e1, _, hE⟩ := vector_sized_effect false prior a n h hn hf
    obtain ⟨ev, eh⟩ := ret_unique e1 hr
    subst ev
    subst eh
    exact effect_lifecycle hE
  | copied objs h u rest w h' hperm hr =>
    exact copy_lifecycle (ledger_copy (ledger_perm hperm hl) hr).2.2
  | assigned objs h pa pb a b rest a' h' hne hperm hr =>
    exact assign_lifecycle (ledger_perm hperm hl) hne hr
  | self_assigned objs h pa a rest a' h' hperm hr =>
    obtain ⟨ev, eh⟩ := ret_unique (operator_assign_self pa a a h) hr
    subst eh
    exact lifecycle_refl h
  | destroyed objs h v rest w h' hperm hr =>
    exact effect_lifecycle
      (ledger_destroy (ledger_perm hperm hl) hr (fun _ => rfl)).2
  | swapped objs h a b rest hperm => exact lifecycle_refl h
  | accessed objs h v rest a p v' h' hperm hf hr =>
    have hl1 := ledger_perm hperm hl
    obtain ⟨p1, v1, h1, e1, _, hE⟩ :=
      data_effect false a v h (hl1.1 v (List.mem_cons_self _ _)) hf
    obtain ⟨ev, eh⟩ := ret_unique e1 hr
    subst ev
    subst eh
    exact effect_lifecycle hE
  | mutated objs h v rest a m v' h' hperm hf hv he hr =>
    have hl1 := ledger_perm hperm hl
    obtain ⟨v1, h1, e1, _, _, hE2⟩ :=
      mutation_effect a m v h (hl1.1 v (List.mem_cons_self _ _)) hf hv
    obtain ⟨ev, eh⟩ := ret_unique e1 hr
    subst ev
    subst eh
    rcases he with he | he
    · cases he
    · exact effect_lifecycle (hE2 he)

/-! ## C15: reference-count accounting -/

/-- C15: in a system where every container is well formed and the `ref_counter` of every live
block equals the number of containers in the shared representation that point to it (so it
is at least 1), every step by default or sized construction, copy construction, assignment,
destruction, swap, uniquifying access, `push_back`, `pop_back`, `resize`, `clear` or an
assignment through `operator[]` or `back()` leads to a system with the same property. A block
that appears in the step has `ref_counter` 1; a block that disappears had `ref_counter` 1 and
no container points to it afterwards; and a block that was live is gone after the step
exactly when no container points to it any more. -/
theorem C15_reference_count_accounting (s s' : System) (hc : Counted s)
    (hst : Step false s s') :
    Counted s' ∧
    (∀ p sa', s.heap p = none → s'.heap p = some sa' → sa'.ref_counter = 1) ∧
    (∀ p sa, s.heap p = some sa → s'.heap p = none →
      sa.ref_counter = 1 ∧ holders s'.objs p = 0) ∧
    (∀ p sa, s.heap p = some sa → (s'.heap p = none ↔ holders s'.objs p = 0)) := by
  have hl := (counted_iff_ledger s).1 hc
  have hl' := step_ledger hl hst (fun _ => rfl)
  have hc' := (counted_iff_ledger s').2 hl'
  have hL := step_lifecycle hl hst
  refine ⟨hc', fun p sa' h1 h2 => (hL p).1 h1 sa' h2,
    fun p sa h1 h2 => ⟨(hL p).2 sa h1 h2, holders_zero_of_none hc'.1 h2⟩,
    fun p sa _ => ⟨fun h2 => holders_zero_of_none hc'.1 h2, fun h0 => ?_⟩⟩
  cases hp : s'.heap p with
  | none => rfl
  | some sa' =>
    obtain ⟨e1, e2⟩ := hc'.2 p sa' hp
    omega


/-- C15 on one container `[1,2,3,4,5]` that owns block 100: after copy construction two
containers point to the block and its `ref_counter` is 2. -/
theorem C15_reference_count_accounting_witness :
    (Counted ⟨[vector_at 100 5 5], heap_one 100 [1, 2, 3, 4, 5]⟩ ∧
      Step false ⟨[vector_at 100 5 5], heap_one 100 [1, 2, 3, 4, 5]⟩
        ⟨[vector_at 100 5 5, vector_at 100 5 5],
          heap_set (heap_one 100 [1, 2, 3, 4, 5]) 100 (some ⟨2, [1, 2, 3, 4, 5]⟩)⟩) ∧
    Counted ⟨[vector_at 100 5 5, vector_at 100 5 5],
      heap_set (heap_one 100 [1, 2, 3, 4, 5]) 100 (some ⟨2, [1, 2, 3, 4, 5]⟩)⟩ ∧
    holders [vector_at 100 5 5, vector_at 100 5 5] 100 = 2 :=
  have hw : WF (vector_at 100 5 5) (heap_one 100 [1, 2, 3, 4, 5]) :=
    (WF_shared _ _ (by decide)).2
      ⟨rfl, ⟨1, [1, 2, 3, 4, 5]⟩, rfl, by decide, rfl, by decide, by decide⟩
  have hc : Counted ⟨[vector_at 100 5 5], heap_one 100 [1, 2, 3, 4, 5]⟩ :=
    ⟨fun v hv => by
        rw [List.mem_singleton.1 hv]
        exact hw,
      fun p sa hsa => by
        by_cases hp : p = 100
        · subst hp
          cases hsa
          exact ⟨rfl, le_refl _⟩
        · have hn : heap_one 100 [1, 2, 3, 4, 5] p = none := heap_set_other _ _ _ _ hp
          have hsa' : heap_one 100 [1, 2, 3, 4, 5] p = some sa := hsa
          rw [hn] at hsa'
          cases hsa'⟩
  have hst : Step false ⟨[vector_at 100 5 5], heap_one 100 [1, 2, 3, 4, 5]⟩
      ⟨[vector_at 100 5 5, vector_at 100 5 5],
        heap_set (heap_one 100 [1, 2, 3, 4, 5]) 100 (some ⟨2, [1, 2, 3, 4, 5]⟩)⟩ :=
    Step.copied [vector_at 100 5 5] (heap_one 100 [1, 2, 3, 4, 5]) (vector_at 100 5 5) []
      (vector_at 100 5 5) _ (List.Perm.refl _) rfl
  ⟨⟨hc, hst⟩, (C15_reference_count_accounting _ _ hc hst).1, rfl⟩

/-! ## C14: sharing is a snapshot -/

/-- C14: in every state reached from no containers by default and sized construction, copy
construction, assignment, destruction, swap, uniquifying access, `push_back`, `pop_back`,
`resize`, `erase`, `clear` and assignments through `operator[]` and `back()`, any two
containers that point to the same block have the same size, the same recorded capacity and
the same limb sequence. -/
theorem C14_sharing_is_a_snapshot (s : System) (hr : Reachable s) (u w : vector)
    (hu : u ∈ s.objs) (hw : w ∈ s.objs) (p : Nat) (hup : Holds u p) (hwp : Holds w p) :
    size u = size w ∧
    u.buffers_.as_dynamic.capacity = w.buffers_.as_dynamic.capacity ∧
    ∃ l, limbs u s.heap = some l ∧ limbs w s.heap = some l := by
  obtain ⟨hl, hs⟩ := reachable_sound hr
  obtain ⟨e1, e2⟩ := hs u hu w hw p hup hwp
  refine ⟨e1, e2, ?_⟩
  obtain ⟨_, sa, hp, _, hlen, hcap, _⟩ := (WF_shared u s.heap hup.1).1 (hl.1 u hu)
  have hpw : s.heap w.buffers_.as_dynamic.arr = some sa := by
    rw [hwp.2, ← hup.2, hp]
  refine ⟨sa.words.take u.size_, limbs_shared u s.heap sa hup.1 hp (by omega), ?_⟩
  rw [limbs_shared w s.heap sa hwp.1 hpw (by omega), e1]

/-- C14 on the state reached by `vector a(5); vector b(a);` with block 100: both containers
point to block 100 and read the same five limbs. -/
theorem C14_sharing_is_a_snapshot_witness :
    Reachable ⟨[vector_at 100 5 5, vector_at 100 5 5],
      heap_set (heap_set empty_heap 100 (some ⟨1, [7, 7, 7, 7, 7]⟩)) 100
        (some ⟨2, [7, 7, 7, 7, 7]⟩)⟩ ∧
    (size (vector_at 100 5 5) = size (vector_at 100 5 5) ∧
      (vector_at 100 5 5).buffers_.as_dynamic.capacity =
        (vector_at 100 5 5).buffers_.as_dynamic.capacity ∧
      ∃ l, limbs (vector_at 100 5 5) (heap_set (heap_set empty_heap 100
          (some ⟨1, [7, 7, 7, 7, 7]⟩)) 100 (some ⟨2, [7, 7, 7, 7, 7]⟩)) = some l ∧
        limbs (vector_at 100 5 5) (heap_set (heap_set empty_heap 100
          (some ⟨1, [7, 7, 7, 7, 7]⟩)) 100 (some ⟨2, [7, 7, 7, 7, 7]⟩)) = some l) :=
  have hreach : Reachable ⟨[vector_at 100 5 5, vector_at 100 5 5],
      heap_set (heap_set empty_heap 100 (some ⟨1, [7, 7, 7, 7, 7]⟩)) 100
        (some ⟨2, [7, 7, 7, 7, 7]⟩)⟩ :=
    Reachable.step ⟨[vector_at 100 5 5], heap_set empty_heap 100 (some ⟨1, [7, 7, 7, 7, 7]⟩)⟩ _
      (Reachable.step ⟨[], empty_heap⟩ _ (Reachable.start empty_heap)
        (Step.sized_constructed [] empty_heap (fun _ => 0) (block_of 100 7) 5
          (vector_at 100 5 5) _ rfl (by decide) rfl))
      (Step.copied [vector_at 100 5 5] _ (vector_at 100 5 5) [] (vector_at 100 5 5) _
        (List.Perm.refl _) rfl)
  ⟨hreach, C14_sharing_is_a_snapshot _ hreach (vector_at 100 5 5) (vector_at 100 5 5)
    (List.mem_cons_self _ _) (List.mem_cons_self _ _) 100 ⟨by decide, rfl⟩ ⟨by decide, rfl⟩⟩


/-! ## C19: writes stay inside the buffer -/

/-- C19 (amended): in every state reached from no containers by the constructors, copy,
assignment, destruction, swap, uniquifying access, `push_back`, `pop_back`, `resize`, `clear`
(and `erase`), with every count handed to the sized constructor and to `resize` at most
`MAX_WORDS`, a container in the shared representation has `SMALL_SIZE < size_ ≤ capacity` and
its block has exactly `capacity` slots. Therefore, with an allocator answer that is not
live and sizes `size_t` can describe: `push_back` on a container with at least `SMALL_SIZE`
limbs returns, and the index `size_` it wrote at is strictly below the number of slots of
the block the container then has; `resize` to a larger count above `SMALL_SIZE` returns, and
the new count is at most the number of slots of that block, so every slot written in
`[size_, n)` is inside it; `increased_capacity_` does not fail its assertion and every
capacity handed to `realloc_data_` is above `SMALL_SIZE`; and every mutating operation
within its contract, and every uniquifying access, returns without a fault. -/
theorem C19_writes_stay_inside_the_buffer (s : System) (hr : Reachable s) (v : vector)
    (hv : v ∈ s.objs) :
    (SMALL_SIZE < v.size_ →
      ∃ sa, s.heap v.buffers_.as_dynamic.arr = some sa ∧
        v.size_ ≤ v.buffers_.as_dynamic.capacity ∧
        sa.words.length = v.buffers_.as_dynamic.capacity) ∧
    (∀ a x, Fresh a s.heap → 2 * v.size_ ≤ MAX_WORDS → SMALL_SIZE ≤ v.size_ →
      ∃ v' h' sa', push_back (some a) x v s.heap = .ret () v' h' ∧
        h' v'.buffers_.as_dynamic.arr = some sa' ∧
        sa'.words.length = v'.buffers_.as_dynamic.capacity ∧
        v.size_ < sa'.words.length) ∧
    (∀ a n x, Fresh a s.heap → n ≤ MAX_WORDS → v.size_ < n → SMALL_SIZE < n →
      ∃ v' h' sa', resize (some a) n x v s.heap = .ret () v' h' ∧
        h' v'.buffers_.as_dynamic.arr = some sa' ∧
        sa'.words.length = v'.buffers_.as_dynamic.capacity ∧
        n ≤ sa'.words.length) ∧
    (SMALL_SIZE < v.size_ →
      (∃ c, increased_capacity_ v = .ok c ∧ SMALL_SIZE < c) ∧
      SMALL_SIZE < v.buffers_.as_dynamic.capacity) ∧
    (∀ a m, Fresh a s.heap → Mutation.valid m v.size_ →
      ∃ v' h', m.run (some a) v s.heap = .ret () v' h') ∧
    (∀ a, Fresh a s.heap → ∃ p v' h', data (some a) v s.heap = .ret p v' h') := by
  have hw : WF v s.heap := (reachable_sound hr).1.1 v hv
  obtain ⟨s0, hl0⟩ := WF_limbs hw
  refine ⟨fun hs => ?_, fun a x hf hmax hs => ?_, fun a n x hf hmax hlt hbig => ?_,
    fun hs => ?_, fun a m hf hm => ?_, fun a hf => ?_⟩
  · obtain ⟨_, sa, hp, _, hlen, hcap, _⟩ := (WF_shared v s.heap hs).1 hw
    exact ⟨sa, hp, hcap, hlen⟩
  · obtain ⟨v', h', he, hpost, _⟩ := push_back_spec a x v s.heap s0 hw hl0 hf hmax
    have hsz := hpost.size_eq
    obtain ⟨_, sa', hp', _, hlen', hcap', _⟩ := (WF_shared v' h' (by omega)).1 hpost.wf
    exact ⟨v', h', sa', he, hp', hlen', by omega⟩
  · obtain ⟨v', h', he, hpost⟩ := resize_spec a n x v s.heap s0 hw hl0 hf hmax
    have hsz := hpost.size_eq
    obtain ⟨_, sa', hp', _, hlen', hcap', _⟩ := (WF_shared v' h' (by omega)).1 hpost.wf
    exact ⟨v', h', sa', he, hp', hlen', by omega⟩
  · obtain ⟨_, sa, hp, _, hlen, hcap, hcmax⟩ := (WF_shared v s.heap hs).1 hw
    refine ⟨⟨2 * v.buffers_.as_dynamic.capacity, ?_, by omega⟩, by omega⟩
    have h0 : v.buffers_.as_dynamic.capacity ≠ 0 := by omega
    unfold increased_capacity_
    simp only [hs, if_true, h0, if_false, Nat.add_zero]
    congr 1
    unfold SIZE_RANGE
    unfold MAX_WORDS at hcmax
    omega
  · obtain ⟨v', h', he, _⟩ := mutation_runs a m v s.heap hw hf hm
    exact ⟨v', h', he⟩
  · obtain ⟨p, v', h', he, _⟩ := data_effect false a v s.heap hw hf
    exact ⟨p, v', h', he⟩

/-- C19 on the state reached by `vector a(5);` with block 100: the container has 5 limbs
in a block of 5 slots. -/
theorem C19_writes_stay_inside_the_buffer_witness :
    Reachable ⟨[vector_at 100 5 5], heap_set empty_heap 100 (some ⟨1, [7, 7, 7, 7, 7]⟩)⟩ ∧
    (SMALL_SIZE < (vector_at 100 5 5).size_ →
      ∃ sa, heap_set empty_heap 100 (some ⟨1, [7, 7, 7, 7, 7]⟩)
          (vector_at 100 5 5).buffers_.as_dynamic.arr = some sa ∧
        (vector_at 100 5 5).size_ ≤ (vector_at 100 5 5).buffers_.as_dynamic.capacity ∧
        sa.words.length = (vector_at 100 5 5).buffers_.as_dynamic.capacity) ∧
    (push_back (some (block_of 200 7)) 6 (vector_at 100 5 5)
        (heap_set empty_heap 100 (some ⟨1, [7, 7, 7, 7, 7]⟩))).observe
      (fun v h => (v, h 200)) =
      some (vector_at 200 6 10, some ⟨1, [7, 7, 7, 7, 7, 6, 7, 7, 7, 7]⟩) :=
  have hreach : Reachable
      ⟨[vector_at 100 5 5], heap_set empty_heap 100 (some ⟨1, [7, 7, 7, 7, 7]⟩)⟩ :=
    Reachable.step ⟨[], empty_heap⟩ _ (Reachable.start empty_heap)
      (Step.sized_constructed [] empty_heap (fun _ => 0) (block_of 100 7) 5
        (vector_at 100 5 5) _ rfl (by decide) rfl)
  ⟨hreach, (C19_writes_stay_inside_the_buffer _ hreach (vector_at 100 5 5)
    (List.mem_cons_self _ _)).1, rfl⟩


/-! ## Counts whose buffer does not fit `size_t` -/

/-- C1 (counterexample): `a = [1,2,3,4,5]` in block 100, `b` copy-constructed from `a`, then
`b.resize(4611686018427387902)`, one more than `MAX_WORDS`. The byte count `8 + 4 * n` of the
new block is `2^64`, which is 0 in `size_t`, so the block has no slot for a limb and copying
the five limbs into it writes outside it: the call is undefined and returns no state in
which `a` has its limbs. -/
theorem C1_resize_beyond_size_t_counterexample :
    WF (vector_at 100 5 5) (heap_one 100 [1, 2, 3, 4, 5]) ∧
    limbs (vector_at 100 5 5) (heap_one 100 [1, 2, 3, 4, 5]) = some [1, 2, 3, 4, 5] ∧
    copy_ctor (vector_at 100 5 5) (heap_one 100 [1, 2, 3, 4, 5]) =
      .ret () (vector_at 100 5 5)
        (heap_set (heap_one 100 [1, 2, 3, 4, 5]) 100 (some ⟨2, [1, 2, 3, 4, 5]⟩)) ∧
    Fresh (block_of 200 7)
      (heap_set (heap_one 100 [1, 2, 3, 4, 5]) 100 (some ⟨2, [1, 2, 3, 4, 5]⟩)) ∧
    alloc_bytes 4611686018427387902 = 0 ∧
    (Mutation.resize 4611686018427387902 0).run (some (block_of 200 7)) (vector_at 100 5 5)
      (heap_set (heap_one 100 [1, 2, 3, 4, 5]) 100 (some ⟨2, [1, 2, 3, 4, 5]⟩)) =
      .fault .undefined ∧
    ¬ ∃ b' h2, (Mutation.resize 4611686018427387902 0).run (some (block_of 200 7))
        (vector_at 100 5 5)
        (heap_set (heap_one 100 [1, 2, 3, 4, 5]) 100 (some ⟨2, [1, 2, 3, 4, 5]⟩)) =
        .ret () b' h2 ∧ limbs (vector_at 100 5 5) h2 = some [1, 2, 3, 4, 5] := by
  have hrun : (Mutation.resize 4611686018427387902 0).run (some (block_of 200 7))
      (vector_at 100 5 5)
      (heap_set (heap_one 100 [1, 2, 3, 4, 5]) 100 (some ⟨2, [1, 2, 3, 4, 5]⟩)) =
      .fault .undefined := rfl
  refine ⟨?_, rfl, rfl, rfl, by decide, hrun, ?_⟩
  · exact (WF_shared _ _ (by decide)).2
      ⟨rfl, ⟨1, [1, 2, 3, 4, 5]⟩, rfl, by decide, rfl, by decide, by decide⟩
  · rintro ⟨b', h2, hr, _⟩
    rw [hrun] at hr
    cases hr

/-- C6 (counterexample): `resize(4611686018427387902)`, one more than `MAX_WORDS`, on an
empty, well-formed container. The byte count of the new block is 0 in `size_t`, the block
has no slot, and filling `[0, n)` writes outside it: the call is undefined instead of
yielding `size() == n`. -/
theorem C6_resize_beyond_size_t_counterexample :
    WF (vector_default (fun _ => 0)) empty_heap ∧
    limbs (vector_default (fun _ => 0)) empty_heap = some [] ∧
    Fresh (block_of 100 0) empty_heap ∧
    alloc_slots 4611686018427387902 = 0 ∧
    resize (some (block_of 100 0)) 4611686018427387902 0 (vector_default (fun _ => 0))
      empty_heap = .fault .undefined ∧
    ¬ ∃ v' h', resize (some (block_of 100 0)) 4611686018427387902 0
        (vector_default (fun _ => 0)) empty_heap = .ret () v' h' ∧
        size v' = 4611686018427387902 := by
  have hrun : resize (some (block_of 100 0)) 4611686018427387902 0
      (vector_default (fun _ => 0)) empty_heap = .fault .undefined := rfl
  refine ⟨WF_default _ _, rfl, rfl, by decide, hrun, ?_⟩
  rintro ⟨v', h', hr, _⟩
  rw [hrun] at hr
  cases hr

/-- C19 (counterexample): `vector v(4611686018427387902)`, one more than `MAX_WORDS`, on an
empty free store. The constructor returns a container in the shared representation whose
count and recorded capacity are `2^62 - 2`, on a block that has no slot for a limb, so the
count is not at most the number of slots. Reading limb 0, writing limb 0 and a growing
`resize` then go outside the block. -/
theorem C19_sized_constructor_beyond_size_t_counterexample :
    (vector_sized (fun _ => 0) (some (block_of 100 7)) 4611686018427387902
        empty_heap).observe (fun v h => (v, h 100)) =
      some (vector_at 100 4611686018427387902 4611686018427387902, some ⟨1, []⟩) ∧
    SMALL_SIZE < (vector_at 100 4611686018427387902 4611686018427387902).size_ ∧
    ¬ (vector_at 100 4611686018427387902 4611686018427387902).size_ ≤
      ([] : List Nat).length ∧
    read_index 0 (vector_at 100 4611686018427387902 4611686018427387902)
      (heap_set empty_heap 100 (some ⟨1, []⟩)) = .error .undefined ∧
    assign_index (some (block_of 200 7)) 0 9
      (vector_at 100 4611686018427387902 4611686018427387902)
      (heap_set empty_heap 100 (some ⟨1, []⟩)) = .fault .undefined ∧
    resize (some (block_of 200 7)) 4611686018427387903 0
      (vector_at 100 4611686018427387902 4611686018427387902)
      (heap_set empty_heap 100 (some ⟨1, []⟩)) = .fault .undefined :=
  ⟨rfl, by decide, by decide, rfl, rfl, rfl⟩

end BigintVector
